import Mathlib

/-!
The yuck-scmver core: version records, their text codec and their ordering.

A shallow embedding of `build-aux/yuck-scmver.c`, and of the helper
`dt_io_unescape` of `src/date-io.h`.

Conventions of the embedding:

* a `char` is a natural number (its value as `unsigned char`); text is a
  `List Nat`; a pointer into a NUL-terminated buffer is the list of the bytes
  from the pointer up to (not including) the end of the buffer, and reading at
  the end of the list reads the terminating NUL;
* `unsigned int` is a natural number, reduced `% 2 ^ 32` wherever the C
  arithmetic can wrap; `unsigned long` is taken to be 64 bits wide;
* functions that fill a caller-supplied object return the new object.
-/

namespace Yuck

/-! ## Bytes -/

/-- The bytes of a string literal (without the terminating NUL). -/
def bytes (s : String) : List Nat := s.toList.map Char.toNat

/-- The byte a `const char*` points at: the head of the list, NUL at the end. -/
def peek (p : List Nat) : Nat := p.headD 0

/-- The C library's `strlen`: number of bytes before the first NUL. -/
def strlen : List Nat → Nat
  | [] => 0
  | c :: p => if c = 0 then 0 else strlen p + 1

/-- The C library's `memchr` over the `p.length` bytes of `p`: offset of the
first byte equal to `c`. -/
def memchr : List Nat → Nat → Option Nat
  | [], _ => none
  | x :: p, c => if x = c then some 0 else (memchr p c).map (· + 1)

/-- The C library's `memcmp` of the first `n` bytes: the difference of the first
pair of differing bytes, 0 when there is none (only the sign is specified by C). -/
def memcmp : List Nat → List Nat → Nat → Int
  | _, _, 0 => 0
  | a :: p, b :: q, n + 1 => if a = b then memcmp p q n else (a : Int) - (b : Int)
  | _, _, _ + 1 => 0

/-- The C library's `isspace` in the C locale. -/
def isspace (c : Nat) : Bool := c == 32 || (9 ≤ c && c ≤ 13)

/-- The C library's `isdigit`. -/
def isdigit (c : Nat) : Bool := 48 ≤ c && c ≤ 57

/-- ULONG_MAX for a 64-bit `unsigned long`. -/
def ULONG_MAX : Nat := 2 ^ 64 - 1

/-- The C library's `strtoul(nptr, &endptr, 10)`: skips white space, takes an
optional sign, then the longest run of decimal digits.  Returns the value
(saturated at `ULONG_MAX`, negated modulo `2 ^ 64` after a minus sign) and
`endptr - nptr`, which is 0 when there is no digit. -/
def strtoul (nptr : List Nat) : Nat × Nat :=
  let ws := nptr.takeWhile isspace
  let p := nptr.drop ws.length
  let sgn := if peek p = 45 ∨ peek p = 43 then 1 else 0
  let ds := (p.drop sgn).takeWhile isdigit
  let val := ds.foldl (fun a c => a * 10 + (c - 48)) 0
  if ds = [] then (0, 0)
  else if ULONG_MAX < val then (ULONG_MAX, ws.length + sgn + ds.length)
  else if peek p = 45 then ((2 ^ 64 - val) % 2 ^ 64, ws.length + sgn + ds.length)
  else (val, ws.length + sgn + ds.length)

/-- What `printf("%u", n)` prints: the decimal digits of `n`, most significant
first; `fuel` bounds the number of digits. -/
def utoa : Nat → Nat → List Nat
  | 0, _ => []
  | fuel + 1, n => if n < 10 then [48 + n] else utoa fuel (n / 10) ++ [48 + n % 10]

/-- Conversion `%u` of an `unsigned int`. -/
def fmt_u (n : Nat) : List Nat := utoa 10 (n % 2 ^ 32)

/-- A lower-case hexadecimal digit. -/
def hexdigit (d : Nat) : Nat := if d < 10 then 48 + d else 87 + d

/-- What `printf("%x", n)` prints, `fuel` bounding the number of digits. -/
def xtoa : Nat → Nat → List Nat
  | 0, _ => []
  | fuel + 1, n => if n < 16 then [hexdigit n] else xtoa fuel (n / 16) ++ [hexdigit (n % 16)]

/-- Conversion `%0*x` of an `unsigned int` with minimum field width `w`: the
hexadecimal digits, padded on the left with `0` up to `w` characters. -/
def fmt_0x (w n : Nat) : List Nat :=
  let ds := xtoa 8 (n % 2 ^ 32)
  List.replicate (w - ds.length) 48 ++ ds

/-- The C library's `snprintf(buf, size, ...)` for an output `s`: the bytes
stored at `buf` (at most `size - 1` of `s`, then NUL) and the return value,
the full length of `s`. -/
def snprintf (size : Nat) (s : List Nat) : List Nat × Nat :=
  (if size = 0 then [] else s.take (size - 1) ++ [0], s.length)

/-- Memory `mem` after storing the bytes `w` at offset `pos`; cells before `pos`
that were never written show as 0. -/
def store (mem : List Nat) (pos : Nat) (w : List Nat) : List Nat :=
  (mem ++ List.replicate (pos - mem.length) 0).take pos ++ w ++ mem.drop (pos + w.length)

/-! ## Text primitives -/

/-- `xstrlcpy(dst, src, dsz)`: the bytes stored at `dst` and the return value. -/
def xstrlcpy (src : List Nat) (dsz : Nat) : List Nat × Nat :=
  if dsz = 0 then ([], 0)
  else
    let ssz := if strlen src > dsz then dsz - 1 else strlen src
    (src.take ssz ++ [0], ssz)

/-- `xstrlncpy(dst, dsz, src, ssz)`: the bytes stored at `dst` and the return
value. -/
def xstrlncpy (dsz : Nat) (src : List Nat) (ssz : Nat) : List Nat × Nat :=
  if dsz = 0 then ([], 0)
  else
    let ssz := if ssz > dsz then dsz - 1 else ssz
    (src.take ssz ++ [0], ssz)

/-- First loop of `xmemmem`: runs `hp` and `np` in step, accumulating the XOR
sums and the equality flag; returns the sums, the flag and the two cursors. -/
def xmemmem_sums : List Nat → List Nat → Nat → Nat → Bool →
    Nat × Nat × Bool × List Nat × List Nat
  | h :: hp, n :: np, hsum, nsum, eqp =>
    xmemmem_sums hp np (hsum ^^^ h) (nsum ^^^ n) (eqp && (h == n))
  | hp, np, hsum, nsum, eqp => (hsum, nsum, eqp, hp, np)

/-- Second loop of `xmemmem`: slides the window by one byte per round, updating
the XOR sum; returns the offset of the match from the initial `cand`. -/
def xmemmem_roll (ndl : List Nat) (nsum : Nat) : List Nat → List Nat → Nat → Option Nat
  | c :: cand, h :: hp, hsum =>
    let hsum1 := (hsum ^^^ c) ^^^ h
    if hsum1 = nsum ∧ memcmp cand ndl (ndl.length - 1) = 0 then some 1
    else (xmemmem_roll ndl nsum cand hp hsum1).map (· + 1)
  | _, _, _ => none

/-- `xmemmem(hay, hayz, ndl, ndlz)` with `hayz = hay.length`, `ndlz = ndl.length`:
offset of the match, `none` for NULL. -/
def xmemmem (hay ndl : List Nat) : Option Nat :=
  match ndl with
  | [] => some 0
  | n0 :: np0 =>
    match memchr hay n0 with
    | none => none
    | some k =>
      let hay1 := hay.drop k
      match xmemmem_sums (hay1.drop 1) np0 (peek hay1) (peek hay1) true with
      | (hsum, nsum, eqp, hp, np) =>
        if np ≠ [] then none
        else if eqp then some k
        else (xmemmem_roll ndl nsum hay1 hp hsum).map (· + k)

/-- Value of a hexadecimal digit, as the `switch` of `hextou` computes it. -/
def hexval (c : Nat) : Option Nat :=
  if 48 ≤ c ∧ c ≤ 57 then some (c - 48)
  else if 97 ≤ c ∧ c ≤ 102 then some (c - 97 + 10)
  else if 65 ≤ c ∧ c ≤ 70 then some (c - 65 + 10)
  else none

/-- First loop of `hextou`, `k` rounds left: returns `res`, the round counter
`i` advanced and the cursor. -/
def hextou_loop : Nat → List Nat → Nat → Nat → Nat × Nat × List Nat
  | 0, sp, res, i => (res, i, sp)
  | k + 1, sp, res, i =>
    match hexval (peek sp) with
    | none => (res, i, sp)
    | some this => hextou_loop k (sp.drop 1) (((res <<< 4) % 2 ^ 32) ||| this) (i + 1)

/-- `hextou(sp, &ep)` for non-NULL `sp`: the packed result and `ep - sp`. -/
def hextou (sp : List Nat) : Nat × Nat :=
  if peek sp = 0 then (0, 0)
  else
    match hextou_loop 7 sp 0 0 with
    | (res, i, sp1) =>
      let sp2 := sp1.dropWhile (fun c => (hexval c).isSome)
      ((((res <<< 4) % 2 ^ 32) ||| i), sp.length - sp2.length)

/-! ## The version record -/

/-- Modelled from the spec: the enumeration `yuck_scm_t` of the header
`yuck-scmver.h`, which is not among the sources.  The spec orders the kinds
`Error < Tarball < Git < Bzr < Hg`; the indices of `yscm_strs` and `yscm_abbr`
in `yuck-scmver.c` fix Tarball, Git, Bzr, Hg at 0, 1, 2, 3. -/
inductive yuck_scm_t
  | YUCK_SCM_ERROR
  | YUCK_SCM_TARBALL
  | YUCK_SCM_GIT
  | YUCK_SCM_BZR
  | YUCK_SCM_HG
deriving DecidableEq, Repr

open yuck_scm_t

/-- Modelled from the spec: the integer value of a `yuck_scm_t`. -/
def yuck_scm_t.toInt : yuck_scm_t → Int
  | YUCK_SCM_ERROR => -1
  | YUCK_SCM_TARBALL => 0
  | YUCK_SCM_GIT => 1
  | YUCK_SCM_BZR => 2
  | YUCK_SCM_HG => 3

/-- Modelled from the spec: `struct yuck_version_s` of the header
`yuck-scmver.h`, which is not among the sources.  The members are, in the
order the spec gives for the byte-wise comparison: the scm kind, the tag
(`char vtag[16]`, the 16 bytes of the array), the distance, the packed
revision (both `unsigned int`) and the dirty flag (a one-bit field). -/
structure yuck_version_s where
  scm : yuck_scm_t
  vtag : List Nat
  dist : Nat
  rvsn : Nat
  dirty : Nat
deriving DecidableEq, Repr

/-- The record after `memset(v, 0, sizeof(*v))`. -/
def yuck_version_zero : yuck_version_s :=
  { scm := YUCK_SCM_TARBALL, vtag := List.replicate 16 0, dist := 0, rvsn := 0, dirty := 0 }

/-- The values a `struct yuck_version_s` can hold. -/
def yuck_version_s.wf (v : yuck_version_s) : Prop :=
  v.vtag.length = 16 ∧ (∀ c ∈ v.vtag, c < 256) ∧ v.dist < 2 ^ 32 ∧ v.rvsn < 2 ^ 32 ∧ v.dirty < 2

instance (v : yuck_version_s) : Decidable v.wf := by
  unfold yuck_version_s.wf; infer_instance

/-- The four bytes of a 32-bit object, least significant first. -/
def le32 (n : Nat) : List Nat := [n % 256, n / 256 % 256, n / 65536 % 256, n / 16777216 % 256]

/-- Modelled from the spec: the bytes of a record in member order (scm, tag,
distance, revision, dirty), each integer member in four little-endian bytes. -/
def yuck_version_s.image (v : yuck_version_s) : List Nat :=
  le32 (v.scm.toInt % 2 ^ 32).toNat ++ v.vtag ++ le32 v.dist ++ le32 v.rvsn ++ le32 v.dirty

/-- The memory that starts at the member `vtag` and runs to the end of the
record. -/
def yuck_version_s.at_vtag (v : yuck_version_s) : List Nat :=
  v.vtag ++ le32 v.dist ++ le32 v.rvsn ++ le32 v.dirty

/-- The record after the bytes `w` (at most 17) were stored at `v->vtag`: the
first 16 land in the array, a 17th lands in the first byte of `dist`. -/
def bang_vtag (v : yuck_version_s) (w : List Nat) : yuck_version_s :=
  { v with
    vtag := w.take 16 ++ v.vtag.drop w.length
    dist := if 16 < w.length then v.dist - v.dist % 256 + w.getD 16 0 else v.dist }

/-! ## The codec -/

/-- The part of `rd_version` from `/* read distance */` to the end, entered
with the cursor `dist` non-NULL: the return code and the record. -/
def rd_version_dist (v1 : yuck_version_s) (dist : List Nat) : Int × yuck_version_s :=
  let v2 := { v1 with dist := (strtoul dist).1 % 2 ^ 32 }
  let eod := dist.drop (strtoul dist).2
  if peek eod = 46 ∧ v2.scm.toInt ≤ 0 then (-1, v2)
  else if peek eod ≠ 46 ∧ peek eod ≠ 45 then (0, v2)
  else
    let bp := eod.drop 1
    let sw : Option (yuck_scm_t × List Nat) :=
      if peek bp = 103 then some (YUCK_SCM_GIT, bp.drop 1)
      else if peek bp = 104 then some (YUCK_SCM_HG, bp.drop 1)
      else if peek bp = 98 ∧ v2.scm.toInt ≤ 0 then some (YUCK_SCM_BZR, bp.drop 1)
      else if 0 < v2.scm.toInt then some (v2.scm, bp)
      else none
    match sw with
    | none => (0, v2)
    | some (scm, bp1) =>
      let v3 := { v2 with scm := scm, rvsn := (hextou bp1).1 }
      let bp2 := bp1.drop (hextou bp1).2
      if bp2 = [] then (0, v3)
      else if peek bp2 ≠ 45 ∧ peek bp2 ≠ 46 then (0, v3)
      else if bp2.length < 6 then (0, v3)
      else if memcmp (bp2.drop 1) [100, 105, 114, 116, 121] 5 = 0 then
        (0, { v3 with dirty := 1 })
      else (0, v3)

/-- `rd_version(v, buf, bsz)` with `bsz = buf.length` and `buf[bsz] = NUL`, as
`yuck_version_read` calls it: the return code and the record. -/
def rd_version (v : yuck_version_s) (buf : List Nat) : Int × yuck_version_s :=
  let c := peek buf
  if ¬ (c = 118 ∨ c = 86 ∨ isdigit c) then (-1, v)
  else
    let vtag := if c = 118 ∨ c = 86 then buf.drop 1 else buf
    let eov0 : Nat := (memchr vtag 45).getD vtag.length
    let dist0 : Option (List Nat) := (memchr vtag 45).map (fun k => vtag.drop (k + 1))
    let alt : yuck_scm_t × Nat × Option (List Nat) :=
      match xmemmem vtag [46, 103, 105, 116] with
      | some k => (YUCK_SCM_GIT, k, some (vtag.drop (k + 4)))
      | none =>
        match xmemmem vtag [46, 98, 122, 114] with
        | some k => (YUCK_SCM_BZR, k, some (vtag.drop (k + 4)))
        | none =>
          match xmemmem vtag [46, 104, 103] with
          | some k => (YUCK_SCM_HG, k, some (vtag.drop (k + 3)))
          | none => (v.scm, eov0, dist0)
    let v1 := bang_vtag { v with scm := alt.1 } (xstrlncpy 16 vtag alt.2.1).1
    match alt.2.2 with
    | none => (0, v1)
    | some dist => rd_version_dist v1 dist

/-- The table `yscm_abbr[] = "tgbh"` indexed by an scm kind above the error
kind. -/
def yscm_abbr (s : yuck_scm_t) : Nat := [116, 103, 98, 104].getD s.toInt.toNat 0

/-- `wr_version(buf, bsz, v)` for non-NULL `buf`: the return value and the
bytes of `buf` from its start. -/
def wr_version (bsz : Nat) (v : yuck_version_s) : Int × List Nat :=
  if bsz = 0 then (-1, [])
  else
    let mem0 := [118]
    let cp := xstrlcpy v.at_vtag (bsz - 1)
    let mem1 := store mem0 1 cp.1
    let bp1 := 1 + cp.2
    if v.dist = 0 then (bp1, mem1)
    else if bp1 + 1 ≥ bsz then (-1, mem1)
    else
      let mem2 := store mem1 bp1 [45]
      let pd := snprintf (bsz - (bp1 + 1)) (fmt_u v.dist)
      let mem3 := store mem2 (bp1 + 1) pd.1
      let bp3 := bp1 + 1 + pd.2
      if v.rvsn = 0 ∨ v.scm.toInt ≤ 0 then (bp3, mem3)
      else if bp3 + 2 + 8 ≥ bsz then (-1, mem3)
      else
        let mem4 := store mem3 bp3 [45, yscm_abbr v.scm]
        let px := snprintf (bsz - (bp3 + 2)) (fmt_0x (v.rvsn &&& 7) (v.rvsn >>> 4))
        let mem5 := store mem4 (bp3 + 2) px.1
        let bp5 := bp3 + 2 + px.2
        if v.dirty = 0 then (bp5, mem5)
        else if bp5 + 1 + 5 ≥ bsz then (-1, mem5)
        else
          let cd := xstrlcpy [45, 100, 105, 114, 116, 121] (bsz - bp5)
          (bp5 + cd.2, store mem5 bp5 cd.1)

/-- The line `yuck_version_write_fd` puts on the wire (without the newline):
the first `nwr` bytes of the 256-byte buffer, `none` when `wr_version` does not
return a positive length. -/
def wr_text (v : yuck_version_s) : Option (List Nat) :=
  if (wr_version 256 v).1 ≤ 0 then none
  else some ((wr_version 256 v).2.take (wr_version 256 v).1.toNat)

/-! ## Backend extractors

The child process is represented by what the parent observes of it: the value
`run` returned, the bytes each `read` delivered and the exit code `fin`
returned.  `buf0` is the content of the stack buffer before the `read`. -/

/-- The C library's `strchr` for a non-NUL `c`: offset of the first `c` before
the terminating NUL. -/
def strchr : List Nat → Nat → Option Nat
  | [], _ => none
  | x :: p, c => if x = c then some 0 else if x = 0 then none else (strchr p c).map (· + 1)

/-- The C library's `strcmp`: difference of the first pair of differing bytes. -/
def strcmp : List Nat → List Nat → Int
  | [], [] => 0
  | [], b :: _ => -(b : Int)
  | a :: _, [] => (a : Int)
  | a :: p, b :: q => if a = b then (if a = 0 then 0 else strcmp p q) else (a : Int) - (b : Int)

/-- `git_version(v)`: `chld` is the value of `run`, `rd` the bytes the single
`read` delivered (empty when `read` returned 0 or failed), `st` the value of
`fin`. -/
def git_version (v : yuck_version_s) (chld : Int) (buf0 rd : List Nat) (st : Int) :
    Int × yuck_version_s :=
  if chld < 0 then (-1, v)
  else
    let body : Int × yuck_version_s :=
      if rd.length = 0 then (-1, v)
      else
        let mem0 := store (store buf0 0 (rd.take 256)) ((rd.take 256).length - 1) [0]
        if peek mem0 ≠ 118 then (-1, v)
        else
          match strchr (mem0.drop 1) 45 with
          | none => (0, bang_vtag v (xstrlcpy (mem0.drop 1) 16).1)
          | some k =>
            let mem1 := store mem0 (1 + k) [0]
            let v1 := bang_vtag v (xstrlcpy (mem1.drop 1) 16).1
            let dist := 1 + k + 1
            let mem2 :=
              match strchr (mem1.drop dist) 45 with
              | none => mem1
              | some j => store mem1 (dist + j) [0]
            let v2 := { v1 with dist := (strtoul (mem2.drop dist)).1 % 2 ^ 32 }
            let bp := dist + (strtoul (mem2.drop dist)).2 + 1
            let v3 :=
              if peek (mem2.drop bp) = 103 then { v2 with rvsn := (hextou (mem2.drop (bp + 1))).1 }
              else v2
            let bp3 :=
              if peek (mem2.drop bp) = 103 then bp + 1 + (hextou (mem2.drop (bp + 1))).2
              else bp
            if peek (mem2.drop bp3) = 0 then (0, v3)
            else
              let bp4 := if peek (mem2.drop bp3) = 45 then bp3 + 1 else bp3
              if strcmp (mem2.drop bp4) [100, 105, 114, 116, 121] = 0 then
                (0, { v3 with dirty := 1 })
              else (0, v3)
    (if st ≠ 0 then -1 else body.1, body.2)

/-- The scan `while (bz-- > 0 && buf[bz] != '\n');` followed by `bz++`, and
likewise `while (--bp >= buf && *bp != '\n');` followed by `++bp`: one past the
last newline below `bz`, 0 when there is none. -/
def last_line : List Nat → Nat → Nat
  | _, 0 => 0
  | buf, bz + 1 => if buf.getD bz 0 = 10 then bz + 1 else last_line buf bz

/-- The sliding-window loop of `bzr_version` over the results `reads` of the
successive `read` calls: the buffer, `bp` and `nrd` when the loop is left, or
`none` when it is never left (a `read` of 0 bytes returns 0 for ever). -/
def bzr_tail : List (List Nat) → List Nat → Nat → Nat → Option (List Nat × Nat × Nat)
  | [], buf, bp, bz => if bz = 0 then none else some (buf, bp, 0)
  | chunk :: rest, buf, bp, bz =>
    if bz = 0 then none
    else
      let buf1 := store buf bp (chunk.take bz)
      if (chunk.take bz).length = bz then
        let bz1 := last_line buf1 bz
        let buf2 := if bz1 < 4096 then store buf1 0 ((buf1.drop bz1).take (4096 - bz1)) else buf1
        bzr_tail rest buf2 (4096 - bz1) bz1
      else some (buf1, bp, (chunk.take bz).length)

/-- `bzr_version(v)`: `chld1`, `rd1`, `st1` describe the child `bzr revno`
(buffer `buf0`), `chld2`, `reads`, `st2` the child `bzr tags --sort=time`
(buffer `buf1`); `none` when the function does not return. -/
def bzr_version (v : yuck_version_s) (chld1 : Int) (buf0 rd1 : List Nat) (st1 : Int)
    (chld2 : Int) (buf1 : List Nat) (reads : List (List Nat)) (st2 : Int) :
    Option (Int × yuck_version_s) :=
  if chld1 < 0 then some (-1, v)
  else
    let mem := store buf0 0 (rd1.take 256)
    let va :=
      if rd1.length = 0 then v
      else { v with rvsn := ((((strtoul mem).1 % 2 ^ 32) <<< 4) % 2 ^ 32) ||| ((strtoul mem).2 % 2 ^ 32) }
    if st1 ≠ 0 then some (-1, va)
    else if chld2 < 0 then some (-1, va)
    else
      match bzr_tail reads buf1 0 4096 with
      | none => none
      | some (buf, bp, nrd) =>
        let body : Int × yuck_version_s :=
          if nrd = 0 then (0, va)
          else
            let m0 := store buf (bp + nrd - 1) [0]
            let ls := last_line m0 (bp + nrd)
            if peek (m0.drop ls) ≠ 118 then (-1, va)
            else
              match strchr (m0.drop (ls + 1)) 32 with
              | none => (0, bang_vtag va (xstrlcpy (m0.drop (ls + 1)) 16).1)
              | some k =>
                let m1 := store m0 (ls + 1 + k) [0]
                let vb := bang_vtag va (xstrlcpy (m1.drop (ls + 1)) 16).1
                let rno := (strtoul (m1.drop (ls + 1 + k + 1))).1 % 2 ^ 32
                (0, { vb with dist := (vb.rvsn + 2 ^ 32 - rno) % 2 ^ 32 })
        some (if st2 ≠ 0 then -1 else body.1, body.2)

/-! ## Locating the root of the working copy -/

/-- First loop of `xdirname`, `for (--fp; fp >= fn && *fp != '/'; fp--);`: the
offset of the nearest `/` below `fp`, `none` when the cursor leaves `fn` at
its start. -/
def xdirname_back (fn : List Nat) : Nat → Option Nat
  | 0 => none
  | fp + 1 => if fn.getD fp 0 = 47 then some fp else xdirname_back fn fp

/-- Second loop of `xdirname`, `while (fp >= fn && *--fp == '/');`, entered
with the cursor on a `/`, followed by `++fp`: the offset the function returns,
`none` when the cursor leaves `fn` at its start. -/
def xdirname_skip (fn : List Nat) : Nat → Option Nat
  | 0 => none
  | fp + 1 => if fn.getD fp 0 = 47 then xdirname_skip fn fp else some (fp + 1)

/-- `xdirname(fn, fp)` for a non-NULL `fp = fn + fp`: `none` for NULL, else the
offset `dp - fn` of the returned pointer; the string in `fn` is then cut
there. -/
def xdirname (fn : List Nat) (fp : Nat) : Option Nat :=
  if fp = 0 then none else (xdirname_back fn fp).bind (xdirname_skip fn)

/-- The test `stat(fn, st) == 0 && S_ISDIR(st->st_mode)`: `stat` gives for a
file name `none` when the call fails, else whether the file is a directory and
its inode number. -/
def is_dir (stat : List Nat → Option (Bool × Nat)) (fn : List Nat) : Bool :=
  match stat fn with
  | some (isdir, _) => isdir
  | none => false

/-- One test of `scm_chk`, `xstrlcpy(dp, name, fz - (dp - fn))` followed by
`stat(fn, st) == 0 && S_ISDIR(st->st_mode)`: `fn` holds the path up to `dp`. -/
def scm_chk (stat : List Nat → Option (Bool × Nat)) (fz : Nat) (fn name : List Nat) : Bool :=
  is_dir stat (fn ++ name.take (xstrlcpy name (fz - fn.length)).2)

/-- The loop of `find_scm` from the label `scm_chk` on, `fn` holding the path up
to `dp`: the kind returned and the string left in `fn`; `none` when `fuel`
rounds do not reach a `return`. -/
def find_scm_up (stat : List Nat → Option (Bool × Nat)) (fz : Nat) :
    Nat → List Nat → Option (yuck_scm_t × List Nat)
  | 0, _ => none
  | fuel + 1, fn =>
    if scm_chk stat fz fn [47, 46, 103, 105, 116] then some (YUCK_SCM_GIT, fn)
    else if scm_chk stat fz fn [47, 46, 98, 122, 114] then some (YUCK_SCM_BZR, fn)
    else if scm_chk stat fz fn [47, 46, 104, 103] then some (YUCK_SCM_HG, fn)
    else if peek fn ≠ 47 then
      match stat fn with
      | none => some (YUCK_SCM_ERROR, fn)
      | some (_, curino) =>
        let fn1 := fn ++ [47, 46, 46].take (xstrlcpy [47, 46, 46] (fz - fn.length)).2
        match stat fn1 with
        | none => some (YUCK_SCM_ERROR, fn1)
        | some (_, ino) =>
          if ino = curino then some (YUCK_SCM_TARBALL, fn1) else find_scm_up stat fz fuel fn1
    else
      match xdirname fn fn.length with
      | some dp => find_scm_up stat fz fuel (fn.take dp)
      | none =>
        some (YUCK_SCM_TARBALL,
          fn ++ [47, 46, 104, 103].take (xstrlcpy [47, 46, 104, 103] (fz - fn.length)).2)

/-- The loop of `find_scm` at the label `again`, `fn` holding the path up to
`dp`; `none` when `fuel` rounds do not reach a `return`. -/
def find_scm_again (stat : List Nat → Option (Bool × Nat)) (fz : Nat) :
    Nat → List Nat → Option (yuck_scm_t × List Nat)
  | 0, _ => none
  | fuel + 1, fn =>
    match stat fn with
    | none => some (YUCK_SCM_ERROR, fn)
    | some (isdir, _) =>
      if fn.length + 5 ≥ fz then some (YUCK_SCM_ERROR, fn)
      else if ¬ isdir then
        match xdirname fn fn.length with
        | none => find_scm_again stat fz fuel [46]
        | some dp => find_scm_again stat fz fuel (fn.take dp)
      else find_scm_up stat fz (fuel + 1) fn

/-- `find_scm(fn, fz, path)`, `path = none` for NULL: the kind returned and the
string left in `fn`; `none` when `fuel` rounds of its loops do not reach a
`return`.  A store that `xstrlcpy` makes one byte past its bound is taken to
land without harm. -/
def find_scm (stat : List Nat → Option (Bool × Nat)) (fz : Nat) (path : Option (List Nat))
    (fuel : Nat) : Option (yuck_scm_t × List Nat) :=
  let fn0 : List Nat :=
    match path with
    | none => [46]
    | some p => if (xstrlcpy p fz).2 = 0 then [46] else p.take (xstrlcpy p fz).2
  find_scm_again stat fz fuel fn0

/-! ## The unescaping helper `dt_io_unescape` of `src/date-io.h` -/

/-- The table `esc_map[] = "\a\bcd\e\fghijklm\nopq\rs\tu\v"` of
`dt_io_unescape`, indexed by a letter `a` to `v` less `'a'`. -/
def esc_map : List Nat :=
  [7, 8, 99, 100, 27, 12, 103, 104, 105, 106, 107, 108, 109, 10, 111, 112, 113, 13, 115, 9,
    117, 11]

/-- The loop `do ... while (*p)` of `dt_io_unescape`, entered with `p` on a
backslash: the argument is the memory from `p` on (a read behind it gives
NUL); the result is the bytes stored through `q` and the number of bytes `p`
has moved when the loop is left. -/
def dt_io_unescape_loop : List Nat → List Nat × Nat
  | [] => ([], 0)
  | [c] => if c = 0 then ([], 0) else if c ≠ 92 then ([c], 1) else ([0], 2)
  | c :: d :: rest =>
    if c = 0 then ([], 0)
    else if c ≠ 92 then
      (c :: (dt_io_unescape_loop (d :: rest)).1, (dt_io_unescape_loop (d :: rest)).2 + 1)
    else
      ((if d = 0 then 0 else if d < 97 ∨ 118 < d then d else esc_map.getD (d - 97) 0) ::
          (dt_io_unescape_loop rest).1,
        (dt_io_unescape_loop rest).2 + 2)

/-- `dt_io_unescape(s)`: `mem` is the memory from `s` on, the string, its
terminating NUL and the bytes that follow it; the result is that memory after
the call and the offset `p - s` at which the scan ended (the offset of the
terminator when `strchr` finds no backslash). -/
def dt_io_unescape (mem : List Nat) : List Nat × Nat :=
  match strchr mem 92 with
  | none => (mem, strlen mem)
  | some k =>
    (store mem k ((dt_io_unescape_loop (mem.drop k)).1 ++ [0]),
      k + (dt_io_unescape_loop (mem.drop k)).2)

/-! ## Specification-side notions used to state the properties -/

/-- XOR of the bytes of a window. -/
def xorsum : List Nat → Nat
  | [] => 0
  | a :: l => a ^^^ xorsum l

/-- Offset of the first occurrence of `ndl` in `hay`, `none` when there is none. -/
def first_occ : List Nat → List Nat → Option Nat
  | [], ndl => if ndl = [] then some 0 else none
  | h :: hay, ndl =>
    if ndl.isPrefixOf (h :: hay) then some 0 else (first_occ hay ndl).map (· + 1)

/-- The number a string of decimal digits denotes. -/
def decnum (ds : List Nat) : Nat := ds.foldl (fun a c => a * 10 + (c - 48)) 0

/-- The number a string of hexadecimal digits (either case) denotes. -/
def hexnum (hs : List Nat) : Nat := hs.foldl (fun a c => a * 16 + (hexval c).getD 0) 0

/-- The `w` least significant hexadecimal digits of `n`, most significant
first, in lower case. -/
def hexfix : Nat → Nat → List Nat
  | 0, _ => []
  | w + 1, n => hexfix w (n / 16) ++ [hexdigit (n % 16)]

/-- A lower-case hexadecimal digit character. -/
def islowerhex (c : Nat) : Bool := (48 ≤ c && c ≤ 57) || (97 ≤ c && c ≤ 102)

/-- The letter that names an scm kind on the wire: `g`, `b`, `h`. -/
def scm_letter : yuck_scm_t → Nat
  | YUCK_SCM_GIT => 103
  | YUCK_SCM_BZR => 98
  | YUCK_SCM_HG => 104
  | _ => 116

/-- The tag a record holds: the bytes of `vtag` before the first NUL. -/
def tag_of (v : yuck_version_s) : List Nat := v.vtag.takeWhile (· ≠ 0)

/-- The group `-<scmLetter><hex-revision>` of a record: the revision is the
value `rvsn >> 4`, zero-padded to the width `rvsn & 7`. -/
def wire_rev (v : yuck_version_s) : List Nat :=
  45 :: scm_letter v.scm :: fmt_0x (v.rvsn &&& 7) (v.rvsn >>> 4)

/-- The wire form as C4 states it: `v`, the tag, then nothing or the complete
group `-<DIST>-<scmLetter><hex-revision>`, then optionally `-dirty`. -/
def claimed_wire_forms (v : yuck_version_s) : List (List Nat) :=
  [ 118 :: tag_of v,
    118 :: tag_of v ++ [45, 100, 105, 114, 116, 121],
    118 :: tag_of v ++ 45 :: fmt_u v.dist ++ wire_rev v,
    118 :: tag_of v ++ 45 :: fmt_u v.dist ++ wire_rev v ++ [45, 100, 105, 114, 116, 121] ]

/-- The wire form of a record: `v` and the tag; for a non-zero distance `-` and
the distance in decimal; after that, for a non-zero revision of a record whose
scm is Git, Bzr or Hg, the group `-<scmLetter><hex-revision>`, and after that
group `-dirty` when the dirty flag is set. -/
def wire_text (v : yuck_version_s) : List Nat :=
  118 :: tag_of v ++
    (if v.dist = 0 then []
     else 45 :: fmt_u v.dist ++
      (if v.rvsn = 0 ∨ v.scm.toInt ≤ 0 then []
       else wire_rev v ++ (if v.dirty = 0 then [] else [45, 100, 105, 114, 116, 121])))

/-- The scm kind a letter of the wire form names. -/
def scm_of_letter (l : Nat) : yuck_scm_t :=
  if l = 103 then YUCK_SCM_GIT else if l = 98 then YUCK_SCM_BZR
  else if l = 104 then YUCK_SCM_HG else YUCK_SCM_TARBALL

/-- The embedded marker of an scm kind: `.git`, `.bzr`, `.hg`. -/
def scm_marker : yuck_scm_t → List Nat
  | YUCK_SCM_GIT => [46, 103, 105, 116]
  | YUCK_SCM_BZR => [46, 98, 122, 114]
  | YUCK_SCM_HG => [46, 104, 103]
  | _ => []

/-- The text `v<TAG>-<DIST>-<letter><HEX>[-dirty]` of the primary grammar. -/
def primary_text (tag ds : List Nat) (l : Nat) (hs : List Nat) (dirty : Bool) : List Nat :=
  118 :: (tag ++ 45 :: (ds ++ 45 :: l :: (hs ++
    if dirty then [45, 100, 105, 114, 116, 121] else [])))

/-- The text `v<TAG><marker><DIST>.<HEX>[.dirty]` of the alternate grammar. -/
def alt_text (tag : List Nat) (s : yuck_scm_t) (ds hs : List Nat) (dirty : Bool) : List Nat :=
  118 :: (tag ++ scm_marker s ++ (ds ++ 46 :: (hs ++
    if dirty then [46, 100, 105, 114, 116, 121] else [])))

/-- A tag `t` as it sits in the 16-byte member `vtag` of a zero-initialised
record: the bytes of `t`, then NULs. -/
def tag_field (t : List Nat) : List Nat := t ++ List.replicate (16 - t.length) 0

/-- A hexadecimal digit character in lower case. -/
def hexlower (c : Nat) : Nat := if 65 ≤ c ∧ c ≤ 70 then c + 32 else c

/-- The text at the cursor starts with `-` or `.` followed by `dirty`. -/
def dirty_ahead (bp : List Nat) : Bool :=
  (peek bp == 45 || peek bp == 46) && (bp.drop 1).take 5 == [100, 105, 114, 116, 121]

/-- `k` steps up from a directory: `k` times `/..`. -/
def up_path : Nat → List Nat
  | 0 => []
  | k + 1 => up_path k ++ [47, 46, 46]

/-- The inode number `stat` reports for a file name, `none` when it fails. -/
def st_ino (stat : List Nat → Option (Bool × Nat)) (fn : List Nat) : Option Nat :=
  (stat fn).map Prod.snd

/-- The directories an absolute path names on the way up: the path itself, then
what `xdirname` leaves of it, and so on while `xdirname` finds a component to
strip (at most `n` times). -/
def abs_chain : Nat → List Nat → List (List Nat)
  | 0, fn => [fn]
  | n + 1, fn =>
    fn :: (match xdirname fn fn.length with
      | some dp => abs_chain n (fn.take dp)
      | none => [])

/-- The three names `find_scm` looks for: `/.git`, `/.bzr`, `/.hg`. -/
def scm_dirs : List (List Nat) :=
  [[47, 46, 103, 105, 116], [47, 46, 98, 122, 114], [47, 46, 104, 103]]

/-- The number of `/..` steps in a path tail made of such steps and an optional
final `/.`. -/
def count_up : List Nat → Option Nat
  | [] => some 0
  | [47, 46] => some 0
  | 47 :: 46 :: 46 :: r => (count_up r).map (· + 1)
  | _ => none

/-- A file system without any `.git`, `.bzr` or `.hg`, seen from a working
directory `depth` levels below the root: the names `.`, `./..`, `./../..`, ...
(each also with a final `/.`) are directories, the root has inode 2, the
directory `j` levels below it inode `2 + j`; no other name exists. -/
def deep_fs (depth : Nat) : List Nat → Option (Bool × Nat)
  | 46 :: r => (count_up r).map (fun k => (true, 2 + (depth - k)))
  | _ => none

/-- A file system whose root holds a directory `.git` and a directory `a`:
seen through absolute names and, from the working directory `/a`, through
relative ones. -/
def root_git_fs (p : List Nat) : Option (Bool × Nat) :=
  if p = bytes "/" ∨ p = bytes "./.." ∨ p = bytes "./../.." then some (true, 2)
  else if p = bytes "/a" ∨ p = bytes "." then some (true, 3)
  else if p = bytes "/.git" ∨ p = bytes "//.git" ∨ p = bytes "./../.git" then some (true, 4)
  else none

/-- The text `rd_version` works on: what follows a leading `v` or `V`, the
whole text when it starts otherwise. -/
def after_v (buf : List Nat) : List Nat :=
  if peek buf = 118 ∨ peek buf = 86 then buf.drop 1 else buf

/-- The character an escape letter stands for: BEL, BS, ESC, FF, LF, CR, TAB,
VT for `a`, `b`, `e`, `f`, `n`, `r`, `t`, `v`, any other character itself. -/
def unescaped (d : Nat) : Nat :=
  if d = 97 then 7 else if d = 98 then 8 else if d = 101 then 27 else if d = 102 then 12
  else if d = 110 then 10 else if d = 114 then 13 else if d = 116 then 9
  else if d = 118 then 11 else d

/-- The string C23 describes: each backslash with the character behind it
replaced by what that character stands for, a final backslash without a
character behind it dropped, every other byte kept. -/
def unescape_text : List Nat → List Nat
  | [] => []
  | [c] => if c = 92 then [] else [c]
  | c :: d :: rest =>
    if c = 92 then unescaped d :: unescape_text rest else c :: unescape_text (d :: rest)

/-- The string ends in a backslash that has no partner: reading it in pairs
from the first backslash on leaves a single backslash at the end. -/
def ends_unpaired : List Nat → Bool
  | [] => false
  | [c] => c == 92
  | c :: d :: rest => if c = 92 then ends_unpaired rest else ends_unpaired (d :: rest)

/-! ## Ordering -/

/-- `yuck_version_cmp(v1, v2)`. -/
def yuck_version_cmp (v1 v2 : yuck_version_s) : Int :=
  if v1.dist = 0 ∧ v2.dist = 0 then memcmp v1.vtag v2.vtag 16
  else memcmp v1.image v2.image 32

end Yuck

namespace Yuck

open yuck_scm_t

/-! ## Facts about `memcmp` -/

theorem memcmp_antisymm (p q : List Nat) (n : Nat) : memcmp p q n = -memcmp q p n := by
  induction n generalizing p q with
  | zero => simp [memcmp]
  | succ n ih =>
    cases p with
    | nil => cases q <;> simp [memcmp]
    | cons a p =>
      cases q with
      | nil => simp [memcmp]
      | cons b q =>
        by_cases h : a = b
        · subst h; simpa [memcmp] using ih p q
        · have h2 : ¬ b = a := fun e => h e.symm
          simp [memcmp, h, h2]

theorem memcmp_eq_zero_iff (p q : List Nat) (n : Nat) (hp : n ≤ p.length) (hq : n ≤ q.length) :
    memcmp p q n = 0 ↔ p.take n = q.take n := by
  induction n generalizing p q with
  | zero => simp [memcmp]
  | succ n ih =>
    cases p with
    | nil => simp at hp
    | cons a p =>
      cases q with
      | nil => simp at hq
      | cons b q =>
        simp only [List.length_cons, Nat.add_le_add_iff_right] at hp hq
        by_cases h : a = b
        · subst h; simpa [memcmp] using ih p q hp hq
        · have : (a : Int) - (b : Int) ≠ 0 := by omega
          simp [memcmp, h, this]

theorem memcmp_trans (p q r : List Nat) (n : Nat) (hp : n ≤ p.length) (hq : n ≤ q.length)
    (hr : n ≤ r.length) (h1 : memcmp p q n ≤ 0) (h2 : memcmp q r n ≤ 0) : memcmp p r n ≤ 0 := by
  induction n generalizing p q r with
  | zero => simp [memcmp]
  | succ n ih =>
    cases p with
    | nil => simp at hp
    | cons a p =>
      cases q with
      | nil => simp at hq
      | cons b q =>
        cases r with
        | nil => simp at hr
        | cons c r =>
          simp only [List.length_cons, Nat.add_le_add_iff_right] at hp hq hr
          simp only [memcmp] at h1 h2 ⊢
          by_cases hab : a = b
          · subst hab
            by_cases hac : a = c
            · subst hac
              simp only [if_true] at h1 h2 ⊢
              exact ih p q r hp hq hr h1 h2
            · simpa [hac] using h2
          · by_cases hbc : b = c
            · subst hbc
              simpa [hab] using h1
            · simp only [hab, hbc, if_false] at h1 h2
              by_cases hac : a = c
              · omega
              · simp only [hac, if_false]; omega

theorem memcmp_append_left (l x y : List Nat) (n : Nat) :
    memcmp (l ++ x) (l ++ y) (l.length + n) = memcmp x y n := by
  induction l with
  | nil => simp
  | cons a l ih =>
    have : (a :: l).length + n = (l.length + n) + 1 := by simp; omega
    rw [List.cons_append, List.cons_append, this]
    simpa [memcmp] using ih

theorem image_length (v : yuck_version_s) (h : v.vtag.length = 16) : v.image.length = 32 := by
  simp [yuck_version_s.image, le32, h]

/-! ## The ordering `yuck_version_cmp` -/

/-- C8, as stated, fails: with `a` and `c` exactly at a tag and `b` three
commits past one, `a` and `b` as well as `b` and `c` are compared as whole
records, `a` and `c` by their tags alone, and `a <= b`, `b <= c`, `a > c`. -/
theorem yuck_version_cmp_not_transitive :
    yuck_version_cmp { yuck_version_zero with vtag := bytes "2" ++ List.replicate 15 0 }
        { yuck_version_zero with vtag := bytes "3" ++ List.replicate 15 0, dist := 1 } ≤ 0 ∧
    yuck_version_cmp { yuck_version_zero with vtag := bytes "3" ++ List.replicate 15 0, dist := 1 }
        { yuck_version_zero with scm := YUCK_SCM_GIT, vtag := bytes "1" ++ List.replicate 15 0 } ≤ 0 ∧
    ¬ yuck_version_cmp { yuck_version_zero with vtag := bytes "2" ++ List.replicate 15 0 }
        { yuck_version_zero with scm := YUCK_SCM_GIT, vtag := bytes "1" ++ List.replicate 15 0 } ≤ 0 := by
  decide

/-- C8, amended: the sign of `yuck_version_cmp a b` is the opposite of the sign
of `yuck_version_cmp b a` for all records, and `cmp(a,b) <= 0`, `cmp(b,c) <= 0`
imply `cmp(a,c) <= 0` when all three records have zero distance or no two of
them have. -/
theorem yuck_version_cmp_order (a b c : yuck_version_s) (ha : a.wf) (hb : b.wf) (hc : c.wf) :
    Int.sign (yuck_version_cmp a b) = -Int.sign (yuck_version_cmp b a) ∧
    (((a.dist = 0 ∧ b.dist = 0 ∧ c.dist = 0) ∨
        (¬ (a.dist = 0 ∧ b.dist = 0) ∧ ¬ (b.dist = 0 ∧ c.dist = 0) ∧ ¬ (a.dist = 0 ∧ c.dist = 0))) →
      yuck_version_cmp a b ≤ 0 → yuck_version_cmp b c ≤ 0 → yuck_version_cmp a c ≤ 0) := by
  constructor
  · have hsw : (b.dist = 0 ∧ a.dist = 0) ↔ (a.dist = 0 ∧ b.dist = 0) := And.comm
    unfold yuck_version_cmp
    by_cases h : a.dist = 0 ∧ b.dist = 0
    · rw [if_pos h, if_pos (hsw.2 h), memcmp_antisymm a.vtag b.vtag, Int.sign_neg]
    · rw [if_neg h, if_neg (fun h2 => h (hsw.1 h2)), memcmp_antisymm a.image b.image, Int.sign_neg]
  · intro hmode h1 h2
    unfold yuck_version_cmp at h1 h2 ⊢
    rcases hmode with ⟨za, zb, zc⟩ | ⟨nab, nbc, nac⟩
    · rw [if_pos ⟨za, zb⟩] at h1
      rw [if_pos ⟨zb, zc⟩] at h2
      rw [if_pos ⟨za, zc⟩]
      exact memcmp_trans _ _ _ 16 (by rw [ha.1]) (by rw [hb.1]) (by rw [hc.1]) h1 h2
    · rw [if_neg nab] at h1
      rw [if_neg nbc] at h2
      rw [if_neg nac]
      exact memcmp_trans _ _ _ 32 (by rw [image_length a ha.1]) (by rw [image_length b hb.1])
        (by rw [image_length c hc.1]) h1 h2

theorem yuck_version_cmp_order_witness :
    Int.sign (yuck_version_cmp { yuck_version_zero with dist := 1 }
        { yuck_version_zero with dist := 2 }) =
      -Int.sign (yuck_version_cmp { yuck_version_zero with dist := 2 }
        { yuck_version_zero with dist := 1 }) ∧
    (yuck_version_cmp { yuck_version_zero with dist := 1 } { yuck_version_zero with dist := 2 } ≤ 0 →
      yuck_version_cmp { yuck_version_zero with dist := 2 } { yuck_version_zero with dist := 3 } ≤ 0 →
      yuck_version_cmp { yuck_version_zero with dist := 1 } { yuck_version_zero with dist := 3 } ≤ 0) :=
  ⟨(yuck_version_cmp_order { yuck_version_zero with dist := 1 } { yuck_version_zero with dist := 2 }
      { yuck_version_zero with dist := 3 } (by decide) (by decide) (by decide)).1,
   (yuck_version_cmp_order { yuck_version_zero with dist := 1 } { yuck_version_zero with dist := 2 }
      { yuck_version_zero with dist := 3 } (by decide) (by decide) (by decide)).2
      (Or.inr (by decide))⟩

/-- C9, as stated, fails: two records exactly at a tag (distance 0) that
differ only in the dirty flag compare equal. -/
theorem dirty_tiebreak_fails_at_tag :
    yuck_version_cmp { yuck_version_zero with vtag := bytes "1.0" ++ List.replicate 13 0, dirty := 1 }
      { yuck_version_zero with vtag := bytes "1.0" ++ List.replicate 13 0, dirty := 0 } = 0 := by
  decide

/-- C9, amended: two records with the same scm, tag, non-zero distance and
revision, one dirty and one clean: the dirty one compares greater, the clean
one less. -/
theorem dirty_tiebreak (a b : yuck_version_s) (ha : a.wf) (hscm : a.scm = b.scm)
    (htag : a.vtag = b.vtag) (hdist : a.dist = b.dist) (hrvsn : a.rvsn = b.rvsn)
    (hda : a.dirty = 1) (hdb : b.dirty = 0) (hnz : a.dist ≠ 0) :
    0 < yuck_version_cmp a b ∧ yuck_version_cmp b a < 0 := by
  have key : 0 < yuck_version_cmp a b := by
    unfold yuck_version_cmp
    rw [if_neg (fun h => hnz h.1)]
    have hl : (le32 (a.scm.toInt % 2 ^ 32).toNat ++ a.vtag ++ le32 a.dist ++ le32 a.rvsn).length
        = 28 := by simp [le32, ha.1]
    have e1 : a.image = (le32 (a.scm.toInt % 2 ^ 32).toNat ++ a.vtag ++ le32 a.dist ++ le32 a.rvsn)
        ++ le32 1 := by simp [yuck_version_s.image, hda]
    have e2 : b.image = (le32 (a.scm.toInt % 2 ^ 32).toNat ++ a.vtag ++ le32 a.dist ++ le32 a.rvsn)
        ++ le32 0 := by simp [yuck_version_s.image, hdb, hscm, htag, hdist, hrvsn]
    have e3 := memcmp_append_left
      (le32 (a.scm.toInt % 2 ^ 32).toNat ++ a.vtag ++ le32 a.dist ++ le32 a.rvsn) (le32 1) (le32 0) 4
    rw [hl] at e3
    rw [e1, e2, e3]
    decide
  refine ⟨key, ?_⟩
  unfold yuck_version_cmp at key ⊢
  have hnz2 : ¬ (b.dist = 0 ∧ a.dist = 0) := fun h => hnz h.2
  rw [if_neg (fun h => hnz h.1)] at key
  rw [if_neg hnz2, memcmp_antisymm]
  omega

theorem dirty_tiebreak_witness :
    0 < yuck_version_cmp { yuck_version_zero with scm := YUCK_SCM_GIT, dist := 3, rvsn := 0x1a2b3c47, dirty := 1 }
      { yuck_version_zero with scm := YUCK_SCM_GIT, dist := 3, rvsn := 0x1a2b3c47, dirty := 0 } ∧
    yuck_version_cmp { yuck_version_zero with scm := YUCK_SCM_GIT, dist := 3, rvsn := 0x1a2b3c47, dirty := 0 }
      { yuck_version_zero with scm := YUCK_SCM_GIT, dist := 3, rvsn := 0x1a2b3c47, dirty := 1 } < 0 :=
  dirty_tiebreak _ _ (by decide) rfl rfl rfl rfl rfl rfl (by decide)

/-- C10: for two records with zero distance `yuck_version_cmp` is the `memcmp`
of the two 16-byte tag fields; it is unchanged when scm, revision and dirty
flag of either record are replaced, and it is 0 iff the tag fields are equal. -/
theorem zero_dist_cmp_tag_only (a b : yuck_version_s) (ha : a.wf) (hb : b.wf)
    (hda : a.dist = 0) (hdb : b.dist = 0) :
    yuck_version_cmp a b = memcmp a.vtag b.vtag 16 ∧
    (∀ (s1 s2 : yuck_scm_t) (r1 r2 d1 d2 : Nat),
      yuck_version_cmp { a with scm := s1, rvsn := r1, dirty := d1 }
        { b with scm := s2, rvsn := r2, dirty := d2 } = yuck_version_cmp a b) ∧
    (yuck_version_cmp a b = 0 ↔ a.vtag = b.vtag) := by
  have e : yuck_version_cmp a b = memcmp a.vtag b.vtag 16 := by
    simp [yuck_version_cmp, hda, hdb]
  refine ⟨e, ?_, ?_⟩
  · intro s1 s2 r1 r2 d1 d2
    simp [yuck_version_cmp, hda, hdb]
  · rw [e, memcmp_eq_zero_iff _ _ 16 (by rw [ha.1]) (by rw [hb.1])]
    have h1 : a.vtag.take 16 = a.vtag := List.take_of_length_le (by rw [ha.1])
    have h2 : b.vtag.take 16 = b.vtag := List.take_of_length_le (by rw [hb.1])
    rw [h1, h2]

theorem zero_dist_cmp_tag_only_witness :
    yuck_version_cmp { yuck_version_zero with scm := YUCK_SCM_GIT, vtag := bytes "1.0" ++ List.replicate 13 0, dirty := 1 }
        { yuck_version_zero with vtag := bytes "1.1" ++ List.replicate 13 0, rvsn := 5 } = -1 ∧
    (yuck_version_cmp { yuck_version_zero with scm := YUCK_SCM_GIT, vtag := bytes "1.0" ++ List.replicate 13 0, dirty := 1 }
        { yuck_version_zero with vtag := bytes "1.1" ++ List.replicate 13 0, rvsn := 5 } = 0 ↔
      bytes "1.0" ++ List.replicate 13 0 = bytes "1.1" ++ List.replicate 13 0) :=
  ⟨(zero_dist_cmp_tag_only
      { yuck_version_zero with scm := YUCK_SCM_GIT, vtag := bytes "1.0" ++ List.replicate 13 0, dirty := 1 }
      { yuck_version_zero with vtag := bytes "1.1" ++ List.replicate 13 0, rvsn := 5 }
      (by decide) (by decide) rfl rfl).1.trans (by decide),
   (zero_dist_cmp_tag_only
      { yuck_version_zero with scm := YUCK_SCM_GIT, vtag := bytes "1.0" ++ List.replicate 13 0, dirty := 1 }
      { yuck_version_zero with vtag := bytes "1.1" ++ List.replicate 13 0, rvsn := 5 }
      (by decide) (by decide) rfl rfl).2.2⟩

/-! ## Facts about `xmemmem` -/

theorem xorsum_append (a b : List Nat) : xorsum (a ++ b) = xorsum a ^^^ xorsum b := by
  induction a with
  | nil => simp [xorsum]
  | cons x a ih => simp [xorsum, ih, Nat.xor_assoc]

theorem xmemmem_sums_spec (np : List Nat) :
    ∀ (hp : List Nat) (hs ns : Nat) (e : Bool), np.length ≤ hp.length →
      xmemmem_sums hp np hs ns e =
        (hs ^^^ xorsum (hp.take np.length), ns ^^^ xorsum np,
          e && decide (hp.take np.length = np), hp.drop np.length, []) := by
  induction np with
  | nil => intro hp hs ns e _; cases hp <;> simp [xmemmem_sums, xorsum]
  | cons n np ih =>
    intro hp hs ns e hl
    cases hp with
    | nil => simp at hl
    | cons h hp =>
      simp only [List.length_cons, Nat.add_le_add_iff_right] at hl
      rw [xmemmem_sums, ih hp _ _ _ hl]
      by_cases hh : h = n <;> simp [xorsum, Nat.xor_assoc, Bool.and_assoc, hh]

theorem xmemmem_sums_short (np : List Nat) :
    ∀ (hp : List Nat) (hs ns : Nat) (e : Bool), hp.length < np.length →
      (xmemmem_sums hp np hs ns e).2.2.2.2 ≠ [] := by
  induction np with
  | nil => intro hp hs ns e hl; simp at hl
  | cons n np ih =>
    intro hp hs ns e hl
    cases hp with
    | nil => simp [xmemmem_sums]
    | cons h hp =>
      simp only [List.length_cons, Nat.add_lt_add_iff_right] at hl
      rw [xmemmem_sums]
      exact ih hp _ _ _ hl

theorem memchr_none (hay : List Nat) (c : Nat) (h : c ∉ hay) : memchr hay c = none := by
  induction hay with
  | nil => rfl
  | cons x hay ih =>
    simp only [List.mem_cons, not_or] at h
    have hx : ¬ x = c := fun e => h.1 e.symm
    simp [memchr, hx, ih h.2]

theorem memchr_append (pre rest : List Nat) (c : Nat) (h : c ∉ pre) :
    memchr (pre ++ c :: rest) c = some pre.length := by
  induction pre with
  | nil => simp [memchr]
  | cons x pre ih =>
    simp only [List.mem_cons, not_or] at h
    have hx : ¬ x = c := fun e => h.1 e.symm
    simp [memchr, hx, ih h.2]

theorem memchr_some (hay : List Nat) (c k : Nat) (h : memchr hay c = some k) :
    ∃ pre rest, hay = pre ++ c :: rest ∧ c ∉ pre ∧ pre.length = k := by
  induction hay generalizing k with
  | nil => simp [memchr] at h
  | cons x hay ih =>
    by_cases hx : x = c
    · subst hx
      simp [memchr] at h
      exact ⟨[], hay, rfl, by simp, by simpa using h⟩
    · simp only [memchr, hx, if_false, Option.map_eq_some'] at h
      obtain ⟨j, hj, rfl⟩ := h
      obtain ⟨pre, rest, e, hn, hl⟩ := ih j hj
      refine ⟨x :: pre, rest, by simp [e], ?_, by simp [hl]⟩
      simp only [List.mem_cons, not_or]
      exact ⟨fun e => hx e.symm, hn⟩

theorem first_occ_short (ndl : List Nat) :
    ∀ hay : List Nat, hay.length < ndl.length → first_occ hay ndl = none := by
  intro hay
  induction hay with
  | nil =>
    intro h
    have : ndl ≠ [] := by intro e; simp [e] at h
    simp [first_occ, this]
  | cons x hay ih =>
    intro h
    have h1 : ¬ ndl <+: x :: hay := fun hp => by have := hp.length_le; omega
    have h2 : hay.length < ndl.length := by simp at h; omega
    simp [first_occ, h1, ih h2]

theorem first_occ_skip (pre rest : List Nat) (n0 : Nat) (np : List Nat) (h : n0 ∉ pre) :
    first_occ (pre ++ rest) (n0 :: np) = (first_occ rest (n0 :: np)).map (· + pre.length) := by
  induction pre with
  | nil => simp
  | cons x pre ih =>
    simp only [List.mem_cons, not_or] at h
    have hx : ¬ n0 = x := h.1
    rw [List.cons_append, first_occ, ih h.2]
    simp [hx, Function.comp_def, Nat.add_assoc]

theorem first_occ_not_mem (hay : List Nat) (n0 : Nat) (np : List Nat) (h : n0 ∉ hay) :
    first_occ hay (n0 :: np) = none := by
  have := first_occ_skip hay [] n0 np h
  simpa [first_occ] using this

theorem first_occ_at_start (hay ndl : List Nat) (h : ndl <+: hay) : first_occ hay ndl = some 0 := by
  cases hay with
  | nil => simp at h; simp [first_occ, h]
  | cons x hay => simp [first_occ, h]

theorem first_occ_cons_skip (x : Nat) (hay ndl : List Nat) (h : ¬ ndl <+: x :: hay) :
    first_occ (x :: hay) ndl = (first_occ hay ndl).map (· + 1) := by
  simp [first_occ, h]

/-- The window test of the second loop of `xmemmem` is exact. -/
theorem window_test (cand ndl : List Nat) (hn : ndl ≠ []) (hl : ndl.length ≤ cand.length) :
    (xorsum (cand.take ndl.length) = xorsum ndl ∧ memcmp cand ndl (ndl.length - 1) = 0) ↔
      ndl <+: cand := by
  have hL : 1 ≤ ndl.length := by
    cases ndl with
    | nil => exact absurd rfl hn
    | cons a l => simp
  constructor
  · rintro ⟨hx, hm⟩
    rw [memcmp_eq_zero_iff _ _ _ (by omega) (by omega)] at hm
    have hw : (cand.take ndl.length).length = ndl.length := by simp [hl]
    have hwn : cand.take ndl.length ≠ [] := by
      intro e; rw [e] at hw; simp at hw; omega
    have d1 : (cand.take ndl.length).dropLast = cand.take (ndl.length - 1) := by
      rw [List.dropLast_eq_take, hw, List.take_take]; congr 1; omega
    have d2 : ndl.dropLast = ndl.take (ndl.length - 1) := List.dropLast_eq_take _
    have e1 : cand.take ndl.length =
        cand.take (ndl.length - 1) ++ [(cand.take ndl.length).getLast hwn] := by
      rw [← d1]; exact (List.dropLast_append_getLast hwn).symm
    have e2 : ndl = ndl.take (ndl.length - 1) ++ [ndl.getLast hn] := by
      rw [← d2]; exact (List.dropLast_append_getLast hn).symm
    generalize (cand.take ndl.length).getLast hwn = x at e1
    generalize ndl.getLast hn = y at e2
    have hx2 : xorsum (cand.take (ndl.length - 1) ++ [x]) =
        xorsum (ndl.take (ndl.length - 1) ++ [y]) := by rw [← e1, ← e2]; exact hx
    rw [xorsum_append, xorsum_append, hm, Nat.xor_right_inj] at hx2
    simp only [xorsum, Nat.xor_zero] at hx2
    have : cand.take ndl.length = ndl := by
      rw [e1, hm, hx2]; exact e2.symm
    rw [List.prefix_iff_eq_take]; exact this.symm
  · rintro ⟨t, rfl⟩
    refine ⟨by simp, ?_⟩
    rw [memcmp_eq_zero_iff _ _ _ (by omega) (by omega)]
    exact List.take_append_of_le_length (by omega)

theorem xmemmem_roll_spec (ndl : List Nat) (hn : ndl ≠ []) :
    ∀ (cand hp : List Nat) (hsum : Nat), ndl.length ≤ cand.length → hp = cand.drop ndl.length →
      hsum = xorsum (cand.take ndl.length) →
      xmemmem_roll ndl (xorsum ndl) cand hp hsum = (first_occ (cand.drop 1) ndl).map (· + 1) := by
  have hL : 1 ≤ ndl.length := by
    cases ndl with
    | nil => exact absurd rfl hn
    | cons a l => simp
  intro cand
  induction cand with
  | nil =>
    intro hp hsum hl _ _
    have : ndl.length = 0 := by simpa using hl
    omega
  | cons c cand ih =>
    intro hp hsum hl hhp hhs
    obtain ⟨m, hm⟩ : ∃ m, ndl.length = m + 1 := ⟨ndl.length - 1, by omega⟩
    simp only [hm, List.drop_succ_cons, List.take_succ_cons, xorsum] at hhp hhs
    simp only [List.length_cons, hm, Nat.add_le_add_iff_right] at hl
    simp only [List.drop_succ_cons, List.drop_zero]
    cases hp with
    | nil =>
      have : cand.length < ndl.length := by
        have := List.drop_eq_nil_iff.1 hhp.symm
        omega
      simp [xmemmem_roll, first_occ_short ndl cand this]
    | cons h hp =>
      have hlen : ndl.length ≤ cand.length := by
        by_contra hc
        have : cand.drop m = [] := List.drop_eq_nil_iff.2 (by omega)
        rw [this] at hhp; cases hhp
      have htake : cand.take ndl.length = cand.take m ++ [h] := by
        have hc : cand = cand.take m ++ h :: hp := by
          rw [hhp]; exact (List.take_append_drop m cand).symm
        have hml : (cand.take m).length = m := by simp; omega
        rw [hm]
        conv_lhs => rw [hc]
        rw [List.take_append_eq_append_take, hml]
        simp [List.take_take]
      have hdrop : hp = cand.drop ndl.length := by
        have := congrArg (List.drop 1) hhp
        simpa [hm, Nat.add_comm] using this
      have hsum1 : (hsum ^^^ c) ^^^ h = xorsum (cand.take ndl.length) := by
        rw [htake, xorsum_append, hhs]
        simp only [xorsum, Nat.xor_zero]
        rw [Nat.xor_comm c, Nat.xor_assoc (xorsum (List.take m cand)) c c, Nat.xor_self, Nat.xor_zero]
      rw [xmemmem_roll]
      simp only [hsum1]
      by_cases hpre : ndl <+: cand
      · rw [if_pos ((window_test cand ndl hn hlen).2 hpre), first_occ_at_start _ _ hpre]
        rfl
      · rw [if_neg (fun hh => hpre ((window_test cand ndl hn hlen).1 hh)),
          ih hp _ hlen hdrop rfl]
        cases cand with
        | nil => exact absurd (by simpa using hlen) hn
        | cons x t =>
          rw [first_occ_cons_skip _ _ _ hpre]
          simp

theorem memchr_eq_none (hay : List Nat) (c : Nat) (h : memchr hay c = none) : c ∉ hay := by
  induction hay with
  | nil => simp
  | cons x hay ih =>
    by_cases hx : x = c
    · simp [memchr, hx] at h
    · simp only [memchr, hx, if_false, Option.map_eq_none'] at h
      simp only [List.mem_cons, not_or]
      exact ⟨fun e => hx e.symm, ih h⟩

/-- The search `xmemmem` returns the first occurrence of the needle, and NULL
exactly when there is none. -/
theorem xmemmem_eq_first_occ (hay ndl : List Nat) : xmemmem hay ndl = first_occ hay ndl := by
  cases ndl with
  | nil => cases hay <;> simp [xmemmem, first_occ]
  | cons n0 np0 =>
    rcases hm : memchr hay n0 with _ | k
    · simp only [xmemmem, hm]
      exact (first_occ_not_mem hay n0 np0 (memchr_eq_none hay n0 hm)).symm
    · obtain ⟨pre, rest, rfl, hpre, hk⟩ := memchr_some hay n0 k hm
      subst hk
      simp only [xmemmem, hm, List.drop_left, peek, List.headD_cons, List.drop_succ_cons,
        List.drop_zero]
      rw [first_occ_skip pre (n0 :: rest) n0 np0 hpre]
      by_cases hs : np0.length ≤ rest.length
      · rw [xmemmem_sums_spec np0 rest n0 n0 true hs]
        simp only [ne_eq, not_true_eq_false, if_false, Bool.true_and, decide_eq_true_eq]
        by_cases he : rest.take np0.length = np0
        · have hp : n0 :: np0 <+: n0 :: rest := by
            rw [List.cons_prefix_cons]
            exact ⟨rfl, by rw [List.prefix_iff_eq_take]; exact he.symm⟩
          rw [if_pos he, first_occ_at_start _ _ hp]
          simp
        · have hp : ¬ n0 :: np0 <+: n0 :: rest := by
            rw [List.cons_prefix_cons]
            rintro ⟨-, h2⟩
            exact he (List.prefix_iff_eq_take.1 h2).symm
          rw [if_neg he, first_occ_cons_skip _ _ _ hp]
          have := xmemmem_roll_spec (n0 :: np0) (by simp) (n0 :: rest) (rest.drop np0.length)
            (n0 ^^^ xorsum (rest.take np0.length)) (by simpa using hs) (by simp) (by simp [xorsum])
          simp only [xorsum] at this
          rw [this]
          simp [Function.comp_def, Nat.add_assoc, Nat.add_comm]
      · have hlt : rest.length < np0.length := by omega
        have hne := xmemmem_sums_short np0 rest n0 n0 true hlt
        simp only [ne_eq, hne, not_false_eq_true, if_true]
        rw [first_occ_short (n0 :: np0) (n0 :: rest) (by simpa using hlt)]
        rfl

/-! ## Facts about the number conversions -/

theorem takeWhile_run (p : Nat → Bool) (l r : List Nat) (hl : ∀ c ∈ l, p c = true)
    (hr : p (peek r) = false) : (l ++ r).takeWhile p = l := by
  rw [List.takeWhile_append_of_pos hl]
  cases r with
  | nil => simp
  | cons x r =>
    simp only [peek, List.headD_cons] at hr
    simp [List.takeWhile_cons, hr]

theorem dropWhile_run (p : Nat → Bool) (l r : List Nat) (hl : ∀ c ∈ l, p c = true)
    (hr : p (peek r) = false) : (l ++ r).dropWhile p = r := by
  rw [List.dropWhile_append_of_pos hl]
  cases r with
  | nil => simp
  | cons x r =>
    simp only [peek, List.headD_cons] at hr
    simp [List.dropWhile_cons, hr]

theorem decnum_snoc (l : List Nat) (c : Nat) : decnum (l ++ [c]) = decnum l * 10 + (c - 48) := by
  simp [decnum, List.foldl_append]

theorem hexnum_snoc (l : List Nat) (c : Nat) :
    hexnum (l ++ [c]) = hexnum l * 16 + (hexval c).getD 0 := by
  simp [hexnum, List.foldl_append]

/-- `strtoul` on a run of decimal digits that is followed by a non-digit. -/
theorem strtoul_digits (ds rest : List Nat) (hne : ds ≠ []) (hd : ∀ c ∈ ds, isdigit c = true)
    (hr : isdigit (peek rest) = false) :
    strtoul (ds ++ rest) = (if ULONG_MAX < decnum ds then ULONG_MAX else decnum ds, ds.length) := by
  obtain ⟨d, ds1, rfl⟩ := List.exists_cons_of_ne_nil hne
  have hd0 : isdigit d = true := hd d (by simp)
  have hsp : isspace d = false := by
    simp only [isdigit, Bool.and_eq_true, decide_eq_true_eq] at hd0
    simp only [isspace, Bool.or_eq_false_iff, beq_eq_false_iff_ne, Bool.and_eq_false_iff,
      decide_eq_false_iff_not]
    omega
  have hsg : ¬ (d = 45 ∨ d = 43) := by
    simp only [isdigit, Bool.and_eq_true, decide_eq_true_eq] at hd0
    omega
  have h45 : ¬ d = 45 := fun e => hsg (Or.inl e)
  have hws : ((d :: ds1) ++ rest).takeWhile isspace = [] := by
    simp [List.takeWhile_cons, hsp]
  have h43 : ¬ d = 43 := fun e => hsg (Or.inr e)
  have htw := takeWhile_run isdigit (d :: ds1) rest hd hr
  have hpk : peek ((d :: ds1) ++ rest) = d := rfl
  unfold strtoul
  simp only [hws, List.length_nil, List.drop_zero, hpk, h45, h43, or_self, if_false, htw,
    Nat.zero_add, List.length_cons]
  rw [if_neg (by simp)]
  show (if ULONG_MAX < decnum (d :: ds1) then _ else _) = _
  split <;> rfl

theorem utoa_spec (f : Nat) : ∀ n, n < 10 ^ f →
    decnum (utoa f n) = n ∧ (∀ c ∈ utoa f n, isdigit c = true) ∧ (0 < f → utoa f n ≠ []) := by
  induction f with
  | zero => intro n h; simp at h; subst h; simp [utoa, decnum]
  | succ f ih =>
    intro n h
    by_cases h10 : n < 10
    · simp only [utoa, h10, if_true]
      refine ⟨by simp [decnum], ?_, by simp⟩
      intro c hc
      simp only [List.mem_singleton] at hc
      subst hc
      simp [isdigit]; omega
    · have hq : n / 10 < 10 ^ f := by
        rw [Nat.div_lt_iff_lt_mul (by norm_num)]
        rw [pow_succ] at h; exact h
      obtain ⟨e1, e2, _⟩ := ih (n / 10) hq
      simp only [utoa, h10, if_false]
      refine ⟨?_, ?_, by simp⟩
      · rw [decnum_snoc, e1]; omega
      · intro c hc
        simp only [List.mem_append, List.mem_singleton] at hc
        rcases hc with hc | hc
        · exact e2 c hc
        · subst hc; simp [isdigit]; omega

theorem fmt_u_spec (n : Nat) (h : n < 2 ^ 32) :
    decnum (fmt_u n) = n ∧ (∀ c ∈ fmt_u n, isdigit c = true) ∧ fmt_u n ≠ [] ∧
      (fmt_u n).length ≤ 10 := by
  have h10 : n < 10 ^ 10 := by omega
  obtain ⟨a, b, c⟩ := utoa_spec 10 n h10
  have hm : n % 2 ^ 32 = n := Nat.mod_eq_of_lt h
  have hlen : ∀ f m, (utoa f m).length ≤ f := by
    intro f
    induction f with
    | zero => intro m; simp [utoa]
    | succ f ih =>
      intro m
      by_cases hh : m < 10
      · simp [utoa, hh]
      · simp only [utoa, hh, if_false, List.length_append, List.length_singleton]
        have := ih (m / 10); omega
  unfold fmt_u
  rw [hm]
  exact ⟨a, b, c (by norm_num), hlen 10 n⟩

theorem decnum_ge_one (d : Nat) (ds : List Nat) (hd : 49 ≤ d) : 1 ≤ decnum (d :: ds) := by
  have key : ∀ (l : List Nat) (a : Nat), 1 ≤ a →
      1 ≤ l.foldl (fun a c => a * 10 + (c - 48)) a := by
    intro l
    induction l with
    | nil => intro a h; simpa using h
    | cons x l ih => intro a h; simp only [List.foldl_cons]; exact ih _ (by omega)
  simp only [decnum, List.foldl_cons]
  exact key ds _ (by omega)

/-- Printing the value of a decimal string without leading zero gives the
string back. -/
theorem utoa_decnum (ds : List Nat) : ∀ f, ds ≠ [] → (∀ c ∈ ds, isdigit c = true) →
    (ds.length = 1 ∨ peek ds ≠ 48) → ds.length ≤ f → utoa f (decnum ds) = ds := by
  induction ds using List.reverseRecOn with
  | nil => intro f h; exact absurd rfl h
  | append_singleton init c ih =>
    intro f _ hd hcanon hlen
    have hc : isdigit c = true := hd c (by simp)
    simp only [isdigit, Bool.and_eq_true, decide_eq_true_eq] at hc
    obtain ⟨g, rfl⟩ : ∃ g, f = g + 1 := ⟨f - 1, by simp at hlen; omega⟩
    rw [decnum_snoc]
    cases init with
    | nil =>
      have : c - 48 < 10 := by omega
      simp only [decnum, List.foldl_nil, Nat.zero_mul, Nat.zero_add, utoa, this, if_true,
        List.nil_append]
      congr 1; omega
    | cons d init =>
      have hnz : peek (d :: init ++ [c]) ≠ 48 := by
        rcases hcanon with h | h
        · simp at h
        · exact h
      simp only [peek, List.cons_append, List.headD_cons] at hnz
      have hd0 : isdigit d = true := hd d (by simp)
      simp only [isdigit, Bool.and_eq_true, decide_eq_true_eq] at hd0
      have hge := decnum_ge_one d init (by omega)
      have hnlt : ¬ decnum (d :: init) * 10 + (c - 48) < 10 := by omega
      simp only [utoa, hnlt, if_false]
      have e1 : (decnum (d :: init) * 10 + (c - 48)) / 10 = decnum (d :: init) := by omega
      have e2 : (decnum (d :: init) * 10 + (c - 48)) % 10 = c - 48 := by omega
      rw [e1, e2, ih g (by simp) (fun x hx => hd x (by simp at hx ⊢; tauto))
        (Or.inr (by simpa [peek] using hnz)) (by simp at hlen ⊢; omega)]
      congr 2; omega

theorem shl4_or (r t : Nat) (hr : r < 2 ^ 28) (ht : t < 16) :
    ((r <<< 4) % 2 ^ 32) ||| t = r * 16 + t := by
  rw [Nat.shiftLeft_eq, Nat.mod_eq_of_lt (by omega)]
  have := Nat.mul_add_lt_is_or (i := 4) (b := t) (by omega) r
  rw [Nat.mul_comm r]
  exact this.symm

theorem pack_eq (r t : Nat) (ht : t < 16) : (r <<< 4) ||| t = r * 16 + t := by
  rw [Nat.shiftLeft_eq]
  have := Nat.mul_add_lt_is_or (i := 4) (b := t) (by omega) r
  rw [Nat.mul_comm r]
  exact this.symm

theorem pack_width (r t : Nat) (ht : t < 8) : (r * 16 + t) &&& 7 = t := by
  have := Nat.and_pow_two_sub_one_eq_mod (r * 16 + t) 3
  simp only [Nat.reducePow, Nat.add_one_sub_one] at this
  rw [this]; omega

theorem pack_value (r t : Nat) (ht : t < 16) : (r * 16 + t) >>> 4 = r := by
  rw [Nat.shiftRight_eq_div_pow]; omega

theorem hexval_lt (c t : Nat) (h : hexval c = some t) : t < 16 := by
  unfold hexval at h
  split_ifs at h <;> simp at h <;> omega

theorem hexnum_lt (hs : List Nat) : hexnum hs < 16 ^ hs.length := by
  induction hs using List.reverseRecOn with
  | nil => simp [hexnum]
  | append_singleton l c ih =>
    rw [hexnum_snoc, List.length_append, List.length_singleton, pow_succ]
    have : (hexval c).getD 0 < 16 := by
      cases h : hexval c with
      | none => simp
      | some t => simpa using hexval_lt c t h
    omega

/-- The first loop of `hextou` on a run of hexadecimal digits. -/
theorem hextou_loop_run (k : Nat) : ∀ (hs rest : List Nat) (res i j : Nat),
    (∀ c ∈ hs, (hexval c).isSome = true) → (hs.length < k → hexval (peek rest) = none) →
    res < 16 ^ j → j + k ≤ 7 →
    hextou_loop k (hs ++ rest) res i =
      ((hs.take k).foldl (fun a c => a * 16 + (hexval c).getD 0) res, i + min k hs.length,
        hs.drop k ++ rest) := by
  induction k with
  | zero => intro hs rest res i j _ _ _ _; simp [hextou_loop]
  | succ k ih =>
    intro hs rest res i j hh hr hb hj
    cases hs with
    | nil =>
      have := hr (by simp)
      simp [hextou_loop, this]
    | cons c hs =>
      have hc := hh c (by simp)
      obtain ⟨t, ht⟩ := Option.isSome_iff_exists.1 hc
      have ht16 := hexval_lt c t ht
      have hmin : min (k + 1) (c :: hs).length = min k hs.length + 1 := by
        simp only [List.length_cons]; omega
      have hres : res < 2 ^ 28 := by
        have : (16 : Nat) ^ j ≤ 16 ^ 7 := Nat.pow_le_pow_right (by norm_num) (by omega)
        omega
      have hnext : res * 16 + t < 16 ^ (j + 1) := by rw [pow_succ]; omega
      simp only [hextou_loop, List.cons_append, peek, List.headD_cons, ht, List.drop_succ_cons,
        List.drop_zero]
      rw [shl4_or res t hres ht16, ih hs rest _ _ (j + 1) (fun x hx => hh x (by simp [hx]))
        (fun hl => hr (by simpa using hl)) hnext (by omega)]
      simp [ht, hmin]
      omega

theorem hexnum_take_lt (hs : List Nat) : hexnum (hs.take 7) < 2 ^ 28 := by
  have h1 := hexnum_lt (hs.take 7)
  have h2 : (hs.take 7).length ≤ 7 := by simp
  have : (16 : Nat) ^ (hs.take 7).length ≤ 16 ^ 7 := Nat.pow_le_pow_right (by norm_num) h2
  omega

/-- The parser `hextou` on a non-empty run of hexadecimal digits followed by a
byte that is none: the first seven digits give the value, the low bits hold
their number, and the cursor ends behind the run. -/
theorem hextou_run (hs rest : List Nat) (hne : hs ≠ [])
    (hh : ∀ c ∈ hs, (hexval c).isSome = true) (hr : hexval (peek rest) = none) :
    hextou (hs ++ rest) = (hexnum (hs.take 7) * 16 + min 7 hs.length, hs.length) := by
  obtain ⟨c, hs1, rfl⟩ := List.exists_cons_of_ne_nil hne
  have hc := hh c (by simp)
  have hc0 : ¬ c = 0 := by
    intro e; subst e; simp [hexval] at hc
  have hl := hextou_loop_run 7 (c :: hs1) rest 0 0 0 hh (fun _ => hr) (by norm_num) (by norm_num)
  have hdrop : ((c :: hs1).drop 7 ++ rest).dropWhile (fun c => (hexval c).isSome) = rest := by
    apply dropWhile_run
    · intro x hx; exact hh x (List.mem_of_mem_drop hx)
    · simp [hr]
  unfold hextou
  rw [if_neg (by simpa [peek] using hc0), hl]
  simp only [hdrop]
  have hv := hexnum_take_lt (c :: hs1)
  have hm : min 7 (c :: hs1).length < 16 := by omega
  rw [Nat.zero_add, shl4_or _ _ (by simpa [hexnum] using hv) hm]
  simp only [hexnum, List.length_append, List.length_cons, Prod.mk.injEq, true_and]
  omega

theorem hexval_hexdigit (d : Nat) (h : d < 16) :
    hexval (hexdigit d) = some d ∧ islowerhex (hexdigit d) = true := by
  unfold hexdigit hexval islowerhex
  by_cases h10 : d < 10
  · simp only [h10, if_true]
    have : 48 ≤ 48 + d ∧ 48 + d ≤ 57 := by omega
    simp [this]
  · simp only [h10, if_false]
    have h1 : ¬ (48 ≤ 87 + d ∧ 87 + d ≤ 57) := by omega
    have h2 : 97 ≤ 87 + d ∧ 87 + d ≤ 102 := by omega
    simp only [h1, h2, if_false, if_true, and_self, decide_True, Bool.and_self, Bool.or_true,
      and_true]
    congr 1; omega

theorem islowerhex_isSome (c : Nat) (h : islowerhex c = true) : (hexval c).isSome = true := by
  unfold islowerhex at h
  unfold hexval
  simp only [Bool.or_eq_true, Bool.and_eq_true, decide_eq_true_eq] at h
  rcases h with h | h
  · simp [h]
  · have h1 : ¬ (48 ≤ c ∧ c ≤ 57) := by omega
    simp [h1, h]

theorem hexdigit_hexval (c : Nat) (h : islowerhex c = true) :
    hexdigit ((hexval c).getD 0) = c := by
  unfold islowerhex at h
  unfold hexval hexdigit
  simp only [Bool.or_eq_true, Bool.and_eq_true, decide_eq_true_eq] at h
  rcases h with h | h
  · simp only [h, and_self, if_true, Option.getD_some]
    have : c - 48 < 10 := by omega
    simp only [this, if_true]; omega
  · have h1 : ¬ (48 ≤ c ∧ c ≤ 57) := by omega
    simp only [h1, if_false, h, and_self, if_true, Option.getD_some]
    have : ¬ c - 97 + 10 < 10 := by omega
    simp only [this, if_false]; omega

theorem hexfix_length (w n : Nat) : (hexfix w n).length = w := by
  induction w generalizing n with
  | zero => simp [hexfix]
  | succ w ih => simp [hexfix, ih]

theorem hexfix_lower (w n : Nat) : ∀ c ∈ hexfix w n, islowerhex c = true := by
  induction w generalizing n with
  | zero => simp [hexfix]
  | succ w ih =>
    intro c hc
    simp only [hexfix, List.mem_append, List.mem_singleton] at hc
    rcases hc with hc | hc
    · exact ih _ c hc
    · subst hc; exact (hexval_hexdigit _ (Nat.mod_lt _ (by norm_num))).2

theorem hexnum_hexfix (w n : Nat) : hexnum (hexfix w n) = n % 16 ^ w := by
  induction w generalizing n with
  | zero => simp [hexfix, hexnum, Nat.mod_one]
  | succ w ih =>
    rw [hexfix, hexnum_snoc, ih, (hexval_hexdigit _ (Nat.mod_lt _ (by norm_num))).1,
      Option.getD_some, pow_succ]
    have h1 : n % (16 ^ w * 16) = n % 16 + 16 * (n / 16 % 16 ^ w) := by
      rw [Nat.mul_comm, Nat.mod_mul]
    omega

theorem hexfix_hexnum (hs : List Nat) : (∀ c ∈ hs, islowerhex c = true) →
    hexfix hs.length (hexnum hs) = hs := by
  induction hs using List.reverseRecOn with
  | nil => intro _; simp [hexfix]
  | append_singleton l c ih =>
    intro h
    have hc := h c (by simp)
    have hl : (hexval c).getD 0 < 16 := by
      obtain ⟨t, ht⟩ := Option.isSome_iff_exists.1 (islowerhex_isSome c hc)
      rw [ht]; simpa using hexval_lt c t ht
    rw [hexnum_snoc, List.length_append, List.length_singleton, hexfix]
    have e1 : (hexnum l * 16 + (hexval c).getD 0) / 16 = hexnum l := by omega
    have e2 : (hexnum l * 16 + (hexval c).getD 0) % 16 = (hexval c).getD 0 := by omega
    rw [e1, e2, ih (fun x hx => h x (by simp [hx])), hexdigit_hexval c hc]

theorem hexfix_zero (w : Nat) : hexfix w 0 = List.replicate w 48 := by
  induction w with
  | zero => simp [hexfix]
  | succ w ih =>
    rw [hexfix, Nat.zero_div, ih, List.replicate_succ']
    simp [hexdigit]

theorem xtoa_pad (w : Nat) : ∀ f n, 1 ≤ w → w ≤ f → n < 16 ^ w →
    List.replicate (w - (xtoa f n).length) 48 ++ xtoa f n = hexfix w n := by
  induction w with
  | zero => intro f n h; omega
  | succ w ih =>
    intro f n _ hf hn
    obtain ⟨g, rfl⟩ : ∃ g, f = g + 1 := ⟨f - 1, by omega⟩
    by_cases h16 : n < 16
    · simp only [xtoa, h16, if_true, List.length_singleton, Nat.add_sub_cancel, hexfix]
      rw [Nat.div_eq_of_lt h16, hexfix_zero, Nat.mod_eq_of_lt h16]
    · have hw : 1 ≤ w := by
        by_contra hc
        have : w = 0 := by omega
        subst this; simp at hn; omega
      have hq : n / 16 < 16 ^ w := by
        rw [Nat.div_lt_iff_lt_mul (by norm_num)]
        rw [pow_succ] at hn; exact hn
      simp only [xtoa, h16, if_false, List.length_append, List.length_singleton,
        Nat.add_sub_add_right, hexfix]
      rw [← List.append_assoc, ih g (n / 16) hw (by omega) hq]

/-- Conversion `%0*x` with width `w` of a value below `16 ^ w` prints exactly
`w` digits. -/
theorem fmt_0x_eq_hexfix (w n : Nat) (h1 : 1 ≤ w) (h8 : w ≤ 8) (hn : n < 16 ^ w) :
    fmt_0x w n = hexfix w n := by
  have : (16 : Nat) ^ w ≤ 16 ^ 8 := Nat.pow_le_pow_right (by norm_num) h8
  have hm : n % 2 ^ 32 = n := Nat.mod_eq_of_lt (by omega)
  unfold fmt_0x
  simp only [hm]
  exact xtoa_pad w 8 n h1 h8 hn

theorem fmt_0x_length_le (w n : Nat) (hw : w ≤ 7) (hn : n < 2 ^ 28) : (fmt_0x w n).length ≤ 7 := by
  have hlen : ∀ f m, m < 16 ^ f → (xtoa (f + 1) m).length ≤ max f 1 := by
    intro f
    induction f with
    | zero => intro m hm; simp at hm; subst hm; simp [xtoa]
    | succ f ih =>
      intro m hm
      by_cases hh : m < 16
      · simp [xtoa, hh]
      · have hq : m / 16 < 16 ^ f := by
          rw [Nat.div_lt_iff_lt_mul (by norm_num)]
          rw [pow_succ] at hm; exact hm
        have := ih (m / 16) hq
        have hf : 1 ≤ f := by
          by_contra hc
          have : f = 0 := by omega
          subst this; simp at hm; omega
        rw [xtoa]
        simp only [hh, if_false, List.length_append, List.length_singleton]
        omega
  have hm : n % 2 ^ 32 = n := Nat.mod_eq_of_lt (by omega)
  have := hlen 7 n (by omega)
  have e8 : (7 : Nat) + 1 = 8 := rfl
  rw [e8] at this
  unfold fmt_0x
  simp only [hm, List.length_append, List.length_replicate]
  omega


/-! ## The serialiser `wr_version` -/

theorem strlen_eq (l : List Nat) : strlen l = (l.takeWhile (· ≠ 0)).length := by
  induction l with
  | nil => rfl
  | cons c l ih =>
    by_cases h : c = 0
    · simp [strlen, h]
    · simp [strlen, h, List.takeWhile_cons, ih]

theorem take_strlen (l : List Nat) : l.take (strlen l) = l.takeWhile (· ≠ 0) := by
  induction l with
  | nil => rfl
  | cons c l ih =>
    by_cases h : c = 0
    · simp [strlen, h]
    · simp [strlen, h, List.takeWhile_cons, ih]

theorem takeWhile_append_of_mem (l r : List Nat) (h : 0 ∈ l) :
    (l ++ r).takeWhile (· ≠ 0) = l.takeWhile (· ≠ 0) := by
  induction l with
  | nil => simp at h
  | cons c l ih =>
    by_cases hc : c = 0
    · simp [hc]
    · have : 0 ∈ l := by
        simp only [List.mem_cons] at h
        rcases h with h | h
        · exact absurd h.symm hc
        · exact h
      simpa [List.takeWhile_cons, hc] using ih this

theorem tag_of_length (v : yuck_version_s) (hl : v.vtag.length = 16) (h0 : 0 ∈ v.vtag) :
    (tag_of v).length ≤ 15 := by
  unfold tag_of
  have h1 := List.takeWhile_append_dropWhile (fun c => decide (c ≠ 0)) v.vtag
  have h2 : v.vtag.dropWhile (fun c => decide (c ≠ 0)) ≠ [] := by
    intro e
    rw [List.dropWhile_eq_nil_iff] at e
    have := e 0 h0
    simp at this
  have h3 := congrArg List.length h1
  rw [List.length_append, hl] at h3
  have : 0 < (v.vtag.dropWhile (fun c => decide (c ≠ 0))).length := List.length_pos.2 h2
  omega

theorem store_at_end (m w : List Nat) (n : Nat) (hn : n = m.length) : store m n w = m ++ w := by
  subst hn
  simp [store]

theorem store_over_nul (m w : List Nat) (n : Nat) (hn : n = m.length) (hw : w ≠ []) :
    store (m ++ [0]) n w = m ++ w := by
  subst hn
  have : 1 ≤ w.length := List.length_pos.2 hw
  have h2 : (m ++ [0]).drop (m.length + w.length) = [] := by
    apply List.drop_eq_nil_iff.2; simp; omega
  simp [store, h2, List.take_append_eq_append_take]

theorem xstrlcpy_tag (v : yuck_version_s) (dsz : Nat) (hl : v.vtag.length = 16)
    (h0 : 0 ∈ v.vtag) (hd : 16 ≤ dsz) :
    xstrlcpy v.at_vtag dsz = (tag_of v ++ [0], (tag_of v).length) := by
  have hlen := tag_of_length v hl h0
  have e1 : v.at_vtag.takeWhile (· ≠ 0) = tag_of v := by
    unfold yuck_version_s.at_vtag tag_of
    rw [List.append_assoc, List.append_assoc]
    exact takeWhile_append_of_mem _ _ h0
  have e2 : strlen v.at_vtag = (tag_of v).length := by rw [strlen_eq, e1]
  have e3 : v.at_vtag.take (tag_of v).length = tag_of v := by rw [← e2, take_strlen, e1]
  unfold xstrlcpy
  rw [if_neg (by omega)]
  simp only [e2]
  rw [if_neg (by omega), e3]

theorem xstrlcpy_dirty (dsz : Nat) (hd : 7 ≤ dsz) :
    xstrlcpy [45, 100, 105, 114, 116, 121] dsz = ([45, 100, 105, 114, 116, 121, 0], 6) := by
  unfold xstrlcpy
  rw [if_neg (by omega)]
  have : strlen [45, 100, 105, 114, 116, 121] = 6 := by decide
  simp only [this]
  rw [if_neg (by omega)]
  rfl

theorem snprintf_fits (size : Nat) (s : List Nat) (h : s.length < size) :
    snprintf size s = (s ++ [0], s.length) := by
  unfold snprintf
  rw [if_neg (by omega), List.take_of_length_le (by omega)]

theorem yscm_abbr_eq (s : yuck_scm_t) (h : 0 < s.toInt) : yscm_abbr s = scm_letter s := by
  cases s <;> simp [yuck_scm_t.toInt] at h <;> rfl

/-- With a buffer of at least 43 bytes `wr_version` returns the length of the
wire form and leaves the wire form, NUL-terminated, in the buffer. -/
theorem wr_version_eq (bsz : Nat) (v : yuck_version_s) (hl : v.vtag.length = 16)
    (hdist : v.dist < 2 ^ 32) (hrvsn : v.rvsn < 2 ^ 32) (h0 : 0 ∈ v.vtag) (hb : 43 ≤ bsz) :
    wr_version bsz v = (((wire_text v).length : Int), wire_text v ++ [0]) := by
  have htl := tag_of_length v hl h0
  have hcp := xstrlcpy_tag v (bsz - 1) hl h0 (by omega)
  obtain ⟨_, _, _, hul⟩ := fmt_u_spec v.dist hdist
  have hxl : (fmt_0x (v.rvsn &&& 7) (v.rvsn >>> 4)).length ≤ 7 := by
    apply fmt_0x_length_le
    · have := Nat.and_pow_two_sub_one_eq_mod v.rvsn 3
      have h7 : v.rvsn &&& 7 = v.rvsn % 8 := this
      rw [h7]; omega
    · rw [Nat.shiftRight_eq_div_pow]; omega
  unfold wr_version wire_text
  rw [if_neg (by omega)]
  simp only [hcp]
  rw [store_at_end [118] _ 1 rfl]
  by_cases hd : v.dist = 0
  · simp [hd]; omega
  rw [if_neg hd, if_neg hd, if_neg (by omega)]
  have hs1 : store ([118] ++ (tag_of v ++ [0])) (1 + (tag_of v).length) [45] =
      (118 :: tag_of v) ++ [45] := by
    have := store_over_nul (118 :: tag_of v) [45] (1 + (tag_of v).length) (by simp; omega)
      (by simp)
    simpa using this
  rw [hs1, snprintf_fits _ _ (by omega)]
  simp only []
  rw [store_at_end _ _ _ (by simp; omega)]
  by_cases hr : v.rvsn = 0 ∨ v.scm.toInt ≤ 0
  · rw [if_pos hr, if_pos hr]
    simp; omega
  rw [if_neg hr, if_neg hr, if_neg (by omega)]
  have hs2 : store (118 :: tag_of v ++ [45] ++ (fmt_u v.dist ++ [0]))
      (1 + (tag_of v).length + 1 + (fmt_u v.dist).length) [45, yscm_abbr v.scm] =
      (118 :: tag_of v ++ [45] ++ fmt_u v.dist) ++ [45, yscm_abbr v.scm] := by
    have := store_over_nul (118 :: tag_of v ++ [45] ++ fmt_u v.dist) [45, yscm_abbr v.scm]
      (1 + (tag_of v).length + 1 + (fmt_u v.dist).length) (by simp; omega) (by simp)
    simpa using this
  rw [hs2, snprintf_fits _ _ (by omega)]
  simp only []
  rw [store_at_end _ _ _ (by simp; omega)]
  have hlet : yscm_abbr v.scm = scm_letter v.scm := yscm_abbr_eq _ (by omega)
  by_cases hdy : v.dirty = 0
  · rw [if_pos hdy, if_pos hdy]
    simp [wire_rev, hlet]; omega
  rw [if_neg hdy, if_neg hdy, if_neg (by omega), xstrlcpy_dirty _ (by omega)]
  simp only []
  have hs3 := store_over_nul
    (118 :: tag_of v ++ [45] ++ fmt_u v.dist ++ [45, yscm_abbr v.scm] ++
      fmt_0x (v.rvsn &&& 7) (v.rvsn >>> 4)) [45, 100, 105, 114, 116, 121, 0]
    (1 + (tag_of v).length + 1 + (fmt_u v.dist).length + 2 +
      (fmt_0x (v.rvsn &&& 7) (v.rvsn >>> 4)).length) (by simp; omega) (by simp)
  simp only [List.append_assoc] at hs3 ⊢
  rw [hs3]
  simp [wire_rev, hlet]; omega


/-! ## Occurrences of a marker -/

theorem first_occ_eq_none_iff (hay ndl : List Nat) : first_occ hay ndl = none ↔ ¬ ndl <:+: hay := by
  induction hay with
  | nil =>
    by_cases h : ndl = []
    · simp [first_occ, h]
    · simp [first_occ, h]
  | cons x hay ih =>
    rw [List.infix_cons_iff]
    by_cases hp : ndl <+: x :: hay
    · simp [first_occ, hp]
    · simp [first_occ, hp, ih]

theorem first_occ_none_of_not_mem (hay ndl : List Nat) (c : Nat) (hc : c ∈ ndl) (hn : c ∉ hay) :
    first_occ hay ndl = none := by
  rw [first_occ_eq_none_iff]
  intro h
  exact hn (h.subset hc)

/-- An occurrence of `ndl` that starts inside `t` and runs into `s0 :: s`
needs `s0` among the bytes of `ndl` after the first. -/
theorem first_occ_append (t s ndl : List Nat) (s0 : Nat) (hn : first_occ t ndl = none)
    (hs : s0 ∉ ndl.tail) :
    first_occ (t ++ s0 :: s) ndl = (first_occ (s0 :: s) ndl).map (· + t.length) := by
  induction t with
  | nil => simp
  | cons x t ih =>
    have hnp : ¬ ndl <+: x :: t := by
      intro hp
      rw [first_occ_at_start _ _ hp] at hn; cases hn
    have hnt : first_occ t ndl = none := by
      rw [first_occ_cons_skip _ _ _ hnp] at hn
      simpa using hn
    have hnp2 : ¬ ndl <+: x :: t ++ s0 :: s := by
      intro hp
      have e := List.prefix_iff_eq_take.1 hp
      by_cases hl : ndl.length ≤ (x :: t).length
      · apply hnp
        rw [List.prefix_iff_eq_take]
        rw [List.take_append_of_le_length hl] at e
        exact e
      · have hl2 : (x :: t).length < ndl.length := by omega
        rw [List.take_append_eq_append_take, List.take_of_length_le (by omega)] at e
        obtain ⟨m, hm⟩ : ∃ m, ndl.length - (x :: t).length = m + 1 :=
          ⟨ndl.length - (x :: t).length - 1, by omega⟩
        rw [hm, List.take_succ_cons] at e
        apply hs
        rw [e]
        simp
    rw [List.cons_append] at hnp2 ⊢
    rw [first_occ_cons_skip _ _ _ hnp2, ih hnt]
    simp [Function.comp_def, Nat.add_assoc, Nat.add_comm]

/-- No marker (`.git`, `.bzr`, `.hg`) occurs in `t ++ 45 :: r` when none occurs
in `t` and `r` has no dot. -/
theorem no_marker_dash (t r m : List Nat) (hm : m = [46, 103, 105, 116] ∨ m = [46, 98, 122, 114] ∨
    m = [46, 104, 103]) (ht : ¬ m <:+: t) (hr : 46 ∉ r) : xmemmem (t ++ 45 :: r) m = none := by
  rw [xmemmem_eq_first_occ, first_occ_append t r m 45 ((first_occ_eq_none_iff _ _).2 ht)
    (by rcases hm with h | h | h <;> subst h <;> simp)]
  have : first_occ (45 :: r) m = none := by
    apply first_occ_none_of_not_mem _ _ 46
    · rcases hm with h | h | h <;> subst h <;> simp
    · simp [hr]
  rw [this]; rfl

theorem no_marker_plain (t m : List Nat) (ht : ¬ m <:+: t) : xmemmem t m = none := by
  rw [xmemmem_eq_first_occ, first_occ_eq_none_iff]; exact ht

/-- The marker found when `t`, free of it, is followed by the marker. -/
theorem marker_found (t r m : List Nat) (hm : m = [46, 103, 105, 116] ∨ m = [46, 98, 122, 114] ∨
    m = [46, 104, 103]) (ht : ¬ m <:+: t) : xmemmem (t ++ m ++ r) m = some t.length := by
  obtain ⟨m1, hm1⟩ : ∃ m1, m = 46 :: m1 := by
    rcases hm with h | h | h <;> subst h <;> exact ⟨_, rfl⟩
  rw [xmemmem_eq_first_occ, List.append_assoc]
  have e : m ++ r = 46 :: (m1 ++ r) := by rw [hm1]; rfl
  rw [e, first_occ_append t (m1 ++ r) m 46 ((first_occ_eq_none_iff _ _).2 ht)
    (by rcases hm with h | h | h <;> subst h <;> simp)]
  rw [← e, first_occ_at_start _ _ (List.prefix_append m r)]
  simp

/-- A marker other than the one that follows `t` is not found when its
distinguishing byte does not occur behind `t`. -/
theorem marker_absent (t s m : List Nat) (hm : m = [46, 103, 105, 116] ∨ m = [46, 98, 122, 114] ∨
    m = [46, 104, 103]) (ht : ¬ m <:+: t) (hs : first_occ (46 :: s) m = none) :
    xmemmem (t ++ 46 :: s) m = none := by
  rw [xmemmem_eq_first_occ, first_occ_append t s m 46 ((first_occ_eq_none_iff _ _).2 ht)
    (by rcases hm with h | h | h <;> subst h <;> simp), hs]
  rfl


/-! ## The parser `rd_version` -/

theorem tag_field_length (t : List Nat) (h : t.length ≤ 16) : (tag_field t).length = 16 := by
  simp [tag_field]; omega

theorem bang_vtag_zero (v : yuck_version_s) (t : List Nat) (hv : v.vtag = List.replicate 16 0)
    (ht : t.length ≤ 15) : bang_vtag v (t ++ [0]) = { v with vtag := tag_field t } := by
  have h1 : (t ++ [0]).take 16 = t ++ [0] := List.take_of_length_le (by simp; omega)
  have h2 : ¬ 16 < (t ++ [0]).length := by simp; omega
  have h3 : 16 - t.length = (16 - (t.length + 1)) + 1 := by omega
  unfold bang_vtag
  rw [if_neg h2, h1, hv]
  simp only [List.drop_replicate, List.length_append, List.length_singleton, tag_field]
  rw [h3, List.replicate_succ]
  simp

theorem xstrlncpy_tag (t r : List Nat) (h : t.length ≤ 16) :
    xstrlncpy 16 (t ++ r) t.length = (t ++ [0], t.length) := by
  unfold xstrlncpy
  rw [if_neg (by norm_num)]
  simp only []
  rw [if_neg (by omega)]
  simp

/-- The parser on `v<TAG>-<rest>` when no marker occurs. -/
theorem rd_version_dash (v : yuck_version_s) (t r : List Nat) (h45 : 45 ∉ t)
    (hl : t.length ≤ 16)
    (hg : xmemmem (t ++ 45 :: r) [46, 103, 105, 116] = none)
    (hb : xmemmem (t ++ 45 :: r) [46, 98, 122, 114] = none)
    (hh : xmemmem (t ++ 45 :: r) [46, 104, 103] = none) :
    rd_version v (118 :: (t ++ 45 :: r)) = rd_version_dist (bang_vtag v (t ++ [0])) r := by
  have hmc := memchr_append t r 45 h45
  have hx := xstrlncpy_tag t (45 :: r) hl
  unfold rd_version
  simp only [peek, List.headD_cons, true_or, not_true_eq_false, if_false, if_true,
    List.drop_succ_cons, List.drop_zero, hg, hb, hh, hmc, Option.getD_some, Option.map_some', hx]
  simp

/-- The parser on `v<TAG>` when no dash and no marker occurs. -/
theorem rd_version_plain (v : yuck_version_s) (t : List Nat) (h45 : 45 ∉ t)
    (hl : t.length ≤ 16)
    (hg : xmemmem t [46, 103, 105, 116] = none)
    (hb : xmemmem t [46, 98, 122, 114] = none)
    (hh : xmemmem t [46, 104, 103] = none) :
    rd_version v (118 :: t) = (0, bang_vtag v (t ++ [0])) := by
  have hmc := memchr_none t 45 h45
  have hx := xstrlncpy_tag t [] hl
  rw [List.append_nil] at hx
  unfold rd_version
  simp only [peek, List.headD_cons, true_or, not_true_eq_false, if_false, if_true,
    List.drop_succ_cons, List.drop_zero, hg, hb, hh, hmc, Option.getD_none, Option.map_none', hx]

/-- The parser on `v<TAG><marker><rest>`: the marker ends the tag and names
the scm. -/
theorem rd_version_marker (v : yuck_version_s) (t r m : List Nat) (s : yuck_scm_t)
    (hl : t.length ≤ 16)
    (hm : (m = [46, 103, 105, 116] ∧ s = YUCK_SCM_GIT ∧
            xmemmem (t ++ m ++ r) [46, 103, 105, 116] = some t.length) ∨
          (m = [46, 98, 122, 114] ∧ s = YUCK_SCM_BZR ∧
            xmemmem (t ++ m ++ r) [46, 103, 105, 116] = none ∧
            xmemmem (t ++ m ++ r) [46, 98, 122, 114] = some t.length) ∨
          (m = [46, 104, 103] ∧ s = YUCK_SCM_HG ∧
            xmemmem (t ++ m ++ r) [46, 103, 105, 116] = none ∧
            xmemmem (t ++ m ++ r) [46, 98, 122, 114] = none ∧
            xmemmem (t ++ m ++ r) [46, 104, 103] = some t.length)) :
    rd_version v (118 :: (t ++ m ++ r)) =
      rd_version_dist (bang_vtag { v with scm := s } (t ++ [0])) r := by
  have hx := xstrlncpy_tag t (m ++ r) hl
  rw [← List.append_assoc] at hx
  have hd : ∀ k, k = m.length → (t ++ m ++ r).drop (t.length + k) = r := by
    intro k hk; subst hk
    rw [← List.length_append, List.drop_left]
  unfold rd_version
  rcases hm with ⟨rfl, rfl, h1⟩ | ⟨rfl, rfl, h1, h2⟩ | ⟨rfl, rfl, h1, h2, h3⟩
  · have hd4 := hd 4 rfl
    simp only [peek, List.headD_cons, true_or, not_true_eq_false, if_false, if_true,
      List.drop_succ_cons, List.drop_zero, h1, hx, hd4]
  · have hd4 := hd 4 rfl
    simp only [peek, List.headD_cons, true_or, not_true_eq_false, if_false, if_true,
      List.drop_succ_cons, List.drop_zero, h1, h2, hx, hd4]
  · have hd3 := hd 3 rfl
    simp only [peek, List.headD_cons, true_or, not_true_eq_false, if_false, if_true,
      List.drop_succ_cons, List.drop_zero, h1, h2, h3, hx, hd3]


theorem strtoul_small (ds rest : List Nat) (hne : ds ≠ []) (hd : ∀ c ∈ ds, isdigit c = true)
    (hr : isdigit (peek rest) = false) (hv : decnum ds < 2 ^ 32) :
    strtoul (ds ++ rest) = (decnum ds, ds.length) := by
  rw [strtoul_digits ds rest hne hd hr, if_neg (by unfold ULONG_MAX; omega)]

/-- The dirty test at the end of `rd_version`, for the three tails the wire
forms have. -/
theorem dirty_tail (tail : List Nat) (a b : Int × yuck_version_s)
    (ht : tail = [] ∨ tail = [45, 100, 105, 114, 116, 121] ∨ tail = [46, 100, 105, 114, 116, 121]) :
    (if tail = [] then a
      else if peek tail ≠ 45 ∧ peek tail ≠ 46 then a
      else if tail.length < 6 then a
      else if memcmp (tail.drop 1) [100, 105, 114, 116, 121] 5 = 0 then b
      else a) = if tail = [] then a else b := by
  rcases ht with h | h | h <;> subst h <;> simp [peek, memcmp]

/-- The tail of the parser on `<DIST>-<letter><hex>[-dirty]`. -/
theorem rd_version_dist_primary (v1 : yuck_version_s) (ds hs tail : List Nat) (l : Nat)
    (s : yuck_scm_t) (hne : ds ≠ []) (hd : ∀ c ∈ ds, isdigit c = true) (hv : decnum ds < 2 ^ 32)
    (hl : (l = 103 ∧ s = YUCK_SCM_GIT) ∨ (l = 104 ∧ s = YUCK_SCM_HG) ∨
      (l = 98 ∧ s = YUCK_SCM_BZR ∧ v1.scm.toInt ≤ 0))
    (hhne : hs ≠ []) (hh : ∀ c ∈ hs, (hexval c).isSome = true)
    (ht : tail = [] ∨ tail = [45, 100, 105, 114, 116, 121] ∨ tail = [46, 100, 105, 114, 116, 121]) :
    rd_version_dist v1 (ds ++ 45 :: l :: (hs ++ tail)) =
      (0, { v1 with dist := decnum ds, scm := s, rvsn := hexnum (hs.take 7) * 16 + min 7 hs.length,
                    dirty := if tail = [] then v1.dirty else 1 }) := by
  have hst := strtoul_small ds (45 :: l :: (hs ++ tail)) hne hd rfl hv
  have hht : hexval (peek tail) = none := by
    rcases ht with h | h | h <;> subst h <;> decide
  have hx := hextou_run hs tail hhne hh hht
  have hmod : decnum ds % 2 ^ 32 = decnum ds := Nat.mod_eq_of_lt hv
  have hdt := dirty_tail tail
  simp only [peek] at hdt
  unfold rd_version_dist
  simp only [hst, List.drop_left, peek, List.headD_cons, List.drop_succ_cons, List.drop_zero, hmod]
  rw [if_neg (by simp), if_neg (by simp)]
  rcases hl with ⟨rfl, rfl⟩ | ⟨rfl, rfl⟩ | ⟨rfl, rfl, hs0⟩
  · simp only [if_true, hx, List.drop_left]
    rw [hdt _ _ ht]
    split <;> rfl
  · rw [if_neg (by decide : ¬ (104 : Nat) = 103)]
    simp only [if_true, hx, List.drop_left]
    rw [hdt _ _ ht]
    split <;> rfl
  · rw [if_neg (by decide : ¬ (98 : Nat) = 103), if_neg (by decide : ¬ (98 : Nat) = 104),
      if_pos ⟨rfl, hs0⟩]
    simp only [hx, List.drop_left]
    rw [hdt _ _ ht]
    split <;> rfl

/-- The tail of the parser on `<DIST>.<hex>[.dirty]` behind a marker. -/
theorem rd_version_dist_alt (v1 : yuck_version_s) (ds hs tail : List Nat)
    (hne : ds ≠ []) (hd : ∀ c ∈ ds, isdigit c = true) (hv : decnum ds < 2 ^ 32)
    (hs0 : 0 < v1.scm.toInt)
    (hhne : hs ≠ []) (hh : ∀ c ∈ hs, (hexval c).isSome = true)
    (ht : tail = [] ∨ tail = [45, 100, 105, 114, 116, 121] ∨ tail = [46, 100, 105, 114, 116, 121]) :
    rd_version_dist v1 (ds ++ 46 :: (hs ++ tail)) =
      (0, { v1 with dist := decnum ds, rvsn := hexnum (hs.take 7) * 16 + min 7 hs.length,
                    dirty := if tail = [] then v1.dirty else 1 }) := by
  have hst := strtoul_small ds (46 :: (hs ++ tail)) hne hd rfl hv
  have hht : hexval (peek tail) = none := by
    rcases ht with h | h | h <;> subst h <;> decide
  have hx := hextou_run hs tail hhne hh hht
  have hmod : decnum ds % 2 ^ 32 = decnum ds := Nat.mod_eq_of_lt hv
  obtain ⟨c, hs1, rfl⟩ := List.exists_cons_of_ne_nil hhne
  have hc := hh c (by simp)
  have hc103 : ¬ c = 103 := by intro e; subst e; simp [hexval] at hc
  have hc104 : ¬ c = 104 := by intro e; subst e; simp [hexval] at hc
  have hns : ¬ v1.scm.toInt ≤ 0 := by omega
  have hdt := dirty_tail tail
  simp only [peek] at hdt
  have e : (c :: hs1 ++ tail).drop (c :: hs1).length = tail := List.drop_left _ _
  unfold rd_version_dist
  simp only [hst, List.drop_left, hmod]
  simp only [peek, List.headD_cons, List.drop_succ_cons, List.drop_zero, List.cons_append, hns,
    and_false, if_false, hc103, hc104, hs0, if_true]
  rw [if_neg (by simp)]
  rw [← List.cons_append]
  simp only [hx, e]
  rw [hdt _ _ ht]
  split <;> rfl

/-- The tail of the parser on `<DIST>` alone. -/
theorem rd_version_dist_only (v1 : yuck_version_s) (ds : List Nat)
    (hne : ds ≠ []) (hd : ∀ c ∈ ds, isdigit c = true) (hv : decnum ds < 2 ^ 32) :
    rd_version_dist v1 ds = (0, { v1 with dist := decnum ds }) := by
  have hst := strtoul_small ds [] hne hd rfl hv
  rw [List.append_nil] at hst
  have hmod : decnum ds % 2 ^ 32 = decnum ds := Nat.mod_eq_of_lt hv
  unfold rd_version_dist
  simp only [hst, hmod, List.drop_length, peek, List.headD_nil]
  rw [if_neg (by simp), if_pos (by simp)]


/-! ## Round trips -/

theorem wr_text_eq (v : yuck_version_s) (hl : v.vtag.length = 16)
    (hdist : v.dist < 2 ^ 32) (hrvsn : v.rvsn < 2 ^ 32) (h0 : 0 ∈ v.vtag) :
    wr_text v = some (wire_text v) := by
  have h := wr_version_eq 256 v hl hdist hrvsn h0 (by norm_num)
  have hpos : 0 < (wire_text v).length := by simp [wire_text]
  unfold wr_text
  rw [h]
  simp only []
  rw [if_neg (by omega)]
  simp

theorem tag_field_mem_zero (t : List Nat) (h : t.length ≤ 15) : 0 ∈ tag_field t := by
  unfold tag_field
  rw [List.mem_append]
  right
  rw [List.mem_replicate]
  exact ⟨by omega, rfl⟩

theorem takeWhile_tag_field (t : List Nat) (h0 : 0 ∉ t) (h : t.length ≤ 15) :
    (tag_field t).takeWhile (· ≠ 0) = t := by
  unfold tag_field
  obtain ⟨m, hm⟩ : ∃ m, 16 - t.length = m + 1 := ⟨16 - t.length - 1, by omega⟩
  rw [hm, List.replicate_succ]
  have := takeWhile_run (fun c => decide (c ≠ 0)) t (0 :: List.replicate m 0)
    (by intro c hc; simp; intro e; exact h0 (e ▸ hc)) (by simp [peek])
  exact this

theorem decnum_lower (ds : List Nat) (a : Nat) :
    a * 10 ^ ds.length ≤ ds.foldl (fun a c => a * 10 + (c - 48)) a := by
  induction ds generalizing a with
  | nil => simp
  | cons c ds ih =>
    simp only [List.foldl_cons, List.length_cons, pow_succ]
    have := ih (a * 10 + (c - 48))
    have h2 : a * (10 ^ ds.length * 10) ≤ (a * 10 + (c - 48)) * 10 ^ ds.length := by
      have : a * (10 ^ ds.length * 10) = a * 10 * 10 ^ ds.length := by ring
      rw [this]
      exact Nat.mul_le_mul_right _ (by omega)
    omega

theorem canonical_length (ds : List Nat) (hd : ∀ c ∈ ds, isdigit c = true) (hlead : peek ds ≠ 48)
    (hv : decnum ds < 2 ^ 32) : ds.length ≤ 10 := by
  cases ds with
  | nil => simp
  | cons d ds =>
    have hd0 := hd d (by simp)
    simp only [isdigit, Bool.and_eq_true, decide_eq_true_eq] at hd0
    simp only [peek, List.headD_cons] at hlead
    have h1 := decnum_lower ds (0 * 10 + (d - 48))
    simp only [decnum, List.foldl_cons] at hv
    by_contra hc
    simp only [List.length_cons, not_le] at hc
    have h2 : (10 : Nat) ^ 10 ≤ 10 ^ ds.length := Nat.pow_le_pow_right (by norm_num) (by omega)
    have h3 : 1 * 10 ^ ds.length ≤ (0 * 10 + (d - 48)) * 10 ^ ds.length :=
      Nat.mul_le_mul_right _ (by omega)
    omega

theorem not_mem_of_isdigit (ds : List Nat) (c : Nat) (hd : ∀ x ∈ ds, isdigit x = true)
    (hc : isdigit c = false) : c ∉ ds := by
  intro h; rw [hd c h] at hc; cases hc

theorem not_mem_of_hexval (hs : List Nat) (c : Nat) (hh : ∀ x ∈ hs, (hexval x).isSome = true)
    (hc : hexval c = none) : c ∉ hs := by
  intro h; have := hh c h; rw [hc] at this; cases this


theorem not_mem_dirty_tail (tail : List Nat) (c : Nat)
    (ht : tail = [] ∨ tail = [45, 100, 105, 114, 116, 121] ∨ tail = [46, 100, 105, 114, 116, 121])
    (hc : c ≠ 45 ∧ c ≠ 46 ∧ c ≠ 100 ∧ c ≠ 105 ∧ c ≠ 114 ∧ c ≠ 116 ∧ c ≠ 121) : c ∉ tail := by
  rcases ht with h | h | h <;> subst h <;> simp <;> omega

/-- The parser on the primary form `v<TAG>-<DIST>-<letter><hex>[-dirty]`. -/
theorem rd_version_primary (tag ds hs tail : List Nat) (l : Nat)
    (htl : tag.length ≤ 15) (h45 : 45 ∉ tag)
    (hg : ¬ [46, 103, 105, 116] <:+: tag) (hb : ¬ [46, 98, 122, 114] <:+: tag)
    (hh : ¬ [46, 104, 103] <:+: tag)
    (hds : ds ≠ []) (hdd : ∀ c ∈ ds, isdigit c = true) (hval : decnum ds < 2 ^ 32)
    (hl : l = 103 ∨ l = 98 ∨ l = 104)
    (hhs : hs ≠ []) (hhx : ∀ c ∈ hs, (hexval c).isSome = true)
    (ht : tail = [] ∨ tail = [45, 100, 105, 114, 116, 121]) :
    rd_version yuck_version_zero (118 :: (tag ++ 45 :: (ds ++ 45 :: l :: (hs ++ tail)))) =
      (0, { scm := scm_of_letter l, vtag := tag_field tag, dist := decnum ds,
            rvsn := hexnum (hs.take 7) * 16 + min 7 hs.length,
            dirty := if tail = [] then 0 else 1 }) := by
  have ht3 : tail = [] ∨ tail = [45, 100, 105, 114, 116, 121] ∨
      tail = [46, 100, 105, 114, 116, 121] := by
    rcases ht with h | h
    · exact Or.inl h
    · exact Or.inr (Or.inl h)
  have h46 : 46 ∉ ds ++ 45 :: l :: (hs ++ tail) := by
    simp only [List.mem_append, List.mem_cons, not_or]
    refine ⟨not_mem_of_isdigit ds 46 hdd rfl, by decide, ?_, not_mem_of_hexval hs 46 hhx rfl, ?_⟩
    · rcases hl with h | h | h <;> subst h <;> decide
    · rcases ht with h | h <;> subst h <;> decide
  rw [rd_version_dash _ tag _ h45 (by omega)
    (no_marker_dash tag _ _ (Or.inl rfl) hg h46)
    (no_marker_dash tag _ _ (Or.inr (Or.inl rfl)) hb h46)
    (no_marker_dash tag _ _ (Or.inr (Or.inr rfl)) hh h46),
    bang_vtag_zero _ tag rfl htl]
  rw [rd_version_dist_primary _ ds hs tail l (scm_of_letter l) hds hdd hval ?_ hhs hhx ht3]
  · rfl
  · rcases hl with h | h | h <;> subst h
    · exact Or.inl ⟨rfl, rfl⟩
    · exact Or.inr (Or.inr ⟨rfl, rfl, by simp [yuck_version_zero, yuck_scm_t.toInt]⟩)
    · exact Or.inr (Or.inl ⟨rfl, rfl⟩)

/-- The wire form of a record with a complete revision group. -/
theorem wire_text_full (tag ds hs : List Nat) (l : Nat) (d : Nat)
    (htl : tag.length ≤ 15) (h0 : 0 ∉ tag)
    (hds : ds ≠ []) (hdd : ∀ c ∈ ds, isdigit c = true) (hlead : peek ds ≠ 48)
    (hval : decnum ds < 2 ^ 32)
    (hl : l = 103 ∨ l = 98 ∨ l = 104)
    (hhs : 1 ≤ hs.length ∧ hs.length ≤ 7) (hlow : ∀ c ∈ hs, islowerhex c = true) :
    wire_text { scm := scm_of_letter l, vtag := tag_field tag, dist := decnum ds,
                rvsn := hexnum hs * 16 + hs.length, dirty := d } =
      118 :: (tag ++ 45 :: (ds ++ 45 :: l :: (hs ++
        if d = 0 then [] else [45, 100, 105, 114, 116, 121]))) := by
  obtain ⟨c, ds1, rfl⟩ := List.exists_cons_of_ne_nil hds
  have hc := hdd c (by simp)
  simp only [isdigit, Bool.and_eq_true, decide_eq_true_eq] at hc
  simp only [peek, List.headD_cons] at hlead
  have hpos : 1 ≤ decnum (c :: ds1) := decnum_ge_one c ds1 (by omega)
  have hlen := canonical_length (c :: ds1) hdd (by simpa [peek] using hlead) hval
  have hfmt : fmt_u (decnum (c :: ds1)) = c :: ds1 := by
    unfold fmt_u
    rw [Nat.mod_eq_of_lt hval]
    exact utoa_decnum (c :: ds1) 10 (by simp) hdd (Or.inr (by simpa [peek] using hlead)) hlen
  have hw : (hexnum hs * 16 + hs.length) &&& 7 = hs.length := pack_width _ _ (by omega)
  have hv : (hexnum hs * 16 + hs.length) >>> 4 = hexnum hs := pack_value _ _ (by omega)
  have hx : fmt_0x hs.length (hexnum hs) = hs := by
    rw [fmt_0x_eq_hexfix _ _ hhs.1 (by omega) (hexnum_lt hs), hexfix_hexnum hs hlow]
  have hlet : scm_letter (scm_of_letter l) = l := by
    rcases hl with h | h | h <;> subst h <;> rfl
  have hscm : ¬ (scm_of_letter l).toInt ≤ 0 := by
    rcases hl with h | h | h <;> subst h <;> decide
  have hrv : ¬ (hexnum hs * 16 + hs.length = 0) := by omega
  unfold wire_text wire_rev tag_of
  simp only [takeWhile_tag_field tag h0 htl, hfmt, hw, hv, hx, hlet, hscm, hrv, or_self,
    if_false, show ¬ decnum (c :: ds1) = 0 by omega]
  simp


/-! ## Claims on the codec -/

/-- C2: every text `v<TAG>-<DIST>-<letter><HEX>[-dirty]` of the primary grammar
(TAG of at most 15 bytes without NUL, `-` and marker, DIST a decimal number
without leading zero below `2 ^ 32`, letter `g`, `b` or `h`, HEX of 1 to 7
lower-case digits) parses on a zero-initialised record to the record it
denotes, and `wr_version` with a 256-byte buffer writes that record back as
the same text. -/
theorem primary_text_roundtrip (tag ds hs : List Nat) (l : Nat) (dirty : Bool)
    (htl : tag.length ≤ 15) (h0 : 0 ∉ tag) (h45 : 45 ∉ tag)
    (hg : ¬ [46, 103, 105, 116] <:+: tag) (hb : ¬ [46, 98, 122, 114] <:+: tag)
    (hh : ¬ [46, 104, 103] <:+: tag)
    (hds : ds ≠ []) (hdd : ∀ c ∈ ds, isdigit c = true) (hlead : peek ds ≠ 48)
    (hval : decnum ds < 2 ^ 32)
    (hl : l = 103 ∨ l = 98 ∨ l = 104)
    (hhs : 1 ≤ hs.length ∧ hs.length ≤ 7) (hlow : ∀ c ∈ hs, islowerhex c = true) :
    rd_version yuck_version_zero (primary_text tag ds l hs dirty) =
      (0, { scm := scm_of_letter l, vtag := tag_field tag, dist := decnum ds,
            rvsn := (hexnum hs <<< 4) ||| hs.length, dirty := if dirty then 1 else 0 }) ∧
    wr_version 256 (rd_version yuck_version_zero (primary_text tag ds l hs dirty)).2 =
      (((primary_text tag ds l hs dirty).length : Int), primary_text tag ds l hs dirty ++ [0]) ∧
    wr_text (rd_version yuck_version_zero (primary_text tag ds l hs dirty)).2 =
      some (primary_text tag ds l hs dirty) := by
  have hne : hs ≠ [] := by intro e; rw [e] at hhs; simp at hhs
  have hhx : ∀ c ∈ hs, (hexval c).isSome = true := fun c hc => islowerhex_isSome c (hlow c hc)
  have htake : hs.take 7 = hs := List.take_of_length_le hhs.2
  have hmin : min 7 hs.length = hs.length := by omega
  have hrd : rd_version yuck_version_zero (primary_text tag ds l hs dirty) =
      (0, { scm := scm_of_letter l, vtag := tag_field tag, dist := decnum ds,
            rvsn := hexnum hs * 16 + hs.length, dirty := if dirty then 1 else 0 }) := by
    unfold primary_text
    rw [rd_version_primary tag ds hs _ l htl h45 hg hb hh hds hdd hval hl hne hhx
      (by cases dirty <;> simp), htake, hmin]
    cases dirty <;> simp
  have hwire := wire_text_full tag ds hs l (if dirty then 1 else 0) htl h0 hds hdd hlead hval hl
    hhs hlow
  have hw2 : wire_text
      { scm := scm_of_letter l, vtag := tag_field tag, dist := decnum ds,
        rvsn := hexnum hs * 16 + hs.length, dirty := if dirty then 1 else 0 } =
      primary_text tag ds l hs dirty := by
    rw [hwire]; unfold primary_text; cases dirty <;> simp
  have hlt : hexnum hs * 16 + hs.length < 2 ^ 32 := by
    have := hexnum_lt hs
    have : (16 : Nat) ^ hs.length ≤ 16 ^ 7 := Nat.pow_le_pow_right (by norm_num) hhs.2
    omega
  refine ⟨?_, ?_, ?_⟩
  · rw [hrd, pack_eq _ _ (by omega)]
  · rw [hrd]
    simp only []
    rw [wr_version_eq 256 _ (tag_field_length tag (by omega)) hval hlt
      (tag_field_mem_zero tag htl) (by norm_num), hw2]
  · rw [hrd]
    simp only []
    rw [wr_text_eq _ (tag_field_length tag (by omega)) hval hlt (tag_field_mem_zero tag htl), hw2]

theorem primary_text_roundtrip_witness :
    rd_version yuck_version_zero (bytes "v1.0.0-3-g1a2b3c4-dirty") =
      (0, { scm := YUCK_SCM_GIT, vtag := tag_field (bytes "1.0.0"), dist := 3,
            rvsn := (0x1a2b3c4 <<< 4) ||| 7, dirty := 1 }) ∧
    wr_text (rd_version yuck_version_zero (bytes "v1.0.0-3-g1a2b3c4-dirty")).2 =
      some (bytes "v1.0.0-3-g1a2b3c4-dirty") :=
  ⟨(primary_text_roundtrip (bytes "1.0.0") (bytes "3") (bytes "1a2b3c4") 103 true
      (by decide) (by decide) (by decide) (by decide) (by decide) (by decide) (by decide)
      (by decide) (by decide) (by decide) (by decide) (by decide) (by decide)).1,
   (primary_text_roundtrip (bytes "1.0.0") (bytes "3") (bytes "1a2b3c4") 103 true
      (by decide) (by decide) (by decide) (by decide) (by decide) (by decide) (by decide)
      (by decide) (by decide) (by decide) (by decide) (by decide) (by decide)).2.2⟩


/-- C1, as stated, fails: the record `git_version` builds for a checkout
exactly at the tag `v1.0.0` (scm Git, distance 0, revision 0, clean) is
written as `v1.0.0` and read back with scm Tarball. -/
theorem record_roundtrip_loses_scm :
    wr_text { scm := YUCK_SCM_GIT, vtag := tag_field (bytes "1.0.0"), dist := 0, rvsn := 0,
              dirty := 0 } = some (bytes "v1.0.0") ∧
    rd_version yuck_version_zero (bytes "v1.0.0") =
      (0, { scm := YUCK_SCM_TARBALL, vtag := tag_field (bytes "1.0.0"), dist := 0, rvsn := 0,
            dirty := 0 }) ∧
    (rd_version yuck_version_zero (bytes "v1.0.0")).2 ≠
      { scm := YUCK_SCM_GIT, vtag := tag_field (bytes "1.0.0"), dist := 0, rvsn := 0,
        dirty := 0 } := by
  decide

/-- C1, amended: a record whose tag has at most 15 bytes and contains no NUL,
no `-` and no marker, and which either has scm Tarball, revision 0 and a clear
dirty flag, or has scm Git, Bzr or Hg, a distance of at least 1 and a revision
`(V << 4) | w` with `1 <= w <= 7` and `V < 16 ^ w`, is written by `wr_version`
as a text that `rd_version` reads back, on a zero-initialised record, with
success and equal to the record in every field. -/
theorem record_roundtrip (r : yuck_version_s) (tag : List Nat)
    (hvt : r.vtag = tag_field tag) (htl : tag.length ≤ 15) (h0 : 0 ∉ tag) (h45 : 45 ∉ tag)
    (hg : ¬ [46, 103, 105, 116] <:+: tag) (hb : ¬ [46, 98, 122, 114] <:+: tag)
    (hh : ¬ [46, 104, 103] <:+: tag) (hdist : r.dist < 2 ^ 32)
    (hcase : (r.scm = YUCK_SCM_TARBALL ∧ r.rvsn = 0 ∧ r.dirty = 0) ∨
      ((r.scm = YUCK_SCM_GIT ∨ r.scm = YUCK_SCM_BZR ∨ r.scm = YUCK_SCM_HG) ∧ 1 ≤ r.dist ∧
        r.dirty ≤ 1 ∧ ∃ V w, 1 ≤ w ∧ w ≤ 7 ∧ V < 16 ^ w ∧ r.rvsn = (V <<< 4) ||| w)) :
    ∃ text, wr_text r = some text ∧ rd_version yuck_version_zero text = (0, r) := by
  obtain ⟨scm, vtag, dist, rvsn, dirty⟩ := r
  simp only at hvt hdist hcase
  subst hvt
  have htag : ∀ (s : yuck_scm_t) (d r y : Nat), tag_of ⟨s, tag_field tag, d, r, y⟩ = tag :=
    fun _ _ _ _ => takeWhile_tag_field tag h0 htl
  obtain ⟨hd1, hd2, hd3, hd4⟩ := fmt_u_spec dist hdist
  have h46d : 46 ∉ fmt_u dist := not_mem_of_isdigit _ 46 hd2 rfl
  rcases hcase with ⟨rfl, rfl, rfl⟩ | ⟨hscm, hpos, hdy, V, w, hw1, hw7, hV, rfl⟩
  · refine ⟨_, wr_text_eq _ (tag_field_length tag (by omega)) hdist (by norm_num)
      (tag_field_mem_zero tag htl), ?_⟩
    by_cases hz : dist = 0
    · subst hz
      have : wire_text ⟨YUCK_SCM_TARBALL, tag_field tag, 0, 0, 0⟩ = 118 :: tag := by
        simp [wire_text, htag]
      rw [this, rd_version_plain _ tag h45 (by omega) (no_marker_plain _ _ hg)
        (no_marker_plain _ _ hb) (no_marker_plain _ _ hh), bang_vtag_zero _ tag rfl htl]
      rfl
    · have : wire_text ⟨YUCK_SCM_TARBALL, tag_field tag, dist, 0, 0⟩ =
          118 :: (tag ++ 45 :: fmt_u dist) := by
        simp [wire_text, htag, hz]
      rw [this, rd_version_dash _ tag _ h45 (by omega)
        (no_marker_dash tag _ _ (Or.inl rfl) hg h46d)
        (no_marker_dash tag _ _ (Or.inr (Or.inl rfl)) hb h46d)
        (no_marker_dash tag _ _ (Or.inr (Or.inr rfl)) hh h46d),
        bang_vtag_zero _ tag rfl htl, rd_version_dist_only _ _ hd3 hd2 (by rw [hd1]; exact hdist),
        hd1]
      rfl
  · have hpk : (V <<< 4) ||| w = V * 16 + w := pack_eq V w (by omega)
    have hV28 : V < 2 ^ 28 := by
      have : (16 : Nat) ^ w ≤ 16 ^ 7 := Nat.pow_le_pow_right (by norm_num) hw7
      omega
    rw [hpk]
    have hwd : (V * 16 + w) &&& 7 = w := pack_width _ _ (by omega)
    have hvl : (V * 16 + w) >>> 4 = V := pack_value _ _ (by omega)
    have hx : fmt_0x w V = hexfix w V := fmt_0x_eq_hexfix w V hw1 (by omega) hV
    have hxl : (hexfix w V).length = w := hexfix_length w V
    have hxh : ∀ c ∈ hexfix w V, (hexval c).isSome = true :=
      fun c hc => islowerhex_isSome c (hexfix_lower w V c hc)
    have hxn : hexfix w V ≠ [] := by
      intro e; rw [e] at hxl; simp at hxl; omega
    have hxv : hexnum (hexfix w V) = V := by
      rw [hexnum_hexfix, Nat.mod_eq_of_lt hV]
    have hsc : 0 < scm.toInt := by
      rcases hscm with h | h | h <;> subst h <;> decide
    have hlet : scm_of_letter (scm_letter scm) = scm := by
      rcases hscm with h | h | h <;> subst h <;> rfl
    have hll : scm_letter scm = 103 ∨ scm_letter scm = 98 ∨ scm_letter scm = 104 := by
      rcases hscm with h | h | h <;> subst h <;> simp [scm_letter]
    have hdd : dirty = 0 ∨ dirty = 1 := by omega
    refine ⟨_, wr_text_eq _ (tag_field_length tag (by omega)) hdist
      (show V * 16 + w < 2 ^ 32 by omega) (tag_field_mem_zero tag htl), ?_⟩
    have hwt : wire_text ⟨scm, tag_field tag, dist, V * 16 + w, dirty⟩ =
        118 :: (tag ++ 45 :: (fmt_u dist ++ 45 :: scm_letter scm ::
          (hexfix w V ++ if dirty = 0 then [] else [45, 100, 105, 114, 116, 121]))) := by
      have h1 : ¬ dist = 0 := by omega
      have h2 : ¬ (V * 16 + w = 0) := by omega
      have h3 : ¬ scm.toInt ≤ 0 := by omega
      simp only [wire_text, wire_rev, htag, h1, h2, h3, or_self, if_false, hwd, hvl, hx]
      simp
    rw [hwt, rd_version_primary tag (fmt_u dist) (hexfix w V) _ (scm_letter scm) htl h45 hg hb hh
      hd3 hd2 (by rw [hd1]; exact hdist) hll hxn hxh
      (by rcases hdd with h | h <;> subst h <;> simp),
      List.take_of_length_le (by omega), hxv, hxl, hd1, hlet]
    have hm : min 7 w = w := by omega
    rw [hm]
    rcases hdd with h | h <;> subst h <;> simp

theorem record_roundtrip_witness :
    ∃ text, wr_text { scm := YUCK_SCM_BZR, vtag := tag_field (bytes "2.0"), dist := 8,
                      rvsn := (0x32 <<< 4) ||| 2, dirty := 1 } = some text ∧
      rd_version yuck_version_zero text =
        (0, { scm := YUCK_SCM_BZR, vtag := tag_field (bytes "2.0"), dist := 8,
              rvsn := (0x32 <<< 4) ||| 2, dirty := 1 }) :=
  record_roundtrip _ (bytes "2.0") rfl (by decide) (by decide) (by decide) (by decide)
    (by decide) (by decide) (by decide)
    (Or.inr ⟨by decide, by decide, by decide, 0x32, 2, by decide, by decide, by decide, rfl⟩)


/-- C3, as stated, fails for a distance that does not fit the 32-bit member
`dist`: `v1.2.3.git4294967296.abc1234` is accepted with distance 0. -/
theorem alt_grammar_dist_wraps :
    decnum (bytes "4294967296") = 4294967296 ∧
    rd_version yuck_version_zero (alt_text (bytes "1.2.3") YUCK_SCM_GIT (bytes "4294967296")
        (bytes "abc1234") false) =
      (0, { scm := YUCK_SCM_GIT, vtag := tag_field (bytes "1.2.3"), dist := 0,
            rvsn := (0xabc1234 <<< 4) ||| 7, dirty := 0 }) := by
  decide

/-- C3, amended: every text `v<TAG><marker><DIST>.<HEX>[.dirty]` of the
alternate grammar (TAG of at most 15 bytes without marker, marker `.git`,
`.bzr` or `.hg`, DIST a non-empty string of decimal digits with a value below
`2 ^ 32`, HEX of 1 to 7 hexadecimal digits of either case) is accepted on a
zero-initialised record, with the tag, the scm the marker names, the distance,
the revision `(value of HEX << 4) | length of HEX`, and dirty set iff the
suffix `.dirty` is present. -/
theorem alt_grammar_accepted (tag ds hs : List Nat) (s : yuck_scm_t) (dirty : Bool)
    (hs3 : s = YUCK_SCM_GIT ∨ s = YUCK_SCM_BZR ∨ s = YUCK_SCM_HG)
    (htl : tag.length ≤ 15)
    (hg : ¬ [46, 103, 105, 116] <:+: tag) (hb : ¬ [46, 98, 122, 114] <:+: tag)
    (hh : ¬ [46, 104, 103] <:+: tag)
    (hds : ds ≠ []) (hdd : ∀ c ∈ ds, isdigit c = true) (hval : decnum ds < 2 ^ 32)
    (hhs : 1 ≤ hs.length ∧ hs.length ≤ 7) (hhx : ∀ c ∈ hs, (hexval c).isSome = true) :
    rd_version yuck_version_zero (alt_text tag s ds hs dirty) =
      (0, { scm := s, vtag := tag_field tag, dist := decnum ds,
            rvsn := (hexnum hs <<< 4) ||| hs.length, dirty := if dirty then 1 else 0 }) := by
  have hne : hs ≠ [] := by intro e; rw [e] at hhs; simp at hhs
  have htake : hs.take 7 = hs := List.take_of_length_le hhs.2
  have hmin : min 7 hs.length = hs.length := by omega
  have ht3 : ∀ b : Bool, (if b then [46, 100, 105, 114, 116, 121] else ([] : List Nat)) = [] ∨
      (if b then [46, 100, 105, 114, 116, 121] else ([] : List Nat)) = [45, 100, 105, 114, 116, 121] ∨
      (if b then [46, 100, 105, 114, 116, 121] else ([] : List Nat)) = [46, 100, 105, 114, 116, 121] := by
    intro b; cases b <;> simp
  -- bytes that cannot occur behind the marker
  have hnot : ∀ c, isdigit c = false → hexval c = none →
      (c ≠ 45 ∧ c ≠ 46 ∧ c ≠ 100 ∧ c ≠ 105 ∧ c ≠ 114 ∧ c ≠ 116 ∧ c ≠ 121) →
      c ∉ ds ++ 46 :: (hs ++ if dirty then [46, 100, 105, 114, 116, 121] else []) := by
    intro c h1 h2 h3
    simp only [List.mem_append, List.mem_cons, not_or]
    exact ⟨not_mem_of_isdigit ds c hdd h1, h3.2.1, not_mem_of_hexval hs c hhx h2,
      not_mem_dirty_tail _ c (ht3 dirty) h3⟩
  have h103 := hnot 103 rfl rfl (by decide)
  have h122 := hnot 122 rfl rfl (by decide)
  have hrec : rd_version yuck_version_zero (alt_text tag s ds hs dirty) =
      rd_version_dist (bang_vtag { yuck_version_zero with scm := s } (tag ++ [0]))
        (ds ++ 46 :: (hs ++ if dirty then [46, 100, 105, 114, 116, 121] else [])) := by
    unfold alt_text
    apply rd_version_marker _ tag _ (scm_marker s) s (by omega)
    rcases hs3 with h | h | h <;> subst h
    · exact Or.inl ⟨rfl, rfl, marker_found tag _ _ (Or.inl rfl) hg⟩
    · refine Or.inr (Or.inl ⟨rfl, rfl, ?_, marker_found tag _ _ (Or.inr (Or.inl rfl)) hb⟩)
      have := marker_absent tag ([98, 122, 114] ++ (ds ++ 46 :: (hs ++
        if dirty then [46, 100, 105, 114, 116, 121] else []))) [46, 103, 105, 116] (Or.inl rfl) hg
        (first_occ_none_of_not_mem _ _ 103 (by simp) (by
          simp only [List.cons_append, List.nil_append, List.mem_cons, not_or]
          exact ⟨by decide, by decide, by decide, by decide, h103⟩))
      simpa [scm_marker] using this
    · refine Or.inr (Or.inr ⟨rfl, rfl, ?_, ?_, marker_found tag _ _ (Or.inr (Or.inr rfl)) hh⟩)
      · have hfo : first_occ (46 :: ([104, 103] ++ (ds ++ 46 :: (hs ++
            if dirty then [46, 100, 105, 114, 116, 121] else [])))) [46, 103, 105, 116] = none := by
          have := first_occ_none_of_not_mem _ [46, 103, 105, 116] 103 (by simp) h103
          simp [first_occ, this]
        have := marker_absent tag _ [46, 103, 105, 116] (Or.inl rfl) hg hfo
        simpa [scm_marker] using this
      · have := marker_absent tag ([104, 103] ++ (ds ++ 46 :: (hs ++
          if dirty then [46, 100, 105, 114, 116, 121] else []))) [46, 98, 122, 114]
          (Or.inr (Or.inl rfl)) hb
          (first_occ_none_of_not_mem _ _ 122 (by simp) (by
            simp only [List.cons_append, List.nil_append, List.mem_cons, not_or]
            exact ⟨by decide, by decide, by decide, h122⟩))
        simpa [scm_marker] using this
  have hsc : 0 < s.toInt := by
    rcases hs3 with h | h | h <;> subst h <;> decide
  rw [hrec, bang_vtag_zero _ tag rfl htl,
    rd_version_dist_alt _ ds hs _ hds hdd hval hsc hne hhx (ht3 dirty), htake, hmin,
    pack_eq _ _ (by omega)]
  cases dirty <;> simp [yuck_version_zero]

theorem alt_grammar_accepted_witness :
    rd_version yuck_version_zero (bytes "v1.2.3.git4.abc1234") =
      (0, { scm := YUCK_SCM_GIT, vtag := tag_field (bytes "1.2.3"), dist := 4,
            rvsn := (0xabc1234 <<< 4) ||| 7, dirty := 0 }) :=
  alt_grammar_accepted (bytes "1.2.3") (bytes "4") (bytes "abc1234") YUCK_SCM_GIT false
    (by decide) (by decide) (by decide) (by decide) (by decide) (by decide) (by decide)
    (by decide) (by decide) (by decide)

/-- C4, as stated, fails: for a Git record three commits past the tag whose
revision is 0, `wr_version` writes `v1.0-3`, the distance without the rest of
the group, which is none of the forms C4 allows. -/
theorem wire_form_dist_alone :
    wr_text { scm := YUCK_SCM_GIT, vtag := tag_field (bytes "1.0"), dist := 3, rvsn := 0,
              dirty := 0 } = some (bytes "v1.0-3") ∧
    bytes "v1.0-3" ∉
      claimed_wire_forms { scm := YUCK_SCM_GIT, vtag := tag_field (bytes "1.0"), dist := 3,
                           rvsn := 0, dirty := 0 } := by
  decide

/-- C4, amended: for every record whose tag is NUL-terminated inside `vtag`
and a buffer of at least 43 bytes, `wr_version` returns the length of, and
leaves in the buffer, the text `wire_text`: `v`, the tag, nothing more for
distance 0; otherwise `-` and the decimal distance, followed, only for a
non-zero revision of a Git, Bzr or Hg record, by `-`, the letter `g`, `b` or
`h` and the hexadecimal revision (value `rvsn >> 4`, zero-padded to width
`rvsn & 7`), and behind that group `-dirty` iff the dirty flag is set. -/
theorem wr_version_wire_form (bsz : Nat) (v : yuck_version_s) (hwf : v.wf) (h0 : 0 ∈ v.vtag)
    (hb : 43 ≤ bsz) :
    wr_version bsz v = (((wire_text v).length : Int), wire_text v ++ [0]) ∧
    wire_text v =
      118 :: v.vtag.takeWhile (· ≠ 0) ++
        (if v.dist = 0 then []
         else 45 :: fmt_u v.dist ++
          (if v.rvsn = 0 ∨ v.scm = YUCK_SCM_ERROR ∨ v.scm = YUCK_SCM_TARBALL then []
           else 45 :: (if v.scm = YUCK_SCM_GIT then 103 else if v.scm = YUCK_SCM_BZR then 98
              else 104) :: fmt_0x (v.rvsn &&& 7) (v.rvsn >>> 4) ++
            (if v.dirty = 0 then [] else [45, 100, 105, 114, 116, 121]))) := by
  refine ⟨wr_version_eq bsz v hwf.1 hwf.2.2.1 hwf.2.2.2.1 h0 hb, ?_⟩
  unfold wire_text wire_rev tag_of
  cases hs : v.scm <;> simp [yuck_scm_t.toInt, scm_letter]

theorem wr_version_wire_form_witness :
    wr_version 256 { scm := YUCK_SCM_HG, vtag := tag_field (bytes "1.0"), dist := 3,
                     rvsn := (0x0a1 <<< 4) ||| 3, dirty := 1 } =
      (17, bytes "v1.0-3-h0a1-dirty" ++ [0]) :=
  (wr_version_wire_form 256 ⟨YUCK_SCM_HG, tag_field (bytes "1.0"), 3, (0x0a1 <<< 4) ||| 3, 1⟩
    (by decide) (by decide) (by decide)).1.trans (by decide)


/-! ## The git extractor -/

theorem store_mid (a b : List Nat) (x y n : Nat) (hn : n = a.length) :
    store (a ++ x :: b) n [y] = a ++ y :: b := by
  subst hn
  simp [store, List.take_append_eq_append_take]

theorem store_read (buf0 rd : List Nat) (h : rd.length ≤ 256) :
    store buf0 0 (rd.take 256) = rd ++ buf0.drop rd.length := by
  rw [List.take_of_length_le h]
  simp [store]

theorem strchr_found (t r : List Nat) (c : Nat) (hc : c ∉ t) (h0 : 0 ∉ t) :
    strchr (t ++ c :: r) c = some t.length := by
  induction t with
  | nil => simp [strchr]
  | cons x t ih =>
    simp only [List.mem_cons, not_or] at hc h0
    have h1 : ¬ x = c := fun e => hc.1 e.symm
    have h2 : ¬ x = 0 := fun e => h0.1 e.symm
    simp [strchr, h1, h2, ih hc.2 h0.2]

theorem strchr_stops (t r : List Nat) (c : Nat) (hc : c ∉ t) (hc0 : c ≠ 0) :
    strchr (t ++ 0 :: r) c = none := by
  induction t with
  | nil => simp [strchr, hc0.symm]
  | cons x t ih =>
    simp only [List.mem_cons, not_or] at hc
    have h1 : ¬ x = c := fun e => hc.1 e.symm
    by_cases h2 : x = 0
    · subst h2; simp [strchr, h1]
    · simp [strchr, h1, h2, ih hc.2]

theorem strlen_stops (t r : List Nat) (h0 : 0 ∉ t) : strlen (t ++ 0 :: r) = t.length := by
  induction t with
  | nil => simp [strlen]
  | cons x t ih =>
    simp only [List.mem_cons, not_or] at h0
    have h2 : ¬ x = 0 := fun e => h0.1 e.symm
    simp [strlen, h2, ih h0.2]

theorem xstrlcpy_token (t r : List Nat) (h0 : 0 ∉ t) :
    xstrlcpy (t ++ 0 :: r) 16 =
      (t.take (if 16 < t.length then 15 else 16) ++ [0],
        (t.take (if 16 < t.length then 15 else 16)).length) := by
  unfold xstrlcpy
  rw [if_neg (by norm_num), strlen_stops t r h0]
  by_cases h : 16 < t.length
  · have h' : t.length > 16 := h
    simp only [h, h', if_true]
    rw [List.take_append_of_le_length (by omega)]
    simp; omega
  · have h' : ¬ t.length > 16 := h
    simp only [h, h', if_false]
    rw [List.take_append_of_le_length (by omega), List.take_of_length_le (by omega),
      List.take_of_length_le (by omega)]

theorem bang_vtag_zero16 (v : yuck_version_s) (t : List Nat) (hv : v.vtag = List.replicate 16 0)
    (hd : v.dist = 0) (ht : t.length ≤ 16) :
    bang_vtag v (t ++ [0]) = { v with vtag := tag_field t } := by
  by_cases h15 : t.length ≤ 15
  · exact bang_vtag_zero v t hv h15
  · have h16 : t.length = 16 := by omega
    unfold bang_vtag tag_field
    rw [hd, hv]
    have h1 : (t ++ [0]).take 16 = t := by
      rw [List.take_append_of_le_length (by omega), List.take_of_length_le (by omega)]
    simp [h1, h16]


theorem drop_app (a b : List Nat) (n : Nat) (hn : n = a.length) : (a ++ b).drop n = b := by
  subst hn; exact List.drop_left a b

/-- The extractor `git_version` on a line `v<TAG>-<DIST>-g<HASH>[-dirty]`. -/
theorem git_version_full_form (chld : Int) (buf0 tag ds hs : List Nat) (dirty : Bool)
    (hchld : 0 ≤ chld)
    (h0 : 0 ∉ tag) (h45 : 45 ∉ tag)
    (hds : ds ≠ []) (hdd : ∀ c ∈ ds, isdigit c = true) (hval : decnum ds < 2 ^ 32)
    (hhs : hs ≠ []) (hhx : ∀ c ∈ hs, (hexval c).isSome = true)
    (hlen : (118 :: (tag ++ 45 :: (ds ++ 45 :: 103 :: (hs ++
      ((if dirty then [45, 100, 105, 114, 116, 121] else []) ++ [10]))))).length ≤ 256) :
    git_version { yuck_version_zero with scm := YUCK_SCM_GIT } chld buf0
        (118 :: (tag ++ 45 :: (ds ++ 45 :: 103 :: (hs ++
          ((if dirty then [45, 100, 105, 114, 116, 121] else []) ++ [10]))))) 0 =
      (0, { scm := YUCK_SCM_GIT,
            vtag := tag_field (tag.take (if 16 < tag.length then 15 else 16)),
            dist := decnum ds,
            rvsn := hexnum (hs.take 7) * 16 + min 7 hs.length,
            dirty := if dirty then 1 else 0 }) := by
  generalize htail : (if dirty then [45, 100, 105, 114, 116, 121] else ([] : List Nat)) = tail
    at hlen ⊢
  have ht : tail = [] ∨ tail = [45, 100, 105, 114, 116, 121] := by
    cases dirty <;> simp at htail <;> simp [← htail]
  generalize hrd : (118 :: (tag ++ 45 :: (ds ++ 45 :: 103 :: (hs ++ (tail ++ [10]))))) = rd
    at hlen ⊢
  generalize hJ : buf0.drop rd.length = J
  have hd45 : 45 ∉ ds := not_mem_of_isdigit ds 45 hdd rfl
  have hd0 : 0 ∉ ds := not_mem_of_isdigit ds 0 hdd rfl
  have hrdlen : rd.length - 1 =
      (118 :: (tag ++ 45 :: (ds ++ 45 :: 103 :: (hs ++ tail)))).length := by
    rw [← hrd]; simp; omega
  -- the buffer after the read and the store of the terminator
  have hm0 : store (store buf0 0 (rd.take 256)) ((rd.take 256).length - 1) [0] =
      118 :: (tag ++ 45 :: (ds ++ 45 :: 103 :: (hs ++ (tail ++ 0 :: J)))) := by
    rw [store_read buf0 rd hlen, List.take_of_length_le hlen, hJ]
    have e : rd ++ J = (118 :: (tag ++ 45 :: (ds ++ 45 :: 103 :: (hs ++ tail)))) ++ 10 :: J := by
      rw [← hrd]; simp
    rw [e, store_mid _ J 10 0 _ hrdlen]
    simp
  -- after the first token is cut
  have hm1 : store (118 :: (tag ++ 45 :: (ds ++ 45 :: 103 :: (hs ++ (tail ++ 0 :: J)))))
      (1 + tag.length) [0] =
      118 :: (tag ++ 0 :: (ds ++ 45 :: 103 :: (hs ++ (tail ++ 0 :: J)))) := by
    have := store_mid (118 :: tag) (ds ++ 45 :: 103 :: (hs ++ (tail ++ 0 :: J))) 45 0
      (1 + tag.length) (by simp; omega)
    simp at this ⊢; exact this
  -- after the second token is cut
  have hm2 : store (118 :: (tag ++ 0 :: (ds ++ 45 :: 103 :: (hs ++ (tail ++ 0 :: J)))))
      (1 + tag.length + 1 + ds.length) [0] =
      118 :: (tag ++ 0 :: (ds ++ 0 :: 103 :: (hs ++ (tail ++ 0 :: J)))) := by
    have := store_mid (118 :: (tag ++ 0 :: ds)) (103 :: (hs ++ (tail ++ 0 :: J))) 45 0
      (1 + tag.length + 1 + ds.length) (by simp; omega)
    simp at this ⊢; exact this
  have hc1 := strchr_found tag (ds ++ 45 :: 103 :: (hs ++ (tail ++ 0 :: J))) 45 h45 h0
  have hc2 := strchr_found ds (103 :: (hs ++ (tail ++ 0 :: J))) 45 hd45 hd0
  have hcp := xstrlcpy_token tag (ds ++ 45 :: 103 :: (hs ++ (tail ++ 0 :: J))) h0
  have hdr1 : (118 :: (tag ++ 0 :: (ds ++ 45 :: 103 :: (hs ++ (tail ++ 0 :: J))))).drop (1 + tag.length + 1) = ds ++ 45 :: 103 :: (hs ++ (tail ++ 0 :: J)) := by
    have e : (118 :: (tag ++ 0 :: (ds ++ 45 :: 103 :: (hs ++ (tail ++ 0 :: J))))) = (118 :: (tag ++ [0])) ++ (ds ++ 45 :: 103 :: (hs ++ (tail ++ 0 :: J))) := by simp
    rw [e, drop_app _ _ _ (by simp; omega)]
  have hdr2 : (118 :: (tag ++ 0 :: (ds ++ 0 :: 103 :: (hs ++ (tail ++ 0 :: J))))).drop (1 + tag.length + 1) = ds ++ 0 :: 103 :: (hs ++ (tail ++ 0 :: J)) := by
    have e : (118 :: (tag ++ 0 :: (ds ++ 0 :: 103 :: (hs ++ (tail ++ 0 :: J))))) = (118 :: (tag ++ [0])) ++ (ds ++ 0 :: 103 :: (hs ++ (tail ++ 0 :: J))) := by
      simp
    rw [e, drop_app _ _ _ (by simp; omega)]
  have hst := strtoul_small ds (0 :: 103 :: (hs ++ (tail ++ 0 :: J))) hds hdd rfl hval
  have hdr3 : (118 :: (tag ++ 0 :: (ds ++ 0 :: 103 :: (hs ++ (tail ++ 0 :: J))))).drop (1 + tag.length + 1 + ds.length + 1) =
      103 :: (hs ++ (tail ++ 0 :: J)) := by
    have e : (118 :: (tag ++ 0 :: (ds ++ 0 :: 103 :: (hs ++ (tail ++ 0 :: J))))) = (118 :: (tag ++ 0 :: (ds ++ [0]))) ++ (103 :: (hs ++ (tail ++ 0 :: J))) := by
      simp
    rw [e, drop_app _ _ _ (by simp; omega)]
  have hdr4 : (118 :: (tag ++ 0 :: (ds ++ 0 :: 103 :: (hs ++ (tail ++ 0 :: J))))).drop (1 + tag.length + 1 + ds.length + 1 + 1) = hs ++ (tail ++ 0 :: J) := by
    have e : (118 :: (tag ++ 0 :: (ds ++ 0 :: 103 :: (hs ++ (tail ++ 0 :: J))))) = (118 :: (tag ++ 0 :: (ds ++ [0, 103]))) ++ (hs ++ (tail ++ 0 :: J)) := by
      simp
    rw [e, drop_app _ _ _ (by simp; omega)]
  have hht : hexval (peek (tail ++ 0 :: J)) = none := by
    rcases ht with h | h <;> subst h <;> rfl
  have hx := hextou_run hs (tail ++ 0 :: J) hhs hhx hht
  have hdr5 : (118 :: (tag ++ 0 :: (ds ++ 0 :: 103 :: (hs ++ (tail ++ 0 :: J))))).drop (1 + tag.length + 1 + ds.length + 1 + 1 + hs.length) =
      tail ++ 0 :: J := by
    have e : (118 :: (tag ++ 0 :: (ds ++ 0 :: 103 :: (hs ++ (tail ++ 0 :: J))))) = (118 :: (tag ++ 0 :: (ds ++ 0 :: 103 :: hs))) ++ (tail ++ 0 :: J) := by
      simp
    rw [e, drop_app _ _ _ (by simp; omega)]
  have hdr6 : (118 :: (tag ++ 0 :: (ds ++ 0 :: 103 :: (hs ++ (tail ++ 0 :: J))))).drop
      (1 + tag.length + 1 + ds.length + 1 + 1 + hs.length + 1) = (tail ++ 0 :: J).drop 1 := by
    rw [← List.drop_drop 1, hdr5]
  have hbv := bang_vtag_zero16 { yuck_version_zero with scm := YUCK_SCM_GIT }
    (tag.take (if 16 < tag.length then 15 else 16)) rfl rfl (by
      split <;> simp)
  have hmod : decnum ds % 2 ^ 32 = decnum ds := Nat.mod_eq_of_lt hval
  have hne0 : ¬ rd.length = 0 := by rw [← hrd]; simp
  unfold git_version
  rw [if_neg (show ¬ chld < 0 by omega)]
  simp only [hne0, if_false, hm0, peek, List.headD_cons, ne_eq, not_true_eq_false,
    List.drop_one, List.tail_cons, hc1, hm1, hcp, hbv, hdr1, hc2, hm2, hdr2, hst, hmod, hdr3,
    hdr4, hdr5, hdr6, if_true, hx]
  rcases ht with h | h
  · subst h
    have hdy : dirty = false := by cases dirty <;> simp at htail ⊢
    subst hdy
    simp [yuck_version_zero]
  · subst h
    have hdy : dirty = true := by cases dirty <;> simp at htail ⊢
    subst hdy
    have h6 := hdr6
    simp at h6
    simp [strcmp, yuck_version_zero, h6]


/-! ## Claims on the extractors -/

set_option maxRecDepth 100000 in
/-- C6, as stated, fails for a distance that does not fit the 32-bit member
`dist`: on the line `v1.0.0-4294967296-g1a2b3c4d` the extractor succeeds with
distance 0. -/
theorem git_version_dist_wraps :
    decnum (bytes "4294967296") = 4294967296 ∧
    git_version { yuck_version_zero with scm := YUCK_SCM_GIT } 1 (List.replicate 256 0)
        (primary_text (bytes "1.0.0") (bytes "4294967296") 103 (bytes "1a2b3c4d") false ++ [10]) 0 =
      (0, { scm := YUCK_SCM_GIT, vtag := tag_field (bytes "1.0.0"), dist := 0,
            rvsn := (0x1a2b3c4 <<< 4) ||| 7, dirty := 0 }) := by
  decide

/-- C6, amended: when the child exits with 0 and the single `read` delivers a
whole line `v<TAG>-<DIST>-g<HASH>[-dirty]` with its newline (at most 256
bytes; TAG without `-` and NUL and not of exactly 16 bytes, DIST a non-empty
string of decimal digits with a value below `2 ^ 32`, HASH of `n >= 1`
hexadecimal digits), `git_version` returns 0 with the tag as far as it fits
the field (all of it when it has at most 15 bytes, its first 15 bytes when it
has more than 16), the distance, the revision
`(value of the first min(n,7) digits << 4) | min(n,7)` and dirty set iff the
suffix `-dirty` is present. -/
theorem git_version_full (chld : Int) (buf0 tag ds hs : List Nat) (dirty : Bool)
    (hchld : 0 ≤ chld) (htl : tag.length ≠ 16) (h0 : 0 ∉ tag) (h45 : 45 ∉ tag)
    (hds : ds ≠ []) (hdd : ∀ c ∈ ds, isdigit c = true) (hval : decnum ds < 2 ^ 32)
    (hhs : hs ≠ []) (hhx : ∀ c ∈ hs, (hexval c).isSome = true)
    (hlen : (primary_text tag ds 103 hs dirty ++ [10]).length ≤ 256) :
    git_version { yuck_version_zero with scm := YUCK_SCM_GIT } chld buf0
        (primary_text tag ds 103 hs dirty ++ [10]) 0 =
      (0, { scm := YUCK_SCM_GIT,
            vtag := tag_field (tag.take 15),
            dist := decnum ds,
            rvsn := (hexnum (hs.take 7) <<< 4) ||| min hs.length 7,
            dirty := if dirty then 1 else 0 }) := by
  have e : primary_text tag ds 103 hs dirty ++ [10] =
      118 :: (tag ++ 45 :: (ds ++ 45 :: 103 :: (hs ++
        ((if dirty then [45, 100, 105, 114, 116, 121] else []) ++ [10])))) := by
    simp [primary_text]
  have ht : tag.take (if 16 < tag.length then 15 else 16) = tag.take 15 := by
    by_cases h : 16 < tag.length
    · rw [if_pos h]
    · rw [if_neg h, List.take_of_length_le (by omega), List.take_of_length_le (by omega)]
  rw [e] at hlen ⊢
  rw [git_version_full_form chld buf0 tag ds hs dirty hchld h0 h45 hds hdd hval hhs hhx hlen,
    pack_eq _ _ (by omega), Nat.min_comm, ht]

theorem git_version_full_witness :
    git_version { yuck_version_zero with scm := YUCK_SCM_GIT } 4711 (List.replicate 256 170)
        (bytes "v1.0.0-3-g1a2b3c4d-dirty\n") 0 =
      (0, { scm := YUCK_SCM_GIT, vtag := tag_field (bytes "1.0.0"), dist := 3,
            rvsn := (0x1a2b3c4 <<< 4) ||| 7, dirty := 1 }) :=
  git_version_full 4711 (List.replicate 256 170) (bytes "1.0.0") (bytes "3") (bytes "1a2b3c4d")
    true (by decide) (by decide) (by decide) (by decide) (by decide) (by decide) (by decide)
    (by decide) (by decide) (by decide)

/-- C7 against the code: on the line `v1.0.0-dirty` of a dirty checkout exactly
at the tag, `git_version` succeeds with tag `1.0.0` and distance 0 but leaves
the dirty flag clear, whatever the buffer held before the read. -/
theorem git_version_dirty_at_tag_missed (buf0 : List Nat) :
    git_version { yuck_version_zero with scm := YUCK_SCM_GIT } 4711 buf0
        (bytes "v1.0.0-dirty\n") 0 =
      (0, { scm := YUCK_SCM_GIT, vtag := tag_field (bytes "1.0.0"), dist := 0, rvsn := 0,
            dirty := 0 }) := by
  have e : bytes "v1.0.0-dirty\n" = [118, 49, 46, 48, 46, 48, 45, 100, 105, 114, 116, 121, 10] := by
    decide
  have e2 : tag_field (bytes "1.0.0") = [49, 46, 48, 46, 48, 0, 0, 0, 0, 0, 0, 0, 0, 0, 0, 0] := by
    decide
  rw [e, e2]
  generalize hJ : buf0.drop 13 = J
  have hm0 : store (store buf0 0 ([118, 49, 46, 48, 46, 48, 45, 100, 105, 114, 116, 121, 10].take 256))
      (([118, 49, 46, 48, 46, 48, 45, 100, 105, 114, 116, 121, 10].take 256).length - 1) [0] =
      118 :: 49 :: 46 :: 48 :: 46 :: 48 :: 45 :: 100 :: 105 :: 114 :: 116 :: 121 :: 0 :: J := by
    rw [store_read buf0 _ (by decide)]
    have := store_mid [118, 49, 46, 48, 46, 48, 45, 100, 105, 114, 116, 121] J 10 0 12 rfl
    simpa [hJ] using this
  have hm1 : store (118 :: 49 :: 46 :: 48 :: 46 :: 48 :: 45 :: 100 :: 105 :: 114 :: 116 :: 121 ::
      0 :: J) (1 + 5) [0] =
      118 :: 49 :: 46 :: 48 :: 46 :: 48 :: 0 :: 100 :: 105 :: 114 :: 116 :: 121 :: 0 :: J := by
    have := store_mid [118, 49, 46, 48, 46, 48] (100 :: 105 :: 114 :: 116 :: 121 :: 0 :: J) 45 0 6
      rfl
    simpa using this
  unfold git_version
  rw [if_neg (by decide)]
  simp only [List.length_cons, List.length_nil, hm0]
  have hc1 : strchr (49 :: 46 :: 48 :: 46 :: 48 :: 45 :: 100 :: 105 :: 114 :: 116 :: 121 :: 0 :: J)
      45 = some 5 := by simp [strchr]
  have hdr : List.drop (1 + 5 + 1)
      (118 :: 49 :: 46 :: 48 :: 46 :: 48 :: 0 :: 100 :: 105 :: 114 :: 116 :: 121 :: 0 :: J) =
      100 :: 105 :: 114 :: 116 :: 121 :: 0 :: J := rfl
  have hc2 : strchr (100 :: 105 :: 114 :: 116 :: 121 :: 0 :: J) 45 = none := by simp [strchr]
  have hst : strtoul (100 :: 105 :: 114 :: 116 :: 121 :: 0 :: J) = (0, 0) := by
    simp [strtoul, isspace, isdigit, peek]
  have hdr2 : List.drop (1 + 5 + 1 + 0 + 1)
      (118 :: 49 :: 46 :: 48 :: 46 :: 48 :: 0 :: 100 :: 105 :: 114 :: 116 :: 121 :: 0 :: J) =
      105 :: 114 :: 116 :: 121 :: 0 :: J := rfl
  have hcp : xstrlcpy (49 :: 46 :: 48 :: 46 :: 48 :: 0 :: 100 :: 105 :: 114 :: 116 :: 121 :: 0 :: J)
      16 = ([49, 46, 48, 46, 48, 0], 5) := by simp [xstrlcpy, strlen]
  have hsc : strcmp (105 :: 114 :: 116 :: 121 :: 0 :: J) [100, 105, 114, 116, 121] = 5 := by
    simp [strcmp]
  simp only [peek, List.headD_cons, ne_eq, not_true_eq_false, if_false, List.drop_one,
    List.tail_cons, hc1, hm1, hdr, hc2, hst, hdr2, hcp, hsc]
  simp [bang_vtag, yuck_version_zero, hsc]

set_option maxRecDepth 100000 in
/-- C5 against the code: with `bzr revno` printing `50` and the last line of
`bzr tags` being `v2.0 42`, `bzr_version` succeeds with tag `2.0`, the packed
revision `(50 << 4) | 2 = 802` and the distance `802 - 42 = 760`, not 8. -/
theorem bzr_version_dist_from_packed_rvsn :
    bzr_version { yuck_version_zero with scm := YUCK_SCM_BZR } 4711 (List.replicate 256 0)
        (bytes "50\n") 0 4712 (List.replicate 4096 0) [bytes "v1.9 30\nv2.0 42\n"] 0 =
      some (0, { scm := YUCK_SCM_BZR, vtag := tag_field (bytes "2.0"), dist := 760,
                 rvsn := (50 <<< 4) ||| 2, dirty := 0 }) := by
  decide


/-! ## C18: the substring search -/

theorem first_occ_eq_some_iff (hay ndl : List Nat) (k : Nat) :
    first_occ hay ndl = some k ↔
      (k ≤ hay.length ∧ ndl <+: hay.drop k ∧ ∀ j, j < k → ¬ ndl <+: hay.drop j) := by
  induction hay generalizing k with
  | nil =>
    by_cases h : ndl = []
    · subst h
      simp only [first_occ, if_true, Option.some.injEq, List.length_nil, Nat.le_zero,
        List.drop_nil, List.nil_prefix, true_and, not_true_eq_false, imp_false, not_lt]
      constructor
      · intro e; subst e; simp
      · intro ⟨e, _⟩; exact e.symm
    · simp only [first_occ, h, if_false, List.length_nil, Nat.le_zero, List.drop_nil,
        List.prefix_nil, false_and, and_false]
      simp
  | cons x hay ih =>
    by_cases hp : ndl <+: x :: hay
    · have hb : ndl.isPrefixOf (x :: hay) = true := List.isPrefixOf_iff_prefix.2 hp
      simp only [first_occ, hb, if_true, Option.some.injEq]
      constructor
      · intro e; subst e; simp [hp]
      · intro ⟨_, _, h3⟩
        by_contra hk
        exact h3 0 (by omega) (by simpa using hp)
    · have hb : ndl.isPrefixOf (x :: hay) = false := by
        rw [← Bool.not_eq_true, List.isPrefixOf_iff_prefix]; exact hp
      simp only [first_occ, hb, Bool.false_eq_true, if_false, Option.map_eq_some']
      constructor
      · rintro ⟨k1, h1, rfl⟩
        obtain ⟨a, b, c⟩ := (ih k1).1 h1
        refine ⟨by simpa using a, by simpa using b, ?_⟩
        intro j hj
        cases j with
        | zero => simpa using hp
        | succ j => simpa using c j (by omega)
      · rintro ⟨a, b, c⟩
        cases k with
        | zero => exact absurd (by simpa using b) hp
        | succ k1 =>
          refine ⟨k1, (ih k1).2 ⟨by simpa using a, by simpa using b, ?_⟩, rfl⟩
          intro j hj
          simpa using c (j + 1) (by omega)

/-- C18: for every haystack and needle `xmemmem` returns the offset of the
first occurrence of the needle: it answers `k` exactly when the needle sits at
offset `k` and at no lower offset, it answers not-found exactly when the needle
does not occur in the haystack, and the empty needle is found at offset 0. -/
theorem xmemmem_first_occurrence (hay ndl : List Nat) :
    (∀ k, xmemmem hay ndl = some k ↔
      (k ≤ hay.length ∧ ndl <+: hay.drop k ∧ ∀ j, j < k → ¬ ndl <+: hay.drop j)) ∧
    (xmemmem hay ndl = none ↔ ¬ ndl <:+: hay) ∧
    xmemmem hay [] = some 0 := by
  refine ⟨fun k => ?_, ?_, rfl⟩
  · rw [xmemmem_eq_first_occ]; exact first_occ_eq_some_iff hay ndl k
  · rw [xmemmem_eq_first_occ]; exact first_occ_eq_none_iff hay ndl

/-! ## C16: the hexadecimal parser -/

theorem hextou_no_digit (s : List Nat) (h : hexval (peek s) = none) : hextou s = (0, 0) := by
  unfold hextou
  split_ifs with h0
  · rfl
  · cases s with
    | nil => simp [peek] at h0
    | cons c r =>
      simp only [peek, List.headD_cons] at h
      have hd : ((c :: r).dropWhile fun c => (hexval c).isSome) = c :: r := by
        rw [List.dropWhile_cons_of_neg]; simp [h]
      simp [hextou_loop, peek, h, hd]

theorem takeWhile_dropWhile_peek (p : Nat → Bool) (hp : p 0 = false) (s : List Nat) :
    p (peek (s.dropWhile p)) = false := by
  induction s with
  | nil => simpa [peek] using hp
  | cons c r ih =>
    by_cases hc : p c = true
    · rw [List.dropWhile_cons_of_pos hc]; exact ih
    · rw [List.dropWhile_cons_of_neg hc]; simpa [peek] using hc

/-- C16: for every string `s`, with `hs` its longest prefix of hexadecimal digits
(either case) and `n` the length of `hs`, `hextou` returns
`(V << 4) | min(n, 7)` for `V` the value of the first `min(n, 7)` digits and
leaves the end cursor `n` bytes after the start; for `n = 0` it returns 0 with
the cursor at the start.  The low four bits of the result are the digit count,
so bit 3 is 0, the bits above are `V`, and the result fits 32 bits. -/
theorem hextou_permissive (s : List Nat) :
    hextou s =
      ((hexnum ((s.takeWhile fun c => (hexval c).isSome).take 7) <<< 4) |||
        min (s.takeWhile fun c => (hexval c).isSome).length 7,
       (s.takeWhile fun c => (hexval c).isSome).length) ∧
    ((s.takeWhile fun c => (hexval c).isSome).length = 0 → hextou s = (0, 0)) ∧
    (hextou s).1 &&& 7 = min (s.takeWhile fun c => (hexval c).isSome).length 7 ∧
    (hextou s).1 / 8 % 2 = 0 ∧
    (hextou s).1 >>> 4 = hexnum ((s.takeWhile fun c => (hexval c).isSome).take 7) ∧
    (hextou s).1 < 2 ^ 32 := by
  set p : Nat → Bool := fun c => (hexval c).isSome with hp
  have hsplit : s = s.takeWhile p ++ s.dropWhile p := (List.takeWhile_append_dropWhile p s).symm
  have hrest : hexval (peek (s.dropWhile p)) = none := by
    have := takeWhile_dropWhile_peek p (by simp [hp, hexval]) s
    simpa [hp] using this
  have hall : ∀ c ∈ s.takeWhile p, (hexval c).isSome = true := fun c hc => by
    have := List.mem_takeWhile_imp hc
    simpa [hp] using this
  have hV := hexnum_take_lt (s.takeWhile p)
  have key : hextou s =
      (hexnum ((s.takeWhile p).take 7) * 16 + min (s.takeWhile p).length 7,
        (s.takeWhile p).length) := by
    by_cases hne : s.takeWhile p = []
    · have h0 : hexval (peek s) = none := by
        rw [hsplit, hne, List.nil_append]; exact hrest
      rw [hextou_no_digit s h0, hne]; simp [hexnum]
    · have := hextou_run (s.takeWhile p) (s.dropWhile p) hne hall hrest
      rw [← hsplit] at this
      rw [this, Nat.min_comm]
  have hm : min (s.takeWhile p).length 7 < 8 := by omega
  refine ⟨?_, ?_, ?_, ?_, ?_, ?_⟩
  · rw [key, pack_eq _ _ (by omega)]
  · intro h0
    rw [key, h0, List.length_eq_zero.1 h0]; simp [hexnum]
  · rw [key]; exact pack_width _ _ hm
  · rw [key]; simp only; omega
  · rw [key]; exact pack_value _ _ (by omega)
  · rw [key]; simp only; omega


/-! ## C11: the packed width survives printing -/

theorem hexdigit_hexval_lower (c : Nat) (h : (hexval c).isSome = true) :
    hexdigit ((hexval c).getD 0) = hexlower c := by
  unfold hexval at h ⊢
  unfold hexdigit hexlower
  by_cases h1 : 48 ≤ c ∧ c ≤ 57
  · have h3 : ¬ (65 ≤ c ∧ c ≤ 70) := by omega
    simp only [h1, and_self, if_true, Option.getD_some, h3, if_false]
    have : c - 48 < 10 := by omega
    simp only [this, if_true]; omega
  · by_cases h2 : 97 ≤ c ∧ c ≤ 102
    · have h3 : ¬ (65 ≤ c ∧ c ≤ 70) := by omega
      simp only [h1, h2, and_self, if_true, if_false, Option.getD_some, h3]
      have : ¬ c - 97 + 10 < 10 := by omega
      simp only [this, if_false]; omega
    · by_cases h3 : 65 ≤ c ∧ c ≤ 70
      · simp only [h1, h2, h3, and_self, if_true, if_false, Option.getD_some]
        have : ¬ c - 65 + 10 < 10 := by omega
        simp only [this, if_false]; omega
      · simp [h1, h2, h3] at h

theorem hexfix_hexnum_lower (hs : List Nat) : (∀ c ∈ hs, (hexval c).isSome = true) →
    hexfix hs.length (hexnum hs) = hs.map hexlower := by
  induction hs using List.reverseRecOn with
  | nil => intro _; simp [hexfix]
  | append_singleton l c ih =>
    intro h
    have hc := h c (by simp)
    have hl : (hexval c).getD 0 < 16 := by
      obtain ⟨t, ht⟩ := Option.isSome_iff_exists.1 hc
      rw [ht]; simpa using hexval_lt c t ht
    rw [hexnum_snoc, List.length_append, List.length_singleton, hexfix]
    have e1 : (hexnum l * 16 + (hexval c).getD 0) / 16 = hexnum l := by omega
    have e2 : (hexnum l * 16 + (hexval c).getD 0) % 16 = (hexval c).getD 0 := by omega
    rw [e1, e2, ih (fun x hx => h x (by simp [hx])), hexdigit_hexval_lower c hc]
    simp

/-- C11: for every string `h` of `w` hexadecimal digits, `1 <= w <= 7`, in
either case and with any number of leading zeros, printing `hextou(h)` the way
`wr_version` does (the value `rvsn >> 4` zero-padded to the width `rvsn & 7`)
gives exactly `w` characters, namely `h` in lower case. -/
theorem packed_width_fidelity (h : List Nat) (h1 : 1 ≤ h.length) (h7 : h.length ≤ 7)
    (hh : ∀ c ∈ h, (hexval c).isSome = true) :
    fmt_0x ((hextou h).1 &&& 7) ((hextou h).1 >>> 4) = h.map hexlower ∧
    (fmt_0x ((hextou h).1 &&& 7) ((hextou h).1 >>> 4)).length = h.length := by
  have hne : h ≠ [] := by intro e; simp [e] at h1
  have hr := hextou_run h [] hne hh (by simp [peek, hexval])
  rw [List.append_nil, List.take_of_length_le h7, Nat.min_eq_right h7] at hr
  have hp : fmt_0x ((hextou h).1 &&& 7) ((hextou h).1 >>> 4) = h.map hexlower := by
    rw [hr]
    simp only
    rw [pack_width _ _ (by omega), pack_value _ _ (by omega),
      fmt_0x_eq_hexfix _ _ h1 (by omega) (hexnum_lt h), hexfix_hexnum_lower h hh]
  exact ⟨hp, by rw [hp, List.length_map]⟩

theorem packed_width_fidelity_witness :
    fmt_0x ((hextou (bytes "00AbC1f")).1 &&& 7) ((hextou (bytes "00AbC1f")).1 >>> 4) =
      (bytes "00AbC1f").map hexlower ∧
    (fmt_0x ((hextou (bytes "00AbC1f")).1 &&& 7) ((hextou (bytes "00AbC1f")).1 >>> 4)).length =
      (bytes "00AbC1f").length :=
  packed_width_fidelity (bytes "00AbC1f") (by decide) (by decide) (by decide)

/-! ## C17 and C13: the bounded copies -/

/-- C17: a source of exactly `dsz` bytes is copied whole by `xstrlcpy` and the
terminating NUL is stored at `dst[dsz]`: for `dsz = 4` and the source `abcd`
the function stores five bytes and returns 4, where `min(strlen(src), dsz - 1)`
is 3; a longer source is cut to `dsz - 1` bytes. -/
theorem xstrlcpy_full_source_overruns :
    xstrlcpy (bytes "abcd") 4 = (bytes "abcd" ++ [0], 4) ∧
    (xstrlcpy (bytes "abcd") 4).1.length = 5 ∧
    (xstrlcpy (bytes "abcd") 4).2 ≠ min (strlen (bytes "abcd")) (4 - 1) ∧
    xstrlcpy (bytes "abcde") 4 = (bytes "abc" ++ [0], 3) := by
  decide

/-- C13: a tag of exactly 16 bytes is copied whole by `xstrlncpy` and the
terminating NUL is stored at `vtag[16]`, the first byte of `dist`: for the
accepted input `v1234567890123456` the copy stores 17 bytes and `vtag` holds
the 16 tag bytes without any NUL; a tag of 17 bytes is cut to 15. -/
theorem rd_version_tag16_unterminated :
    (xstrlncpy 16 (bytes "1234567890123456") 16).1.length = 17 ∧
    (rd_version yuck_version_zero (bytes "v1234567890123456")).1 = 0 ∧
    (rd_version yuck_version_zero (bytes "v1234567890123456")).2.vtag =
      bytes "1234567890123456" ∧
    0 ∉ (rd_version yuck_version_zero (bytes "v1234567890123456")).2.vtag ∧
    (rd_version yuck_version_zero (bytes "v12345678901234567")).2.vtag =
      bytes "123456789012345" ++ [0] := by
  decide


/-! ## C19: the dirty flag in the parser -/

theorem dirty_ahead_iff (bp : List Nat) :
    dirty_ahead bp = true ↔
      ∃ sep more, (sep = 45 ∨ sep = 46) ∧ bp = sep :: 100 :: 105 :: 114 :: 116 :: 121 :: more := by
  unfold dirty_ahead
  constructor
  · intro h
    simp only [Bool.and_eq_true, Bool.or_eq_true, beq_iff_eq] at h
    obtain ⟨h1, h2⟩ := h
    match bp, h1, h2 with
    | sep :: a :: b :: c :: d :: e :: more, h1, h2 =>
      simp only [List.drop_succ_cons, List.drop_zero, List.take_succ_cons, List.take_zero,
        List.cons.injEq, and_true] at h2
      obtain ⟨rfl, rfl, rfl, rfl, rfl⟩ := h2
      exact ⟨sep, more, by simpa [peek] using h1, rfl⟩
    | [], _, h2 => simp at h2
    | [_], _, h2 => simp at h2
    | [_, _], _, h2 => simp at h2
    | [_, _, _], _, h2 => simp at h2
    | [_, _, _, _], _, h2 => simp at h2
    | [_, _, _, _, _], _, h2 => simp at h2
  · rintro ⟨sep, more, hs, rfl⟩
    rcases hs with rfl | rfl <;> simp [peek]

/-- The dirty test at the end of `rd_version`, for any text at the cursor. -/
theorem dirty_test (tail : List Nat) (a b : Int × yuck_version_s) :
    (if tail = [] then a
      else if peek tail ≠ 45 ∧ peek tail ≠ 46 then a
      else if tail.length < 6 then a
      else if memcmp (tail.drop 1) [100, 105, 114, 116, 121] 5 = 0 then b
      else a) = if dirty_ahead tail then b else a := by
  by_cases h0 : tail = []
  · subst h0; simp [dirty_ahead]
  rw [if_neg h0]
  by_cases h1 : peek tail ≠ 45 ∧ peek tail ≠ 46
  · rw [if_pos h1]
    have : dirty_ahead tail = false := by
      unfold dirty_ahead
      simp [h1.1, h1.2]
    rw [this]; rfl
  rw [if_neg h1]
  have hp : (peek tail == 45 || peek tail == 46) = true := by
    simp only [Bool.or_eq_true, beq_iff_eq]
    by_contra hc
    exact h1 ⟨fun e => hc (Or.inl e), fun e => hc (Or.inr e)⟩
  by_cases h6 : tail.length < 6
  · rw [if_pos h6]
    have : dirty_ahead tail = false := by
      unfold dirty_ahead
      have hl : ((tail.drop 1).take 5).length < 5 := by
        simp only [List.length_take, List.length_drop]; omega
      have : ¬ (tail.drop 1).take 5 = [100, 105, 114, 116, 121] := by
        intro e; rw [e] at hl; simp at hl
      rw [hp, Bool.true_and]
      exact beq_eq_false_iff_ne.2 this
    rw [this]; rfl
  rw [if_neg h6]
  have hm := memcmp_eq_zero_iff (tail.drop 1) [100, 105, 114, 116, 121] 5
    (by simp only [List.length_drop]; omega) (by simp)
  by_cases hc : memcmp (tail.drop 1) [100, 105, 114, 116, 121] 5 = 0
  · rw [if_pos hc]
    have e := hm.1 hc
    have : dirty_ahead tail = true := by
      unfold dirty_ahead
      rw [hp, e]; rfl
    rw [this]; rfl
  · rw [if_neg hc]
    have e : ¬ (tail.drop 1).take 5 = [100, 105, 114, 116, 121] := fun e => hc (hm.2 (by rw [e]; rfl))
    have : dirty_ahead tail = false := by
      unfold dirty_ahead
      rw [hp, Bool.true_and]
      exact beq_eq_false_iff_ne.2 e
    rw [this]; rfl

/-- The tail of the parser on `<DIST>-<letter><hex>` followed by any text that
does not start with a hexadecimal digit. -/
theorem rd_version_dist_primary_any (v1 : yuck_version_s) (ds hs tail : List Nat) (l : Nat)
    (s : yuck_scm_t) (hne : ds ≠ []) (hd : ∀ c ∈ ds, isdigit c = true) (hv : decnum ds < 2 ^ 32)
    (hl : (l = 103 ∧ s = YUCK_SCM_GIT) ∨ (l = 104 ∧ s = YUCK_SCM_HG) ∨
      (l = 98 ∧ s = YUCK_SCM_BZR ∧ v1.scm.toInt ≤ 0))
    (hhne : hs ≠ []) (hh : ∀ c ∈ hs, (hexval c).isSome = true)
    (hht : hexval (peek tail) = none) :
    rd_version_dist v1 (ds ++ 45 :: l :: (hs ++ tail)) =
      (0, { v1 with dist := decnum ds, scm := s, rvsn := hexnum (hs.take 7) * 16 + min 7 hs.length,
                    dirty := if dirty_ahead tail then 1 else v1.dirty }) := by
  have hst := strtoul_small ds (45 :: l :: (hs ++ tail)) hne hd rfl hv
  have hx := hextou_run hs tail hhne hh hht
  have hmod : decnum ds % 2 ^ 32 = decnum ds := Nat.mod_eq_of_lt hv
  have hdt := dirty_test tail
  simp only [peek] at hdt
  unfold rd_version_dist
  simp only [hst, List.drop_left, peek, List.headD_cons, List.drop_succ_cons, List.drop_zero, hmod]
  rw [if_neg (by simp), if_neg (by simp)]
  rcases hl with ⟨rfl, rfl⟩ | ⟨rfl, rfl⟩ | ⟨rfl, rfl, hs0⟩
  · simp only [if_true, hx, List.drop_left]
    rw [hdt _ _]
    split <;> rfl
  · rw [if_neg (by decide : ¬ (104 : Nat) = 103)]
    simp only [if_true, hx, List.drop_left]
    rw [hdt _ _]
    split <;> rfl
  · rw [if_neg (by decide : ¬ (98 : Nat) = 103), if_neg (by decide : ¬ (98 : Nat) = 104),
      if_pos ⟨rfl, hs0⟩]
    simp only [hx, List.drop_left]
    rw [hdt _ _]
    split <;> rfl

/-- The tail of the parser on `<DIST>.<hex>` behind a marker, followed by any
text that does not start with a hexadecimal digit. -/
theorem rd_version_dist_alt_any (v1 : yuck_version_s) (ds hs tail : List Nat)
    (hne : ds ≠ []) (hd : ∀ c ∈ ds, isdigit c = true) (hv : decnum ds < 2 ^ 32)
    (hs0 : 0 < v1.scm.toInt)
    (hhne : hs ≠ []) (hh : ∀ c ∈ hs, (hexval c).isSome = true)
    (hht : hexval (peek tail) = none) :
    rd_version_dist v1 (ds ++ 46 :: (hs ++ tail)) =
      (0, { v1 with dist := decnum ds, rvsn := hexnum (hs.take 7) * 16 + min 7 hs.length,
                    dirty := if dirty_ahead tail then 1 else v1.dirty }) := by
  have hst := strtoul_small ds (46 :: (hs ++ tail)) hne hd rfl hv
  have hx := hextou_run hs tail hhne hh hht
  have hmod : decnum ds % 2 ^ 32 = decnum ds := Nat.mod_eq_of_lt hv
  obtain ⟨c, hs1, rfl⟩ := List.exists_cons_of_ne_nil hhne
  have hc := hh c (by simp)
  have hc103 : ¬ c = 103 := by intro e; subst e; simp [hexval] at hc
  have hc104 : ¬ c = 104 := by intro e; subst e; simp [hexval] at hc
  have hns : ¬ v1.scm.toInt ≤ 0 := by omega
  have hdt := dirty_test tail
  simp only [peek] at hdt
  have e : (c :: hs1 ++ tail).drop (c :: hs1).length = tail := List.drop_left _ _
  unfold rd_version_dist
  simp only [hst, List.drop_left, hmod]
  simp only [peek, List.headD_cons, List.drop_succ_cons, List.drop_zero, List.cons_append, hns,
    and_false, if_false, hc103, hc104, hs0, if_true]
  rw [if_neg (by simp)]
  rw [← List.cons_append]
  simp only [hx, e]
  rw [hdt _ _]
  split <;> rfl

/-- C19, as stated, fails for a continuation that goes on after `dirty`:
`v1.0.0-3-g1a2b3c4-dirtyfoo` sets the dirty flag although the text after the
revision is not the trailing literal `-dirty`; the too-short `-dirt` leaves it
unset. -/
theorem dirty_set_before_more_text :
    (rd_version yuck_version_zero (bytes "v1.0.0-3-g1a2b3c4-dirtyfoo")).2.dirty = 1 ∧
    bytes "-dirtyfoo" ≠ bytes "-dirty" ∧ bytes "-dirtyfoo" ≠ bytes ".dirty" ∧
    (rd_version yuck_version_zero (bytes "v1.0.0-3-g1a2b3c4-dirt")).2.dirty = 0 := by
  decide

/-- C19, amended: on a text of the primary form `v<TAG>-<DIST>-<letter><HEX>`
or of the alternate form `v<TAG><marker><DIST>.<HEX>`, followed by any text
`rest` that does not start with a hexadecimal digit, `rd_version` sets dirty
exactly when `rest` starts with `-` or `.` followed by `dirty`; what comes
after `dirty` is not looked at. -/
theorem dirty_recognition (tag ds hs rest : List Nat) (htl : tag.length ≤ 15)
    (hds : ds ≠ []) (hdd : ∀ c ∈ ds, isdigit c = true) (hval : decnum ds < 2 ^ 32)
    (hhs : hs ≠ []) (hhx : ∀ c ∈ hs, (hexval c).isSome = true)
    (hrest : hexval (peek rest) = none) :
    (∀ l, (l = 103 ∨ l = 98 ∨ l = 104) → 45 ∉ tag →
      ¬ [46, 103, 105, 116] <:+: tag ++ 45 :: (ds ++ 45 :: l :: (hs ++ rest)) →
      ¬ [46, 98, 122, 114] <:+: tag ++ 45 :: (ds ++ 45 :: l :: (hs ++ rest)) →
      ¬ [46, 104, 103] <:+: tag ++ 45 :: (ds ++ 45 :: l :: (hs ++ rest)) →
      (rd_version yuck_version_zero
        (118 :: (tag ++ 45 :: (ds ++ 45 :: l :: (hs ++ rest))))).2.dirty =
          if dirty_ahead rest then 1 else 0) ∧
    (∀ s, (s = YUCK_SCM_GIT ∨ s = YUCK_SCM_BZR ∨ s = YUCK_SCM_HG) →
      ¬ scm_marker s <:+: tag →
      (s ≠ YUCK_SCM_GIT →
        ¬ [46, 103, 105, 116] <:+: tag ++ scm_marker s ++ (ds ++ 46 :: (hs ++ rest))) →
      (s = YUCK_SCM_HG →
        ¬ [46, 98, 122, 114] <:+: tag ++ scm_marker s ++ (ds ++ 46 :: (hs ++ rest))) →
      (rd_version yuck_version_zero
        (118 :: (tag ++ scm_marker s ++ (ds ++ 46 :: (hs ++ rest))))).2.dirty =
          if dirty_ahead rest then 1 else 0) ∧
    (dirty_ahead rest = true ↔
      ∃ sep more, (sep = 45 ∨ sep = 46) ∧
        rest = sep :: 100 :: 105 :: 114 :: 116 :: 121 :: more) := by
  refine ⟨?_, ?_, dirty_ahead_iff rest⟩
  · intro l hl h45 hg hb hh
    rw [rd_version_dash _ tag _ h45 (by omega) (no_marker_plain _ _ hg) (no_marker_plain _ _ hb)
      (no_marker_plain _ _ hh), bang_vtag_zero _ tag rfl htl]
    rw [rd_version_dist_primary_any _ ds hs rest l (scm_of_letter l) hds hdd hval ?_ hhs hhx hrest]
    · rfl
    · rcases hl with h | h | h <;> subst h
      · exact Or.inl ⟨rfl, rfl⟩
      · exact Or.inr (Or.inr ⟨rfl, rfl, by simp [yuck_version_zero, yuck_scm_t.toInt]⟩)
      · exact Or.inr (Or.inl ⟨rfl, rfl⟩)
  · intro s hs3 hm hg hb
    have hrec : rd_version yuck_version_zero
        (118 :: (tag ++ scm_marker s ++ (ds ++ 46 :: (hs ++ rest)))) =
        rd_version_dist (bang_vtag { yuck_version_zero with scm := s } (tag ++ [0]))
          (ds ++ 46 :: (hs ++ rest)) := by
      apply rd_version_marker _ tag _ (scm_marker s) s (by omega)
      rcases hs3 with h | h | h <;> subst h
      · exact Or.inl ⟨rfl, rfl, marker_found tag _ _ (Or.inl rfl) hm⟩
      · exact Or.inr (Or.inl ⟨rfl, rfl, no_marker_plain _ _ (hg (by decide)),
          marker_found tag _ _ (Or.inr (Or.inl rfl)) hm⟩)
      · exact Or.inr (Or.inr ⟨rfl, rfl, no_marker_plain _ _ (hg (by decide)),
          no_marker_plain _ _ (hb rfl), marker_found tag _ _ (Or.inr (Or.inr rfl)) hm⟩)
    rw [hrec, bang_vtag_zero _ tag rfl htl]
    rw [rd_version_dist_alt_any _ ds hs rest hds hdd hval ?_ hhs hhx hrest]
    · rfl
    · rcases hs3 with h | h | h <;> subst h <;> simp [yuck_scm_t.toInt]

theorem dirty_recognition_witness :
    (rd_version yuck_version_zero (118 :: (bytes "1.0.0" ++ 45 :: (bytes "3" ++ 45 :: 103 ::
        (bytes "1a2b3c4" ++ bytes "-dirtyfoo"))))).2.dirty =
      (if dirty_ahead (bytes "-dirtyfoo") then 1 else 0) ∧
    (rd_version yuck_version_zero (118 :: (bytes "1.0.0" ++ scm_marker YUCK_SCM_BZR ++
        (bytes "3" ++ 46 :: (bytes "1a2b3c4" ++ bytes "-dirtyfoo"))))).2.dirty =
      (if dirty_ahead (bytes "-dirtyfoo") then 1 else 0) :=
  ⟨(dirty_recognition (bytes "1.0.0") (bytes "3") (bytes "1a2b3c4") (bytes "-dirtyfoo")
      (by decide) (by decide) (by decide) (by decide) (by decide) (by decide) (by decide)).1
      103 (by decide) (by decide) (by decide) (by decide) (by decide),
   (dirty_recognition (bytes "1.0.0") (bytes "3") (bytes "1a2b3c4") (bytes "-dirtyfoo")
      (by decide) (by decide) (by decide) (by decide) (by decide) (by decide) (by decide)).2.1
      YUCK_SCM_BZR (by decide) (by decide) (by decide) (by decide)⟩


/-! ## C12: records without a distance -/

set_option maxRecDepth 100000 in
/-- C12, as stated, fails for a tag that holds a dash before digits: the record
with tag `2024-05-01` and distance 0 is written as `v2024-05-01`, which parses
to the tag `2024` with distance 5. -/
theorem zero_dist_reparse_gains_dist :
    (⟨YUCK_SCM_HG, tag_field (bytes "2024-05-01"), 0, 0, 0⟩ : yuck_version_s).wf ∧
    tag_of ⟨YUCK_SCM_HG, tag_field (bytes "2024-05-01"), 0, 0, 0⟩ = bytes "2024-05-01" ∧
    wr_text ⟨YUCK_SCM_HG, tag_field (bytes "2024-05-01"), 0, 0, 0⟩ = some (bytes "v2024-05-01") ∧
    (rd_version yuck_version_zero (bytes "v2024-05-01")).1 = 0 ∧
    (rd_version yuck_version_zero (bytes "v2024-05-01")).2.dist = 5 ∧
    (rd_version yuck_version_zero (bytes "v2024-05-01")).2.vtag = tag_field (bytes "2024") := by
  decide

/-- C12, amended: for every record with distance 0 whose tag ends inside `vtag`
and holds neither a dash nor one of the markers `.git`, `.bzr`, `.hg`,
`wr_version` produces a text and `rd_version` of that text into a
zero-initialised record succeeds with distance 0, revision 0 and the same
tag. -/
theorem zero_dist_reparse (v : yuck_version_s) (hwf : v.wf) (h0 : 0 ∈ v.vtag)
    (hd : v.dist = 0) (h45 : 45 ∉ tag_of v)
    (hg : ¬ [46, 103, 105, 116] <:+: tag_of v) (hb : ¬ [46, 98, 122, 114] <:+: tag_of v)
    (hh : ¬ [46, 104, 103] <:+: tag_of v) :
    ∃ text, wr_text v = some text ∧
      (rd_version yuck_version_zero text).1 = 0 ∧
      (rd_version yuck_version_zero text).2.dist = 0 ∧
      (rd_version yuck_version_zero text).2.rvsn = 0 ∧
      tag_of (rd_version yuck_version_zero text).2 = tag_of v := by
  obtain ⟨hl, _, hdist, hrvsn, _⟩ := hwf
  have htl := tag_of_length v hl h0
  have h0t : 0 ∉ tag_of v := by
    unfold tag_of
    intro hm
    have := List.mem_takeWhile_imp hm
    simp at this
  refine ⟨wire_text v, wr_text_eq v hl hdist hrvsn h0, ?_⟩
  have hw : wire_text v = 118 :: tag_of v := by simp [wire_text, hd]
  rw [hw, rd_version_plain _ (tag_of v) h45 (by omega) (no_marker_plain _ _ hg)
    (no_marker_plain _ _ hb) (no_marker_plain _ _ hh), bang_vtag_zero _ _ rfl htl]
  refine ⟨rfl, rfl, rfl, ?_⟩
  exact takeWhile_tag_field (tag_of v) h0t htl

theorem zero_dist_reparse_witness :
    ∃ text, wr_text ⟨YUCK_SCM_GIT, tag_field (bytes "1.2.3"), 0, 0x1a2b3c47, 0⟩ = some text ∧
      (rd_version yuck_version_zero text).1 = 0 ∧
      (rd_version yuck_version_zero text).2.dist = 0 ∧
      (rd_version yuck_version_zero text).2.rvsn = 0 ∧
      tag_of (rd_version yuck_version_zero text).2 =
        tag_of ⟨YUCK_SCM_GIT, tag_field (bytes "1.2.3"), 0, 0x1a2b3c47, 0⟩ :=
  zero_dist_reparse ⟨YUCK_SCM_GIT, tag_field (bytes "1.2.3"), 0, 0x1a2b3c47, 0⟩
    (by decide) (by decide) (by decide) (by decide) (by decide) (by decide) (by decide)

/-! ## C20: markers in the parser -/

/-- C20: with `X` the text after the leading `v` or `V` (the whole text when it
starts with a digit), `rd_version` ends the tag at the first occurrence of
`.git` when `.git` occurs in `X`, else at the first occurrence of `.bzr`, else
at the first occurrence of `.hg`; it sets scm to the kind of that marker and
reads the distance from the byte right after the marker, wherever a dash may
stand.  Only when no marker occurs does the first dash end the tag, and the
distance is read right after it; without marker and dash the whole of `X` is
the tag.  (The tag goes through `xstrlncpy` into `vtag`; the letter of a later
`-g`, `-h` or `-b` group can still replace the scm in `rd_version_dist`.) -/
theorem marker_disambiguation (v : yuck_version_s) (buf X : List Nat)
    (hX : (peek buf = 118 ∨ peek buf = 86) ∧ X = buf.drop 1 ∨
      isdigit (peek buf) = true ∧ X = buf) :
    (∀ k, first_occ X [46, 103, 105, 116] = some k →
      rd_version v buf =
        rd_version_dist (bang_vtag { v with scm := YUCK_SCM_GIT } (xstrlncpy 16 X k).1)
          (X.drop (k + 4))) ∧
    (¬ [46, 103, 105, 116] <:+: X → ∀ k, first_occ X [46, 98, 122, 114] = some k →
      rd_version v buf =
        rd_version_dist (bang_vtag { v with scm := YUCK_SCM_BZR } (xstrlncpy 16 X k).1)
          (X.drop (k + 4))) ∧
    (¬ [46, 103, 105, 116] <:+: X → ¬ [46, 98, 122, 114] <:+: X →
      ∀ k, first_occ X [46, 104, 103] = some k →
      rd_version v buf =
        rd_version_dist (bang_vtag { v with scm := YUCK_SCM_HG } (xstrlncpy 16 X k).1)
          (X.drop (k + 3))) ∧
    (¬ [46, 103, 105, 116] <:+: X → ¬ [46, 98, 122, 114] <:+: X → ¬ [46, 104, 103] <:+: X →
      (∀ t r, 45 ∉ t → X = t ++ 45 :: r →
        rd_version v buf = rd_version_dist (bang_vtag v (xstrlncpy 16 X t.length).1) r) ∧
      (45 ∉ X → rd_version v buf = (0, bang_vtag v (xstrlncpy 16 X X.length).1))) := by
  have hvt : (if peek buf = 118 ∨ peek buf = 86 then buf.drop 1 else buf) = X := by
    rcases hX with ⟨h, e⟩ | ⟨h, e⟩
    · rw [if_pos h, e]
    · have : ¬ (peek buf = 118 ∨ peek buf = 86) := by
        intro h2
        rcases h2 with h2 | h2 <;> rw [h2] at h <;> simp [isdigit] at h
      rw [if_neg this, e]
  have hc : ¬ ¬ (peek buf = 118 ∨ peek buf = 86 ∨ isdigit (peek buf) = true) := by
    rw [not_not]
    rcases hX with ⟨h | h, _⟩ | ⟨h, _⟩
    · exact Or.inl h
    · exact Or.inr (Or.inl h)
    · exact Or.inr (Or.inr h)
  have hv : { v with scm := v.scm } = v := rfl
  refine ⟨?_, ?_, ?_, ?_⟩
  · intro k hk
    rw [← xmemmem_eq_first_occ] at hk
    unfold rd_version
    simp only [hc, if_false, hvt, hk]
  · intro hg k hk
    rw [← xmemmem_eq_first_occ] at hk
    have hg1 := no_marker_plain _ _ hg
    unfold rd_version
    simp only [hc, if_false, hvt, hk, hg1]
  · intro hg hb k hk
    rw [← xmemmem_eq_first_occ] at hk
    have hg1 := no_marker_plain _ _ hg
    have hb1 := no_marker_plain _ _ hb
    unfold rd_version
    simp only [hc, if_false, hvt, hk, hg1, hb1]
  · intro hg hb hh
    have hg1 := no_marker_plain _ _ hg
    have hb1 := no_marker_plain _ _ hb
    have hh1 := no_marker_plain _ _ hh
    constructor
    · intro t r h45 hx
      have hmc : memchr X 45 = some t.length := by rw [hx]; exact memchr_append t r 45 h45
      have hdr : X.drop (t.length + 1) = r := by
        rw [hx, ← List.length_singleton 45, ← List.length_append]
        have : t ++ 45 :: r = (t ++ [45]) ++ r := by simp
        rw [this, List.drop_left]
      unfold rd_version
      simp only [hc, if_false, hvt, hg1, hb1, hh1, hmc, Option.getD_some, Option.map_some', hdr, hv]
    · intro h45
      have hmc := memchr_none X 45 h45
      unfold rd_version
      simp only [hc, if_false, hvt, hg1, hb1, hh1, hmc, Option.getD_none, Option.map_none', hv]

theorem marker_disambiguation_witness :
    rd_version yuck_version_zero (bytes "v1-2.hg3.git4.abc") =
      rd_version_dist
        (bang_vtag { yuck_version_zero with scm := YUCK_SCM_GIT }
          (xstrlncpy 16 (bytes "1-2.hg3.git4.abc") 7).1)
        ((bytes "1-2.hg3.git4.abc").drop (7 + 4)) ∧
    rd_version yuck_version_zero (bytes "v1-2.hg3.git4.abc") =
      (0, ⟨YUCK_SCM_GIT, tag_field (bytes "1-2.hg3"), 4, 0xabc3, 0⟩) :=
  ⟨(marker_disambiguation yuck_version_zero (bytes "v1-2.hg3.git4.abc")
      (bytes "1-2.hg3.git4.abc") (Or.inl ⟨by decide, by decide⟩)).1 7 (by decide),
   by decide⟩


/-! ## C14 and C15: the walk of `find_scm` -/

theorem xdirname_back_lt (fn : List Nat) : ∀ fp j, xdirname_back fn fp = some j → j < fp := by
  intro fp
  induction fp with
  | zero => intro j h; simp [xdirname_back] at h
  | succ fp ih =>
    intro j h
    unfold xdirname_back at h
    split_ifs at h with h47
    · simp only [Option.some.injEq] at h; omega
    · have := ih j h; omega

theorem xdirname_skip_le (fn : List Nat) :
    ∀ fp dp, xdirname_skip fn fp = some dp → 0 < dp ∧ dp ≤ fp := by
  intro fp
  induction fp with
  | zero => intro dp h; simp [xdirname_skip] at h
  | succ fp ih =>
    intro dp h
    unfold xdirname_skip at h
    split_ifs at h with h47
    · have := ih dp h; omega
    · simp only [Option.some.injEq] at h; omega

/-- What `xdirname` returns lies strictly inside the path: the path gets
shorter and does not get empty. -/
theorem xdirname_some (fn : List Nat) (fp dp : Nat) (h : xdirname fn fp = some dp) :
    0 < dp ∧ dp < fp := by
  unfold xdirname at h
  split_ifs at h with h0
  rcases hb : xdirname_back fn fp with _ | j
  · rw [hb] at h; simp at h
  · rw [hb] at h
    simp only [Option.some_bind] at h
    have h1 := xdirname_back_lt fn fp j hb
    have h2 := xdirname_skip_le fn j dp h
    omega

theorem strlen_of_not_mem (l : List Nat) (h : 0 ∉ l) : strlen l = l.length := by
  induction l with
  | nil => rfl
  | cons c l ih =>
    simp only [List.mem_cons, not_or] at h
    simp [strlen, Ne.symm h.1, ih h.2]

theorem xstrlcpy_room (src : List Nat) (dsz : Nat) (h0 : 0 ∉ src) (h : src.length + 1 ≤ dsz) :
    src.take (xstrlcpy src dsz).2 = src := by
  unfold xstrlcpy
  rw [if_neg (by omega), strlen_of_not_mem src h0]
  simp only []
  rw [if_neg (by omega), List.take_length]

theorem scm_chk_room (stat : List Nat → Option (Bool × Nat)) (fz : Nat) (fn name : List Nat)
    (hn : name ∈ scm_dirs) (h : fn.length + 6 ≤ fz) :
    scm_chk stat fz fn name = is_dir stat (fn ++ name) := by
  have h0 : 0 ∉ name ∧ name.length ≤ 5 := by
    simp only [scm_dirs, List.mem_cons, List.mem_singleton, List.not_mem_nil, or_false] at hn
    rcases hn with e | e | e <;> subst e <;> decide
  unfold scm_chk
  rw [xstrlcpy_room name _ h0.1 (by omega)]

theorem up_path_length (k : Nat) : (up_path k).length = 3 * k := by
  induction k with
  | zero => rfl
  | succ k ih => simp [up_path, ih]; omega

theorem peek_append (a b : List Nat) (h : a ≠ []) : peek (a ++ b) = peek a := by
  cases a with
  | nil => exact absurd rfl h
  | cons x a => rfl

theorem peek_take (a : List Nat) (n : Nat) (h : 0 < n) : peek (a.take n) = peek a := by
  cases a with
  | nil => simp
  | cons x a =>
    cases n with
    | zero => omega
    | succ n => rfl

/-- The walk of `find_scm` along an absolute path without markers. -/
theorem find_scm_up_abs (stat : List Nat → Option (Bool × Nat)) (fz : Nat) :
    ∀ n fn, fn.length ≤ n → peek fn = 47 → fn.length + 6 ≤ fz →
      (∀ p ∈ abs_chain n fn, ∀ name ∈ scm_dirs, is_dir stat (p ++ name) = false) →
      ∀ fuel, n + 1 ≤ fuel → ∃ r, find_scm_up stat fz fuel fn = some (YUCK_SCM_TARBALL, r) := by
  intro n
  induction n with
  | zero =>
    intro fn hl hp
    have : fn = [] := List.length_eq_zero.1 (by omega)
    subst this
    simp [peek] at hp
  | succ n ih =>
    intro fn hl hp hroom hmk fuel hfuel
    obtain ⟨f, rfl⟩ : ∃ f, fuel = f + 1 := ⟨fuel - 1, by omega⟩
    have hhead : fn ∈ abs_chain (n + 1) fn := by simp [abs_chain]
    have hg := hmk fn hhead [47, 46, 103, 105, 116] (by simp [scm_dirs])
    have hb := hmk fn hhead [47, 46, 98, 122, 114] (by simp [scm_dirs])
    have hh := hmk fn hhead [47, 46, 104, 103] (by simp [scm_dirs])
    rw [← scm_chk_room stat fz fn _ (by simp [scm_dirs]) hroom] at hg hb hh
    unfold find_scm_up
    simp only [hg, hb, hh, Bool.false_eq_true, if_false, hp, ne_eq, not_true_eq_false]
    rcases hx : xdirname fn fn.length with _ | dp
    · exact ⟨_, rfl⟩
    · simp only []
      have hdp := xdirname_some fn fn.length dp hx
      have hlen : (fn.take dp).length = dp := by
        rw [List.length_take]; omega
      apply ih (fn.take dp) (by omega) (by rw [peek_take fn dp hdp.1]; exact hp) (by omega)
      · intro p hpm
        apply hmk p
        simp only [abs_chain, hx, List.mem_cons]
        exact Or.inr hpm
      · omega

/-- The walk of `find_scm` along a relative path without markers, `n` levels
below the directory whose parent has the same inode. -/
theorem find_scm_up_rel (stat : List Nat → Option (Bool × Nat)) (fz : Nat) (start : List Nat)
    (n : Nat) (hne : start ≠ []) (hpk : peek start ≠ 47)
    (hroom : start.length + 3 * n + 6 ≤ fz)
    (hmk : ∀ k, k ≤ n → ∀ name ∈ scm_dirs, is_dir stat (start ++ up_path k ++ name) = false)
    (hst : ∀ k, k ≤ n + 1 → (stat (start ++ up_path k)).isSome = true)
    (hdiff : ∀ k, k < n →
      st_ino stat (start ++ up_path (k + 1)) ≠ st_ino stat (start ++ up_path k))
    (hsame : st_ino stat (start ++ up_path (n + 1)) = st_ino stat (start ++ up_path n)) :
    ∀ m k, k + m = n → ∀ fuel, m + 1 ≤ fuel →
      find_scm_up stat fz fuel (start ++ up_path k) =
        some (YUCK_SCM_TARBALL, start ++ up_path (n + 1)) := by
  intro m
  induction m with
  | zero =>
    intro k hk fuel hfuel
    obtain ⟨f, rfl⟩ : ∃ f, fuel = f + 1 := ⟨fuel - 1, by omega⟩
    have hkn : k = n := by omega
    subst hkn
    have hlen : (start ++ up_path k).length + 6 ≤ fz := by
      rw [List.length_append, up_path_length]; omega
    have hg := hmk k (le_refl _) [47, 46, 103, 105, 116] (by simp [scm_dirs])
    have hb := hmk k (le_refl _) [47, 46, 98, 122, 114] (by simp [scm_dirs])
    have hh := hmk k (le_refl _) [47, 46, 104, 103] (by simp [scm_dirs])
    rw [← scm_chk_room stat fz _ _ (by simp [scm_dirs]) hlen] at hg hb hh
    have hup : [47, 46, 46].take (xstrlcpy [47, 46, 46] (fz - (start ++ up_path k).length)).2 =
        [47, 46, 46] := by
      apply xstrlcpy_room _ _ (by decide)
      simp only [List.length_cons, List.length_nil]
      omega
    obtain ⟨⟨d0, i0⟩, e0⟩ := Option.isSome_iff_exists.1 (hst k (by omega))
    obtain ⟨⟨d1, i1⟩, e1⟩ := Option.isSome_iff_exists.1 (hst (k + 1) (by omega))
    have e1' : stat (start ++ up_path k ++ [47, 46, 46]) = some (d1, i1) := by
      rw [List.append_assoc]; exact e1
    have hi : i1 = i0 := by
      have := hsame
      simp only [st_ino, e0, e1, Option.map_some', Option.some.injEq] at this
      exact this
    unfold find_scm_up
    simp only [hg, hb, hh, Bool.false_eq_true, if_false, peek_append start _ hne, hpk, ne_eq,
      not_false_eq_true, if_true, hup, e0, e1', hi]
    simp [up_path]
  | succ m ih =>
    intro k hk fuel hfuel
    obtain ⟨f, rfl⟩ : ∃ f, fuel = f + 1 := ⟨fuel - 1, by omega⟩
    have hlen : (start ++ up_path k).length + 6 ≤ fz := by
      rw [List.length_append, up_path_length]; omega
    have hg := hmk k (by omega) [47, 46, 103, 105, 116] (by simp [scm_dirs])
    have hb := hmk k (by omega) [47, 46, 98, 122, 114] (by simp [scm_dirs])
    have hh := hmk k (by omega) [47, 46, 104, 103] (by simp [scm_dirs])
    rw [← scm_chk_room stat fz _ _ (by simp [scm_dirs]) hlen] at hg hb hh
    have hup : [47, 46, 46].take (xstrlcpy [47, 46, 46] (fz - (start ++ up_path k).length)).2 =
        [47, 46, 46] := by
      apply xstrlcpy_room _ _ (by decide)
      simp only [List.length_cons, List.length_nil]
      omega
    obtain ⟨⟨d0, i0⟩, e0⟩ := Option.isSome_iff_exists.1 (hst k (by omega))
    obtain ⟨⟨d1, i1⟩, e1⟩ := Option.isSome_iff_exists.1 (hst (k + 1) (by omega))
    have e1' : stat (start ++ up_path k ++ [47, 46, 46]) = some (d1, i1) := by
      rw [List.append_assoc]; exact e1
    have hi : ¬ i1 = i0 := by
      have := hdiff k (by omega)
      simp only [st_ino, e0, e1, Option.map_some', ne_eq, Option.some.injEq] at this
      exact this
    have hrec := ih (k + 1) (by omega) f (by omega)
    have hnext : start ++ up_path k ++ [47, 46, 46] = start ++ up_path (k + 1) := by
      rw [List.append_assoc]; rfl
    unfold find_scm_up
    simp only [hg, hb, hh, Bool.false_eq_true, if_false, peek_append start _ hne, hpk, ne_eq,
      not_false_eq_true, if_true, hup, e0, e1', hi]
    rw [hnext]; exact hrec

/-- The entry of `find_scm` for a start path that names a directory and leaves
room in the buffer. -/
theorem find_scm_start (stat : List Nat → Option (Bool × Nat)) (fz : Nat) (start : List Nat)
    (fuel : Nat) (hne : start ≠ []) (h0 : 0 ∉ start) (hroom : start.length + 6 ≤ fz)
    (hdir : is_dir stat start = true) :
    find_scm stat fz (some start) (fuel + 1) = find_scm_up stat fz (fuel + 1) start := by
  have hlen : 0 < start.length := List.length_pos.2 hne
  have hx : (xstrlcpy start fz).2 = start.length := by
    unfold xstrlcpy
    rw [if_neg (by omega), strlen_of_not_mem start h0]
    simp only []
    rw [if_neg (by omega)]
  obtain ⟨i, hs⟩ : ∃ i, stat start = some (true, i) := by
    unfold is_dir at hdir
    rcases h : stat start with _ | ⟨d, i⟩
    · rw [h] at hdir; simp at hdir
    · rw [h] at hdir; simp only at hdir; subst hdir; exact ⟨i, rfl⟩
  unfold find_scm
  simp only [hx, List.take_length]
  rw [if_neg (by omega)]
  unfold find_scm_again
  simp only [hs]
  rw [if_neg (by omega)]
  simp

/-- C14: an absolute start path never gets the root directory tested.  In the
file system whose root holds `.git` and the directory `a`, `find_scm` started
at `/a` returns Tarball although `/.git` is a directory; started at the
relative `.` inside `/a` it finds Git with `./..` left in `fn`, and started at
`/` it finds Git. -/
theorem find_scm_skips_root :
    is_dir root_git_fs (bytes "/.git") = true ∧
    find_scm root_git_fs 256 (some (bytes "/a")) 3 = some (YUCK_SCM_TARBALL, bytes "/a/.hg") ∧
    xdirname (bytes "/a") 2 = none ∧
    find_scm root_git_fs 256 (some (bytes ".")) 3 = some (YUCK_SCM_GIT, bytes "./..") ∧
    find_scm root_git_fs 256 (some (bytes "/")) 3 = some (YUCK_SCM_GIT, bytes "/") := by
  decide

set_option maxRecDepth 1000000 in
/-- C15: the walk of a relative start never tests the room left in the buffer.
In a file system without any marker, seen from a working directory 100 levels
deep, every `stat` on the chain succeeds and the inode changes at each of the
100 steps up, yet `find_scm` with a buffer of 256 bytes returns Git after 84
steps, not Tarball: the three bytes left in the buffer turn the name `/.git`
into `/.`, which names the directory itself. -/
theorem find_scm_deep_walk_reports_git :
    (∀ k, k ≤ 100 → ∀ name ∈ scm_dirs,
      is_dir (deep_fs 100) (bytes "." ++ up_path k ++ name) = false) ∧
    (∀ k, k ≤ 101 → (deep_fs 100 (bytes "." ++ up_path k)).isSome = true) ∧
    (∀ k, k < 100 → st_ino (deep_fs 100) (bytes "." ++ up_path (k + 1)) ≠
      st_ino (deep_fs 100) (bytes "." ++ up_path k)) ∧
    st_ino (deep_fs 100) (bytes "." ++ up_path 101) =
      st_ino (deep_fs 100) (bytes "." ++ up_path 100) ∧
    find_scm (deep_fs 100) 256 (some (bytes ".")) 100 =
      some (YUCK_SCM_GIT, bytes "." ++ up_path 84) := by
  decide

/-- Where the walk fits the buffer `find_scm` ends in Tarball.  Let the start
path name a directory and leave six bytes of the buffer free.  For an absolute
start whose directories (the start and what `xdirname` leaves of it, step by
step) hold no `.git`, `.bzr` or `.hg`, `find_scm` returns Tarball once the
fuel exceeds the length of the path; each `xdirname` step makes the path
strictly shorter.  For a relative start `n`
levels below the directory whose `/..` has the same inode, with every `stat`
on the way succeeding, no marker on the way and room in the buffer for the `n`
steps (`strlen(start) + 3 n + 6 <= fz`), `find_scm` returns Tarball after
`n + 1` rounds, at the first `/..` that does not change the inode. -/
theorem find_scm_walk_terminates (stat : List Nat → Option (Bool × Nat)) (fz : Nat)
    (start : List Nat) (hne : start ≠ []) (h0 : 0 ∉ start) (hroom : start.length + 6 ≤ fz)
    (hdir : is_dir stat start = true) :
    (peek start = 47 →
      (∀ p ∈ abs_chain start.length start, ∀ name ∈ scm_dirs, is_dir stat (p ++ name) = false) →
      ∀ fuel, start.length + 1 ≤ fuel →
        ∃ r, find_scm stat fz (some start) fuel = some (YUCK_SCM_TARBALL, r)) ∧
    (∀ fn fp dp, xdirname fn fp = some dp → 0 < dp ∧ dp < fp) ∧
    (peek start ≠ 47 → ∀ n, start.length + 3 * n + 6 ≤ fz →
      (∀ k, k ≤ n → ∀ name ∈ scm_dirs, is_dir stat (start ++ up_path k ++ name) = false) →
      (∀ k, k ≤ n + 1 → (stat (start ++ up_path k)).isSome = true) →
      (∀ k, k < n →
        st_ino stat (start ++ up_path (k + 1)) ≠ st_ino stat (start ++ up_path k)) →
      st_ino stat (start ++ up_path (n + 1)) = st_ino stat (start ++ up_path n) →
      ∀ fuel, n + 1 ≤ fuel →
        find_scm stat fz (some start) fuel =
          some (YUCK_SCM_TARBALL, start ++ up_path (n + 1))) := by
  refine ⟨?_, xdirname_some, ?_⟩
  · intro hp hmk fuel hfuel
    obtain ⟨f, rfl⟩ : ∃ f, fuel = f + 1 := ⟨fuel - 1, by omega⟩
    rw [find_scm_start stat fz start f hne h0 hroom hdir]
    exact find_scm_up_abs stat fz start.length start (le_refl _) hp hroom hmk (f + 1) hfuel
  · intro hp n hr hmk hst hdiff hsame fuel hfuel
    obtain ⟨f, rfl⟩ : ∃ f, fuel = f + 1 := ⟨fuel - 1, by omega⟩
    rw [find_scm_start stat fz start f hne h0 hroom hdir]
    have := find_scm_up_rel stat fz start n hne hp hr hmk hst hdiff hsame n 0 (by omega)
      (f + 1) hfuel
    simpa [up_path] using this

theorem find_scm_walk_terminates_witness :
    find_scm (deep_fs 2) 256 (some (bytes ".")) 3 =
      some (YUCK_SCM_TARBALL, bytes "." ++ up_path 3) ∧
    ∃ r, find_scm root_git_fs 256 (some (bytes "/a")) 3 = some (YUCK_SCM_TARBALL, r) :=
  ⟨(find_scm_walk_terminates (deep_fs 2) 256 (bytes ".") (by decide) (by decide) (by decide)
      (by decide)).2.2 (by decide) 2 (by decide) (by decide) (by decide) (by decide) (by decide)
      3 (by decide),
   (find_scm_walk_terminates root_git_fs 256 (bytes "/a") (by decide) (by decide) (by decide)
      (by decide)).1 (by decide) (by decide) 3 (by decide)⟩


/-! ## C21: when the parser fails -/

theorem strtoul_none (d : List Nat) (h : (strtoul d).2 = 0) : (strtoul d).1 = 0 := by
  unfold strtoul at h ⊢
  simp only [] at h ⊢
  generalize (if peek (List.drop (List.takeWhile isspace d).length d) = 45 ∨
      peek (List.drop (List.takeWhile isspace d).length d) = 43 then 1 else 0 : Nat) = sgn at h ⊢
  by_cases hds : (List.takeWhile isdigit (List.drop sgn
      (List.drop (List.takeWhile isspace d).length d))) = []
  · rw [if_pos hds]
  · rw [if_neg hds] at h
    have hl := List.length_pos.2 hds
    exfalso
    split_ifs at h <;> simp only [] at h <;> omega

/-- The second half of `rd_version` with its dirty test folded. -/
theorem rd_version_dist_eq (v1 : yuck_version_s) (d : List Nat) :
    rd_version_dist v1 d =
      if peek (d.drop (strtoul d).2) = 46 ∧ v1.scm.toInt ≤ 0 then
        (-1, { v1 with dist := (strtoul d).1 % 2 ^ 32 })
      else if peek (d.drop (strtoul d).2) ≠ 46 ∧ peek (d.drop (strtoul d).2) ≠ 45 then
        (0, { v1 with dist := (strtoul d).1 % 2 ^ 32 })
      else
        match (if peek ((d.drop (strtoul d).2).drop 1) = 103 then
            some (YUCK_SCM_GIT, ((d.drop (strtoul d).2).drop 1).drop 1)
          else if peek ((d.drop (strtoul d).2).drop 1) = 104 then
            some (YUCK_SCM_HG, ((d.drop (strtoul d).2).drop 1).drop 1)
          else if peek ((d.drop (strtoul d).2).drop 1) = 98 ∧ v1.scm.toInt ≤ 0 then
            some (YUCK_SCM_BZR, ((d.drop (strtoul d).2).drop 1).drop 1)
          else if 0 < v1.scm.toInt then some (v1.scm, (d.drop (strtoul d).2).drop 1)
          else none : Option (yuck_scm_t × List Nat)) with
        | none => (0, { v1 with dist := (strtoul d).1 % 2 ^ 32 })
        | some (scm, bp1) =>
          (0, { v1 with dist := (strtoul d).1 % 2 ^ 32, scm := scm, rvsn := (hextou bp1).1,
                        dirty := if dirty_ahead (bp1.drop (hextou bp1).2) then 1 else v1.dirty })
    := by
  unfold rd_version_dist
  simp only []
  by_cases h1 : peek (d.drop (strtoul d).2) = 46 ∧ v1.scm.toInt ≤ 0
  · rw [if_pos h1, if_pos h1]
  rw [if_neg h1, if_neg h1]
  by_cases h2 : peek (d.drop (strtoul d).2) ≠ 46 ∧ peek (d.drop (strtoul d).2) ≠ 45
  · rw [if_pos h2, if_pos h2]
  rw [if_neg h2, if_neg h2]
  rcases hsw : (if peek ((d.drop (strtoul d).2).drop 1) = 103 then
            some (YUCK_SCM_GIT, ((d.drop (strtoul d).2).drop 1).drop 1)
          else if peek ((d.drop (strtoul d).2).drop 1) = 104 then
            some (YUCK_SCM_HG, ((d.drop (strtoul d).2).drop 1).drop 1)
          else if peek ((d.drop (strtoul d).2).drop 1) = 98 ∧ v1.scm.toInt ≤ 0 then
            some (YUCK_SCM_BZR, ((d.drop (strtoul d).2).drop 1).drop 1)
          else if 0 < v1.scm.toInt then some (v1.scm, (d.drop (strtoul d).2).drop 1)
          else none : Option (yuck_scm_t × List Nat)) with _ | ⟨scm, bp1⟩
  · rfl
  · simp only []
    have := dirty_test (bp1.drop (hextou bp1).2)
      (0, { v1 with dist := (strtoul d).1 % 2 ^ 32, scm := scm, rvsn := (hextou bp1).1 })
      (0, { v1 with dist := (strtoul d).1 % 2 ^ 32, scm := scm, rvsn := (hextou bp1).1,
                    dirty := 1 })
    rw [this]
    split_ifs <;> rfl

/-- The return code of the second half of `rd_version`. -/
theorem rd_version_dist_code (v1 : yuck_version_s) (d : List Nat) :
    ((rd_version_dist v1 d).1 = -1 ↔
      peek (d.drop (strtoul d).2) = 46 ∧ v1.scm.toInt ≤ 0) ∧
    ((rd_version_dist v1 d).1 = -1 ∨ (rd_version_dist v1 d).1 = 0) := by
  rw [rd_version_dist_eq]
  by_cases h1 : peek (d.drop (strtoul d).2) = 46 ∧ v1.scm.toInt ≤ 0
  · rw [if_pos h1]; exact ⟨⟨fun _ => h1, fun _ => rfl⟩, Or.inl rfl⟩
  rw [if_neg h1]
  have key : ∀ x : Int × yuck_version_s, x.1 = 0 → ((x.1 = -1 ↔
      peek (d.drop (strtoul d).2) = 46 ∧ v1.scm.toInt ≤ 0) ∧ (x.1 = -1 ∨ x.1 = 0)) := by
    intro x hx
    rw [hx]
    exact ⟨⟨fun h => by omega, fun h => absurd h h1⟩, Or.inr rfl⟩
  apply key
  split_ifs <;> rfl

theorem getD_snoc_zero (l : List Nat) (n : Nat) (h : l.length ≤ n) :
    (l ++ [0]).getD n 0 = 0 := by
  rw [List.getD_eq_getElem?_getD, List.getElem?_append_right h]
  cases n - l.length <;> simp

theorem bang_vtag_tag_fields (v : yuck_version_s) (X : List Nat) (k : Nat) (hd : v.dist = 0) :
    (bang_vtag v (xstrlncpy 16 X k).1).dist = 0 ∧
    (bang_vtag v (xstrlncpy 16 X k).1).rvsn = v.rvsn ∧
    (bang_vtag v (xstrlncpy 16 X k).1).dirty = v.dirty ∧
    (bang_vtag v (xstrlncpy 16 X k).1).scm = v.scm := by
  refine ⟨?_, rfl, rfl, rfl⟩
  unfold bang_vtag xstrlncpy
  simp only [hd, show ¬ (16 : Nat) = 0 by decide, if_false]
  split_ifs with h1 h2
  · simp only [Nat.zero_mod, Nat.sub_zero, Nat.zero_add]
    exact getD_snoc_zero _ _ (by rw [List.length_take]; omega)
  · rfl
  · simp only [Nat.zero_mod, Nat.sub_zero, Nat.zero_add]
    exact getD_snoc_zero _ _ (by rw [List.length_take]; omega)
  · rfl

/-- The parser `rd_version` on a text with an admissible first byte, by the
marker or dash that ends the tag. -/
theorem rd_version_good (v : yuck_version_s) (buf : List Nat)
    (hgood : peek buf = 118 ∨ peek buf = 86 ∨ isdigit (peek buf) = true) :
    rd_version v buf =
      match first_occ (after_v buf) [46, 103, 105, 116] with
      | some k =>
        rd_version_dist (bang_vtag { v with scm := YUCK_SCM_GIT } (xstrlncpy 16 (after_v buf) k).1)
          ((after_v buf).drop (k + 4))
      | none =>
        match first_occ (after_v buf) [46, 98, 122, 114] with
        | some k =>
          rd_version_dist
            (bang_vtag { v with scm := YUCK_SCM_BZR } (xstrlncpy 16 (after_v buf) k).1)
            ((after_v buf).drop (k + 4))
        | none =>
          match first_occ (after_v buf) [46, 104, 103] with
          | some k =>
            rd_version_dist
              (bang_vtag { v with scm := YUCK_SCM_HG } (xstrlncpy 16 (after_v buf) k).1)
              ((after_v buf).drop (k + 3))
          | none =>
            match memchr (after_v buf) 45 with
            | some k =>
              rd_version_dist (bang_vtag v (xstrlncpy 16 (after_v buf) k).1)
                ((after_v buf).drop (k + 1))
            | none => (0, bang_vtag v (xstrlncpy 16 (after_v buf) (after_v buf).length).1) := by
  have hc : ¬ ¬ (peek buf = 118 ∨ peek buf = 86 ∨ isdigit (peek buf) = true) := not_not.2 hgood
  have hv : { v with scm := v.scm } = v := rfl
  unfold rd_version
  simp only [hc, if_false, xmemmem_eq_first_occ]
  rw [show (if peek buf = 118 ∨ peek buf = 86 then buf.drop 1 else buf) = after_v buf from rfl]
  rcases first_occ (after_v buf) [46, 103, 105, 116] with _ | k
  · rcases first_occ (after_v buf) [46, 98, 122, 114] with _ | k
    · rcases first_occ (after_v buf) [46, 104, 103] with _ | k
      · rcases memchr (after_v buf) 45 with _ | k
        · simp only [Option.getD_none, Option.map_none', hv]
        · simp only [Option.getD_some, Option.map_some', hv]
      · simp only []
    · simp only []
  · simp only []

/-- What the second half of `rd_version` leaves untouched. -/
theorem rd_version_dist_absent (v1 : yuck_version_s) (d : List Nat) :
    ((strtoul d).2 = 0 → (rd_version_dist v1 d).2.dist = 0) ∧
    (peek (d.drop (strtoul d).2) ≠ 45 → peek (d.drop (strtoul d).2) ≠ 46 →
      (rd_version_dist v1 d).2.rvsn = v1.rvsn ∧ (rd_version_dist v1 d).2.dirty = v1.dirty) ∧
    ((rd_version_dist v1 d).2.rvsn = v1.rvsn ∨
      ∃ bp, bp <:+ d ∧ (rd_version_dist v1 d).2.rvsn = (hextou bp).1 ∧
        (hexval (peek bp) = none → (rd_version_dist v1 d).2.rvsn = 0)) ∧
    ((rd_version_dist v1 d).2.dirty = v1.dirty ∨
      ∃ bp, bp <:+ d ∧ dirty_ahead bp = true ∧ (rd_version_dist v1 d).2.dirty = 1) := by
  rw [rd_version_dist_eq]
  have hsuf1 : ((d.drop (strtoul d).2).drop 1) <:+ d :=
    (List.drop_suffix _ _).trans (List.drop_suffix _ _)
  by_cases h1 : peek (d.drop (strtoul d).2) = 46 ∧ v1.scm.toInt ≤ 0
  · rw [if_pos h1]
    refine ⟨fun h => ?_, fun _ _ => ⟨rfl, rfl⟩, Or.inl rfl, Or.inl rfl⟩
    simp [strtoul_none d h]
  rw [if_neg h1]
  by_cases h2 : peek (d.drop (strtoul d).2) ≠ 46 ∧ peek (d.drop (strtoul d).2) ≠ 45
  · rw [if_pos h2]
    refine ⟨fun h => ?_, fun _ _ => ⟨rfl, rfl⟩, Or.inl rfl, Or.inl rfl⟩
    simp [strtoul_none d h]
  rw [if_neg h2]
  rcases hsw : (if peek ((d.drop (strtoul d).2).drop 1) = 103 then
            some (YUCK_SCM_GIT, ((d.drop (strtoul d).2).drop 1).drop 1)
          else if peek ((d.drop (strtoul d).2).drop 1) = 104 then
            some (YUCK_SCM_HG, ((d.drop (strtoul d).2).drop 1).drop 1)
          else if peek ((d.drop (strtoul d).2).drop 1) = 98 ∧ v1.scm.toInt ≤ 0 then
            some (YUCK_SCM_BZR, ((d.drop (strtoul d).2).drop 1).drop 1)
          else if 0 < v1.scm.toInt then some (v1.scm, (d.drop (strtoul d).2).drop 1)
          else none : Option (yuck_scm_t × List Nat)) with _ | ⟨scm, bp1⟩
  · refine ⟨fun h => ?_, fun _ _ => ⟨rfl, rfl⟩, Or.inl rfl, Or.inl rfl⟩
    simp [strtoul_none d h]
  · have hbp : bp1 <:+ d := by
      split_ifs at hsw <;> simp only [Option.some.injEq, Prod.mk.injEq] at hsw <;>
        obtain ⟨_, rfl⟩ := hsw
      · exact (List.drop_suffix _ _).trans hsuf1
      · exact (List.drop_suffix _ _).trans hsuf1
      · exact (List.drop_suffix _ _).trans hsuf1
      · exact hsuf1
    refine ⟨fun h => ?_, fun a b => ?_, Or.inr ⟨bp1, hbp, rfl, fun hn => ?_⟩, ?_⟩
    · simp [strtoul_none d h]
    · exact absurd ⟨b, a⟩ h2
    · simp [hextou_no_digit bp1 hn]
    · by_cases hd : dirty_ahead (bp1.drop (hextou bp1).2) = true
      · exact Or.inr ⟨_, (List.drop_suffix _ _).trans hbp, hd, by simp [hd]⟩
      · exact Or.inl (by simp [hd])

theorem drop_succ_append_cons (t r : List Nat) (c : Nat) : (t ++ c :: r).drop (t.length + 1) = r := by
  have : t ++ c :: r = (t ++ [c]) ++ r := by simp
  rw [this]
  exact drop_app _ _ _ (by simp)

/-- C21: on a zero-initialised record `rd_version` fails exactly when the
first byte of the text is not `v`, `V` or a decimal digit, or when no marker
`.git`, `.bzr`, `.hg` occurs, a dash ends the tag and the byte at which
`strtoul` stops reading the distance is a dot; on every other text it returns
0.  On a text with an admissible first byte the parser either returns with
the tag alone or runs its second half on a record whose distance, revision
and dirty flag are 0; without marker and dash all three stay 0; the second
half yields distance 0 when `strtoul` reads no digit, leaves revision and
dirty flag alone when the distance is not followed by a dash or dot, yields
revision 0 unless a hexadecimal digit stands at the revision, and sets dirty
to 1 only in front of `-dirty` or `.dirty`. -/
theorem rd_version_failure_conditions (buf : List Nat) :
    ((rd_version yuck_version_zero buf).1 = -1 ↔
      ¬ (peek buf = 118 ∨ peek buf = 86 ∨ isdigit (peek buf) = true) ∨
      (¬ [46, 103, 105, 116] <:+: after_v buf ∧ ¬ [46, 98, 122, 114] <:+: after_v buf ∧
        ¬ [46, 104, 103] <:+: after_v buf ∧
        ∃ t r, 45 ∉ t ∧ after_v buf = t ++ 45 :: r ∧ peek (r.drop (strtoul r).2) = 46)) ∧
    ((rd_version yuck_version_zero buf).1 = -1 ∨ (rd_version yuck_version_zero buf).1 = 0) ∧
    ((peek buf = 118 ∨ peek buf = 86 ∨ isdigit (peek buf) = true) →
      ∃ v1 : yuck_version_s, v1.dist = 0 ∧ v1.rvsn = 0 ∧ v1.dirty = 0 ∧
        (rd_version yuck_version_zero buf = (0, v1) ∨
          ∃ d, d <:+ buf ∧ rd_version yuck_version_zero buf = rd_version_dist v1 d)) ∧
    ((peek buf = 118 ∨ peek buf = 86 ∨ isdigit (peek buf) = true) →
      ¬ [46, 103, 105, 116] <:+: after_v buf → ¬ [46, 98, 122, 114] <:+: after_v buf →
      ¬ [46, 104, 103] <:+: after_v buf → 45 ∉ after_v buf →
      (rd_version yuck_version_zero buf).1 = 0 ∧
      (rd_version yuck_version_zero buf).2.dist = 0 ∧
      (rd_version yuck_version_zero buf).2.rvsn = 0 ∧
      (rd_version yuck_version_zero buf).2.dirty = 0) ∧
    (∀ (v1 : yuck_version_s) (d : List Nat),
      ((strtoul d).2 = 0 → (rd_version_dist v1 d).2.dist = 0) ∧
      (peek (d.drop (strtoul d).2) ≠ 45 → peek (d.drop (strtoul d).2) ≠ 46 →
        (rd_version_dist v1 d).2.rvsn = v1.rvsn ∧ (rd_version_dist v1 d).2.dirty = v1.dirty) ∧
      ((rd_version_dist v1 d).2.rvsn = v1.rvsn ∨
        ∃ bp, bp <:+ d ∧ (rd_version_dist v1 d).2.rvsn = (hextou bp).1 ∧
          (hexval (peek bp) = none → (rd_version_dist v1 d).2.rvsn = 0)) ∧
      ((rd_version_dist v1 d).2.dirty = v1.dirty ∨
        ∃ bp, bp <:+ d ∧ dirty_ahead bp = true ∧ (rd_version_dist v1 d).2.dirty = 1)) := by
  have hsufX : after_v buf <:+ buf := by
    unfold after_v
    split_ifs
    · exact List.drop_suffix _ _
    · exact List.suffix_refl _
  have hz : ∀ (s : yuck_scm_t) (k : Nat),
      (bang_vtag { yuck_version_zero with scm := s } (xstrlncpy 16 (after_v buf) k).1).dist = 0 ∧
      (bang_vtag { yuck_version_zero with scm := s } (xstrlncpy 16 (after_v buf) k).1).rvsn = 0 ∧
      (bang_vtag { yuck_version_zero with scm := s } (xstrlncpy 16 (after_v buf) k).1).dirty = 0 ∧
      (bang_vtag { yuck_version_zero with scm := s } (xstrlncpy 16 (after_v buf) k).1).scm = s :=
    fun s k => bang_vtag_tag_fields { yuck_version_zero with scm := s } (after_v buf) k rfl
  have hmark : ∀ (s : yuck_scm_t) (k d : Nat) (m : List Nat), 0 < s.toInt → m <:+: after_v buf →
      (m = [46, 103, 105, 116] ∨ m = [46, 98, 122, 114] ∨ m = [46, 104, 103]) →
      ¬ ((rd_version_dist
          (bang_vtag { yuck_version_zero with scm := s } (xstrlncpy 16 (after_v buf) k).1)
          ((after_v buf).drop d)).1 = -1) ∧
      ¬ (¬ (peek buf = 118 ∨ peek buf = 86 ∨ isdigit (peek buf) = true) ∨
        (¬ [46, 103, 105, 116] <:+: after_v buf ∧ ¬ [46, 98, 122, 114] <:+: after_v buf ∧
          ¬ [46, 104, 103] <:+: after_v buf ∧
          ∃ t r, 45 ∉ t ∧ after_v buf = t ++ 45 :: r ∧ peek (r.drop (strtoul r).2) = 46)) ∨
      ¬ (peek buf = 118 ∨ peek buf = 86 ∨ isdigit (peek buf) = true) := by
    intro s k d m hs hm hmm
    by_cases hgood : peek buf = 118 ∨ peek buf = 86 ∨ isdigit (peek buf) = true
    · left
      constructor
      · rw [(rd_version_dist_code _ _).1, (hz s k).2.2.2]
        intro h; omega
      · rintro (h | ⟨h1, h2, h3, _⟩)
        · exact h hgood
        · rcases hmm with e | e | e <;> subst e
          · exact h1 hm
          · exact h2 hm
          · exact h3 hm
    · exact Or.inr hgood
  have hE := rd_version_dist_absent
  by_cases hgood : peek buf = 118 ∨ peek buf = 86 ∨ isdigit (peek buf) = true
  swap
  · have hr : rd_version yuck_version_zero buf = (-1, yuck_version_zero) := by
      unfold rd_version
      simp only [hgood, not_false_eq_true, if_true]
    rw [hr]
    exact ⟨⟨fun _ => Or.inl hgood, fun _ => rfl⟩, Or.inl rfl, fun h => absurd h hgood,
      fun h => absurd h hgood, hE⟩
  rw [rd_version_good _ buf hgood]
  rcases hg : first_occ (after_v buf) [46, 103, 105, 116] with _ | k
  swap
  · have hin : [46, 103, 105, 116] <:+: after_v buf := by
      by_contra hc
      rw [(first_occ_eq_none_iff _ _).2 hc] at hg
      cases hg
    simp only []
    have hm := hmark YUCK_SCM_GIT k (k + 4) _ (by decide) hin (Or.inl rfl)
    rcases hm with ⟨hm1, hm2⟩ | hm
    swap
    · exact absurd hgood hm
    refine ⟨⟨fun h => absurd h hm1, fun h => absurd h hm2⟩, (rd_version_dist_code _ _).2,
      fun _ => ⟨_, (hz _ k).1, (hz _ k).2.1, (hz _ k).2.2.1,
        Or.inr ⟨_, (List.drop_suffix _ _).trans hsufX, rfl⟩⟩,
      fun _ h => absurd hin h, hE⟩
  have hgn := (first_occ_eq_none_iff _ _).1 hg
  rcases hb : first_occ (after_v buf) [46, 98, 122, 114] with _ | k
  swap
  · have hin : [46, 98, 122, 114] <:+: after_v buf := by
      by_contra hc
      rw [(first_occ_eq_none_iff _ _).2 hc] at hb
      cases hb
    simp only []
    have hm := hmark YUCK_SCM_BZR k (k + 4) _ (by decide) hin (Or.inr (Or.inl rfl))
    rcases hm with ⟨hm1, hm2⟩ | hm
    swap
    · exact absurd hgood hm
    refine ⟨⟨fun h => absurd h hm1, fun h => absurd h hm2⟩, (rd_version_dist_code _ _).2,
      fun _ => ⟨_, (hz _ k).1, (hz _ k).2.1, (hz _ k).2.2.1,
        Or.inr ⟨_, (List.drop_suffix _ _).trans hsufX, rfl⟩⟩,
      fun _ _ h => absurd hin h, hE⟩
  have hbn := (first_occ_eq_none_iff _ _).1 hb
  rcases hh : first_occ (after_v buf) [46, 104, 103] with _ | k
  swap
  · have hin : [46, 104, 103] <:+: after_v buf := by
      by_contra hc
      rw [(first_occ_eq_none_iff _ _).2 hc] at hh
      cases hh
    simp only []
    have hm := hmark YUCK_SCM_HG k (k + 3) _ (by decide) hin (Or.inr (Or.inr rfl))
    rcases hm with ⟨hm1, hm2⟩ | hm
    swap
    · exact absurd hgood hm
    refine ⟨⟨fun h => absurd h hm1, fun h => absurd h hm2⟩, (rd_version_dist_code _ _).2,
      fun _ => ⟨_, (hz _ k).1, (hz _ k).2.1, (hz _ k).2.2.1,
        Or.inr ⟨_, (List.drop_suffix _ _).trans hsufX, rfl⟩⟩,
      fun _ _ _ h => absurd hin h, hE⟩
  have hhn := (first_occ_eq_none_iff _ _).1 hh
  have hz0 := fun k => bang_vtag_tag_fields yuck_version_zero (after_v buf) k rfl
  rcases hm : memchr (after_v buf) 45 with _ | k
  · have h45 : 45 ∉ after_v buf := memchr_eq_none _ _ hm
    refine ⟨⟨fun h => by simp at h, ?_⟩, Or.inr rfl,
      fun _ => ⟨_, (hz0 _).1, (hz0 _).2.1, (hz0 _).2.2.1, Or.inl rfl⟩,
      fun _ _ _ _ _ => ⟨rfl, (hz0 _).1, (hz0 _).2.1, (hz0 _).2.2.1⟩, hE⟩
    rintro (h | ⟨_, _, _, t, r, _, e, _⟩)
    · exact absurd hgood h
    · exfalso; apply h45; rw [e]; simp
  · simp only []
    obtain ⟨pre, rest, e, hpre, hlen⟩ := memchr_some _ _ _ hm
    have hdrop : (after_v buf).drop (k + 1) = rest := by
      rw [e, ← hlen]; exact drop_succ_append_cons pre rest 45
    rw [hdrop]
    refine ⟨?_, (rd_version_dist_code _ _).2,
      fun _ => ⟨_, (hz0 k).1, (hz0 k).2.1, (hz0 k).2.2.1,
        Or.inr ⟨rest, ?_, rfl⟩⟩,
      fun _ _ _ _ h => ?_, hE⟩
    · rw [(rd_version_dist_code _ _).1, (hz0 k).2.2.2]
      constructor
      · intro h
        exact Or.inr ⟨hgn, hbn, hhn, pre, rest, hpre, e, h.1⟩
      · rintro (h | ⟨_, _, _, t, r, ht, e2, hp⟩)
        · exact absurd hgood h
        · have h1 := memchr_append t r 45 ht
          rw [← e2, hm] at h1
          have hk : k = t.length := by simpa using h1
          have hr : rest = r := by
            rw [← hdrop, e2, hk]; exact drop_succ_append_cons t r 45
          rw [hr]
          exact ⟨hp, by decide⟩
    · rw [← hdrop]; exact (List.drop_suffix _ _).trans hsufX
    · exfalso; apply h; rw [e]; simp


/-! ## C22: the record of `git_version` through the codec -/

theorem memcmp_self (p : List Nat) (n : Nat) : memcmp p p n = 0 := by
  have := memcmp_antisymm p p n
  omega

theorem yuck_version_cmp_self (v : yuck_version_s) : yuck_version_cmp v v = 0 := by
  unfold yuck_version_cmp
  split_ifs <;> exact memcmp_self _ _

/-- A Git record with a distance and a revision of 1 to 7 digits,
written and read back. -/
theorem git_record_reparse (tag hs : List Nat) (d y : Nat)
    (htl : tag.length ≤ 15) (h0 : 0 ∉ tag) (h45 : 45 ∉ tag)
    (hg : ¬ [46, 103, 105, 116] <:+: tag) (hb : ¬ [46, 98, 122, 114] <:+: tag)
    (hh : ¬ [46, 104, 103] <:+: tag) (hd1 : 1 ≤ d) (hd : d < 2 ^ 32)
    (hhs : 1 ≤ hs.length ∧ hs.length ≤ 7) (hlow : ∀ c ∈ hs, islowerhex c = true)
    (hy : y = 0 ∨ y = 1) :
    wr_text ⟨YUCK_SCM_GIT, tag_field tag, d, hexnum hs * 16 + hs.length, y⟩ =
      some (118 :: (tag ++ 45 :: (fmt_u d ++ 45 :: 103 ::
        (hs ++ if y = 0 then [] else [45, 100, 105, 114, 116, 121])))) ∧
    rd_version yuck_version_zero (118 :: (tag ++ 45 :: (fmt_u d ++ 45 :: 103 ::
        (hs ++ if y = 0 then [] else [45, 100, 105, 114, 116, 121])))) =
      (0, ⟨YUCK_SCM_GIT, tag_field tag, d, hexnum hs * 16 + hs.length, y⟩) := by
  obtain ⟨hd1', hd2, hd3, hd4⟩ := fmt_u_spec d hd
  have hV := hexnum_lt hs
  have hV28 : hexnum hs < 2 ^ 28 := by
    have : (16 : Nat) ^ hs.length ≤ 16 ^ 7 := Nat.pow_le_pow_right (by norm_num) hhs.2
    omega
  have hwd : (hexnum hs * 16 + hs.length) &&& 7 = hs.length := pack_width _ _ (by omega)
  have hvl : (hexnum hs * 16 + hs.length) >>> 4 = hexnum hs := pack_value _ _ (by omega)
  have hx : fmt_0x hs.length (hexnum hs) = hs := by
    rw [fmt_0x_eq_hexfix _ _ hhs.1 (by omega) hV, hexfix_hexnum hs hlow]
  have hne : hs ≠ [] := by intro e; rw [e] at hhs; simp at hhs
  have hhx : ∀ c ∈ hs, (hexval c).isSome = true := fun c hc => islowerhex_isSome c (hlow c hc)
  have htag : tag_of ⟨YUCK_SCM_GIT, tag_field tag, d, hexnum hs * 16 + hs.length, y⟩ = tag :=
    takeWhile_tag_field tag h0 htl
  have hwt : wire_text ⟨YUCK_SCM_GIT, tag_field tag, d, hexnum hs * 16 + hs.length, y⟩ =
      118 :: (tag ++ 45 :: (fmt_u d ++ 45 :: 103 ::
        (hs ++ if y = 0 then [] else [45, 100, 105, 114, 116, 121]))) := by
    have h1 : ¬ d = 0 := by omega
    have h2 : ¬ (hexnum hs * 16 + hs.length = 0) := by omega
    have h3 : ¬ YUCK_SCM_GIT.toInt ≤ 0 := by decide
    simp only [wire_text, wire_rev, htag, h1, h2, h3, or_self, if_false, hwd, hvl, hx,
      scm_letter]
    simp
  refine ⟨?_, ?_⟩
  · rw [wr_text_eq _ (tag_field_length tag (by omega)) hd (show hexnum hs * 16 + hs.length < 2 ^ 32
      by omega) (tag_field_mem_zero tag htl), hwt]
  · rw [rd_version_primary tag (fmt_u d) hs _ 103 htl h45 hg hb hh hd3 hd2
      (by rw [hd1']; exact hd) (Or.inl rfl) hne hhx
      (by rcases hy with h | h <;> subst h <;> simp),
      List.take_of_length_le hhs.2, hd1', Nat.min_eq_right hhs.2]
    rcases hy with h | h <;> subst h <;> simp [scm_of_letter]

theorem fmt_u_canonical (ds : List Nat) (hds : ds ≠ []) (hdd : ∀ c ∈ ds, isdigit c = true)
    (hlead : peek ds ≠ 48) (hval : decnum ds < 2 ^ 32) : fmt_u (decnum ds) = ds := by
  unfold fmt_u
  rw [Nat.mod_eq_of_lt hval]
  exact utoa_decnum ds 10 hds hdd (Or.inr hlead) (canonical_length ds hdd hlead hval)

set_option maxRecDepth 100000 in
/-- C22, as stated, fails for a distance that does not fit the 32-bit member
`dist`: from the line `v1.0.0-4294967296-g1a2b3c4` the extractor `git_version`
builds a record with distance 0 and the revision of the hash; `wr_version`
writes it as `v1.0.0`, and reading that back gives revision 0, not the record
written. -/
theorem git_reparse_loses_revision :
    git_version { yuck_version_zero with scm := YUCK_SCM_GIT } 1 (List.replicate 256 0)
        (bytes "v1.0.0-4294967296-g1a2b3c4\n") 0 =
      (0, ⟨YUCK_SCM_GIT, tag_field (bytes "1.0.0"), 0, (0x1a2b3c4 <<< 4) ||| 7, 0⟩) ∧
    wr_text ⟨YUCK_SCM_GIT, tag_field (bytes "1.0.0"), 0, (0x1a2b3c4 <<< 4) ||| 7, 0⟩ =
      some (bytes "v1.0.0") ∧
    rd_version yuck_version_zero (bytes "v1.0.0") =
      (0, ⟨YUCK_SCM_TARBALL, tag_field (bytes "1.0.0"), 0, 0, 0⟩) ∧
    (rd_version yuck_version_zero (bytes "v1.0.0")).2 ≠
      ⟨YUCK_SCM_GIT, tag_field (bytes "1.0.0"), 0, (0x1a2b3c4 <<< 4) ||| 7, 0⟩ ∧
    bytes "v1.0.0" ≠ bytes "v1.0.0-4294967296-g1a2b3c4" := by
  decide

/-- C22, amended: let `git_version` read, in a zero-initialised record with scm
Git, a whole line `v<TAG>-<DIST>-g<HASH>[-dirty]` with its newline, of at most
256 bytes, with TAG of at most 15 bytes without NUL, `-` and marker, DIST a
string of decimal digits with a value from 1 to `2 ^ 32 - 1`, and HASH of one
or more lower-case hexadecimal digits.  Then `wr_version` writes the record
`r` it builds as a text that `rd_version` reads back, on a zero-initialised
record, with success and equal to `r` in every field; `yuck_version_cmp` of
the two is 0; and when DIST has no leading zero the text is the line with the
hash cut to its first 7 digits. -/
theorem git_live_persisted_agree (chld : Int) (buf0 tag ds hs : List Nat) (dirty : Bool)
    (hchld : 0 ≤ chld) (htl : tag.length ≤ 15) (h0 : 0 ∉ tag) (h45 : 45 ∉ tag)
    (hg : ¬ [46, 103, 105, 116] <:+: tag) (hb : ¬ [46, 98, 122, 114] <:+: tag)
    (hh : ¬ [46, 104, 103] <:+: tag)
    (hds : ds ≠ []) (hdd : ∀ c ∈ ds, isdigit c = true) (hd1 : 1 ≤ decnum ds)
    (hval : decnum ds < 2 ^ 32)
    (hhs : hs ≠ []) (hlow : ∀ c ∈ hs, islowerhex c = true)
    (hlen : (primary_text tag ds 103 hs dirty ++ [10]).length ≤ 256) :
    ∃ text,
      wr_text (git_version { yuck_version_zero with scm := YUCK_SCM_GIT } chld buf0
        (primary_text tag ds 103 hs dirty ++ [10]) 0).2 = some text ∧
      rd_version yuck_version_zero text =
        (0, (git_version { yuck_version_zero with scm := YUCK_SCM_GIT } chld buf0
          (primary_text tag ds 103 hs dirty ++ [10]) 0).2) ∧
      yuck_version_cmp (rd_version yuck_version_zero text).2
        (git_version { yuck_version_zero with scm := YUCK_SCM_GIT } chld buf0
          (primary_text tag ds 103 hs dirty ++ [10]) 0).2 = 0 ∧
      (peek ds ≠ 48 → text = primary_text tag ds 103 (hs.take 7) dirty) := by
  have hhx : ∀ c ∈ hs, (hexval c).isSome = true := fun c hc => islowerhex_isSome c (hlow c hc)
  have e : primary_text tag ds 103 hs dirty ++ [10] =
      118 :: (tag ++ 45 :: (ds ++ 45 :: 103 :: (hs ++
        ((if dirty then [45, 100, 105, 114, 116, 121] else []) ++ [10])))) := by
    simp [primary_text]
  rw [e] at hlen ⊢
  rw [git_version_full_form chld buf0 tag ds hs dirty hchld h0 h45 hds hdd hval hhs hhx hlen]
  have ht : tag.take (if 16 < tag.length then 15 else 16) = tag := by
    rw [if_neg (by omega)]; exact List.take_of_length_le (by omega)
  have h7 : (hs.take 7).length = min 7 hs.length := List.length_take _ _
  have hpos : 0 < hs.length := List.length_pos.2 hhs
  have hlow7 : ∀ c ∈ hs.take 7, islowerhex c = true := fun c hc => hlow c (List.mem_of_mem_take hc)
  have hy : (if dirty then (1 : Nat) else 0) = 0 ∨ (if dirty then (1 : Nat) else 0) = 1 := by
    cases dirty <;> simp
  obtain ⟨hw, hr⟩ := git_record_reparse tag (hs.take 7) (decnum ds) (if dirty then 1 else 0)
    htl h0 h45 hg hb hh hd1 hval ⟨by omega, by omega⟩ hlow7 hy
  simp only [ht, ← h7]
  refine ⟨_, hw, hr, ?_, ?_⟩
  · rw [hr]; exact yuck_version_cmp_self _
  · intro hlead
    rw [fmt_u_canonical ds hds hdd hlead hval]
    cases dirty <;> simp [primary_text]

theorem git_live_persisted_agree_witness :
    ∃ text,
      wr_text (git_version { yuck_version_zero with scm := YUCK_SCM_GIT } 4711
        (List.replicate 256 170)
        (primary_text (bytes "1.0.0") (bytes "3") 103 (bytes "1a2b3c4d") true ++ [10]) 0).2 =
          some text ∧
      rd_version yuck_version_zero text =
        (0, (git_version { yuck_version_zero with scm := YUCK_SCM_GIT } 4711
          (List.replicate 256 170)
          (primary_text (bytes "1.0.0") (bytes "3") 103 (bytes "1a2b3c4d") true ++ [10]) 0).2) ∧
      yuck_version_cmp (rd_version yuck_version_zero text).2
        (git_version { yuck_version_zero with scm := YUCK_SCM_GIT } 4711
          (List.replicate 256 170)
          (primary_text (bytes "1.0.0") (bytes "3") 103 (bytes "1a2b3c4d") true ++ [10]) 0).2 =
          0 ∧
      (peek (bytes "3") ≠ 48 →
        text = primary_text (bytes "1.0.0") (bytes "3") 103 ((bytes "1a2b3c4d").take 7) true) :=
  git_live_persisted_agree 4711 (List.replicate 256 170) (bytes "1.0.0") (bytes "3")
    (bytes "1a2b3c4d") true (by decide) (by decide) (by decide) (by decide) (by decide)
    (by decide) (by decide) (by decide) (by decide) (by decide) (by decide) (by decide)
    (by decide) (by decide)


/-! ## C23: `dt_io_unescape` -/

theorem esc_map_unescaped (d : Nat) :
    (if d < 97 ∨ 118 < d then d else esc_map.getD (d - 97) 0) = unescaped d := by
  by_cases h : d < 97 ∨ 118 < d
  · rw [if_pos h]
    unfold unescaped
    split_ifs <;> first | rfl | omega
  · rw [if_neg h]
    have h1 : 97 ≤ d := by omega
    have h2 : d ≤ 118 := by omega
    interval_cases d <;> rfl

theorem unescaped_ne_zero (d : Nat) (h : d ≠ 0) : unescaped d ≠ 0 := by
  unfold unescaped
  split_ifs <;> omega

/-- The loop of `dt_io_unescape` on a string `s` with its terminator: it
stores the text C23 describes and stops at the terminator, unless `s` ends in
an unpaired backslash; then it stores a NUL and goes on behind the
terminator. -/
theorem dt_io_unescape_loop_spec (beyond : List Nat) : ∀ n (s : List Nat), s.length ≤ n → 0 ∉ s →
    dt_io_unescape_loop (s ++ 0 :: beyond) =
      if ends_unpaired s then
        (unescape_text s ++ 0 :: (dt_io_unescape_loop beyond).1,
          s.length + 1 + (dt_io_unescape_loop beyond).2)
      else (unescape_text s, s.length) := by
  intro n
  induction n with
  | zero =>
    intro s hl _
    have : s = [] := List.length_eq_zero.1 (by omega)
    subst this
    cases beyond <;> simp [dt_io_unescape_loop, ends_unpaired, unescape_text]
  | succ n ih =>
    intro s hl h0
    match s, hl, h0 with
    | [], _, _ => cases beyond <;> simp [dt_io_unescape_loop, ends_unpaired, unescape_text]
    | [c], _, h0 =>
      have hc : c ≠ 0 := by intro e; apply h0; simp [e]
      have hz : dt_io_unescape_loop (0 :: beyond) = ([], 0) := by
        cases beyond <;> simp [dt_io_unescape_loop]
      by_cases h92 : c = 92
      · subst h92
        simp [dt_io_unescape_loop, ends_unpaired, unescape_text]
        omega
      · simp [dt_io_unescape_loop, ends_unpaired, unescape_text, hc, h92, hz]
    | c :: d :: rest, hl, h0 =>
      have hc : c ≠ 0 := by intro e; apply h0; simp [e]
      have hd : d ≠ 0 := by intro e; apply h0; simp [e]
      have h0r : 0 ∉ rest := by intro e; apply h0; simp [e]
      have h0d : 0 ∉ d :: rest := by intro e; apply h0; simp at e ⊢; tauto
      simp only [List.length_cons] at hl
      by_cases h92 : c = 92
      · subst h92
        have := ih rest (by omega) h0r
        simp only [List.cons_append, dt_io_unescape_loop, hd, if_false, esc_map_unescaped,
          this, ends_unpaired, unescape_text, if_true, ne_eq, not_true_eq_false,
          show ¬ (92 : Nat) = 0 by decide]
        split_ifs with hu
        all_goals simp [this, hu]
        all_goals omega
      · have := ih (d :: rest) (by simp; omega) h0d
        rw [List.cons_append] at this
        simp only [List.cons_append, dt_io_unescape_loop, hc, h92, if_false, ne_eq,
          not_false_eq_true, if_true, this, ends_unpaired, unescape_text]
        split_ifs with hu
        all_goals simp [this, hu]
        all_goals omega

theorem unescape_text_plain (t w : List Nat) (h : 92 ∉ t) :
    unescape_text (t ++ w) = t ++ unescape_text w ∧
    ends_unpaired (t ++ w) = ends_unpaired w := by
  induction t with
  | nil => exact ⟨rfl, rfl⟩
  | cons c t ih =>
    simp only [List.mem_cons, not_or] at h
    have hc : ¬ c = 92 := fun e => h.1 e.symm
    obtain ⟨i1, i2⟩ := ih h.2
    cases hw : t ++ w with
    | nil =>
      have ht : t = [] := (List.append_eq_nil.1 hw).1
      have hw2 : w = [] := (List.append_eq_nil.1 hw).2
      subst ht; subst hw2
      simp [unescape_text, ends_unpaired, hc]
    | cons d rest =>
      rw [hw] at i1 i2
      rw [List.cons_append, hw]
      simp only [unescape_text, ends_unpaired, hc, if_false]
      rw [i1, i2]
      exact ⟨by simp, rfl⟩

theorem unescape_text_facts : ∀ n (s : List Nat), s.length ≤ n →
    (unescape_text s).length ≤ s.length ∧ (0 ∉ s → 0 ∉ unescape_text s) := by
  intro n
  induction n with
  | zero =>
    intro s hl
    have : s = [] := List.length_eq_zero.1 (by omega)
    subst this
    simp [unescape_text]
  | succ n ih =>
    intro s hl
    match s, hl with
    | [], _ => simp [unescape_text]
    | [c], _ =>
      by_cases h : c = 92
      · simp [unescape_text, h]
      · simp [unescape_text, h]
    | c :: d :: rest, hl =>
      simp only [List.length_cons] at hl
      by_cases h : c = 92
      · obtain ⟨a, b⟩ := ih rest (by omega)
        simp only [unescape_text, h, if_true, List.length_cons, List.mem_cons, not_or]
        refine ⟨by omega, fun h0 => ⟨?_, b h0.2.2⟩⟩
        exact fun e => unescaped_ne_zero d (fun e2 => h0.2.1 e2.symm) e.symm
      · obtain ⟨a, b⟩ := ih (d :: rest) (by simp; omega)
        simp only [unescape_text, h, if_false, List.length_cons, List.mem_cons, not_or] at a b ⊢
        exact ⟨by omega, fun h0 => ⟨h0.1, b ⟨h0.2.1, h0.2.2⟩⟩⟩

theorem store_takeWhile (t out rest mem : List Nat) (n : Nat) (hn : n = t.length)
    (hm : t <+: mem) (ht : 0 ∉ t) (ho : 0 ∉ out) :
    (store mem n (out ++ 0 :: rest)).takeWhile (· ≠ 0) = t ++ out := by
  subst hn
  obtain ⟨r, rfl⟩ := hm
  have e : store (t ++ r) t.length (out ++ 0 :: rest) =
      (t ++ out) ++ 0 :: (rest ++ (t ++ r).drop (t.length + (out ++ 0 :: rest).length)) := by
    simp [store, List.take_append_eq_append_take]
  rw [e]
  exact takeWhile_run (fun c => decide (c ≠ 0)) (t ++ out) _
    (by
      intro c hc
      simp only [decide_eq_true_eq]
      intro e0; subst e0
      rcases List.mem_append.1 hc with h | h
      · exact ht h
      · exact ho h)
    (by simp [peek])

/-- C23: for every string `s` (without NUL) followed in memory by its
terminator and any bytes `beyond`, `dt_io_unescape` leaves at `s` the string
C23 describes (each backslash with the character behind it replaced by what
that character stands for, a final unpaired backslash dropped, every other
byte kept, never longer than `s`), and leaves the memory as it is when `s`
has no backslash.  The scan ends at the terminator (offset `strlen(s)`) unless
`s` ends in an unpaired backslash: then the cursor steps over the terminator
and the loop goes on through `beyond`, against what C23 says of such
inputs. -/
theorem dt_io_unescape_scan (s beyond : List Nat) (h0 : 0 ∉ s) :
    (dt_io_unescape (s ++ 0 :: beyond)).1.takeWhile (· ≠ 0) = unescape_text s ∧
    (unescape_text s).length ≤ s.length ∧
    (92 ∉ s → dt_io_unescape (s ++ 0 :: beyond) = (s ++ 0 :: beyond, s.length)) ∧
    (dt_io_unescape (s ++ 0 :: beyond)).2 =
      (if ends_unpaired s then s.length + 1 + (dt_io_unescape_loop beyond).2 else s.length) ∧
    (ends_unpaired s = true → strlen (s ++ 0 :: beyond) < (dt_io_unescape (s ++ 0 :: beyond)).2) := by
  have hlen := strlen_stops s beyond h0
  have key : (dt_io_unescape (s ++ 0 :: beyond)).1.takeWhile (· ≠ 0) = unescape_text s ∧
      (92 ∉ s → dt_io_unescape (s ++ 0 :: beyond) = (s ++ 0 :: beyond, s.length)) ∧
      (dt_io_unescape (s ++ 0 :: beyond)).2 =
        (if ends_unpaired s then s.length + 1 + (dt_io_unescape_loop beyond).2
          else s.length) := by
    by_cases h92 : 92 ∈ s
    · rcases hm : memchr s 92 with _ | k
      · exact absurd h92 (memchr_eq_none s 92 hm)
      obtain ⟨t, u, rfl, ht, -⟩ := memchr_some s 92 k hm
      have h0t : 0 ∉ t := fun e => h0 (by simp [e])
      have h0u : 0 ∉ 92 :: u := by
        intro e
        rcases List.mem_cons.1 e with e | e
        · cases e
        · exact h0 (by simp [e])
      have hmem : (t ++ 92 :: u) ++ 0 :: beyond = t ++ (92 :: u ++ 0 :: beyond) := by simp
      have hs : strchr (t ++ (92 :: u ++ 0 :: beyond)) 92 = some t.length :=
        strchr_found t _ 92 ht h0t
      have hd : (t ++ (92 :: u ++ 0 :: beyond)).drop t.length = (92 :: u) ++ 0 :: beyond :=
        List.drop_left _ _
      have hl := dt_io_unescape_loop_spec beyond (92 :: u).length (92 :: u) (le_refl _) h0u
      obtain ⟨p1, p2⟩ := unescape_text_plain t (92 :: u) ht
      have hU := (unescape_text_facts (92 :: u).length (92 :: u) (le_refl _)).2 h0u
      have hpre : t <+: t ++ (92 :: u ++ 0 :: beyond) := List.prefix_append _ _
      rw [hmem]
      refine ⟨?_, fun h => absurd h92 h, ?_⟩
      · unfold dt_io_unescape
        simp only [hs, hd, hl]
        rw [p1]
        by_cases hu : ends_unpaired (92 :: u) = true
        · simp only [hu, if_true]
          have e1 : unescape_text (92 :: u) ++ 0 :: (dt_io_unescape_loop beyond).1 ++ [0] =
              unescape_text (92 :: u) ++ 0 :: ((dt_io_unescape_loop beyond).1 ++ [0]) := by simp
          rw [e1]
          exact store_takeWhile t _ _ _ _ rfl hpre h0t hU
        · simp only [hu, Bool.false_eq_true, if_false]
          exact store_takeWhile t _ [] _ _ rfl hpre h0t hU
      · unfold dt_io_unescape
        simp only [hs, hd, hl, p2]
        by_cases hu : ends_unpaired (92 :: u) = true
        · simp only [hu, if_true, List.length_append, List.length_cons]; omega
        · simp only [hu, Bool.false_eq_true, if_false, List.length_append, List.length_cons]
    · have hs : strchr (s ++ 0 :: beyond) 92 = none := strchr_stops s beyond 92 h92 (by decide)
      obtain ⟨p1, p2⟩ := unescape_text_plain s [] h92
      rw [List.append_nil] at p1 p2
      have hr : dt_io_unescape (s ++ 0 :: beyond) = (s ++ 0 :: beyond, s.length) := by
        unfold dt_io_unescape
        simp only [hs, hlen]
      refine ⟨?_, fun _ => hr, ?_⟩
      · rw [hr, p1]
        simp only [unescape_text, List.append_nil]
        exact takeWhile_run (fun c => decide (c ≠ 0)) s (0 :: beyond)
          (by intro c hc; simp only [decide_eq_true_eq]; intro e; exact h0 (e ▸ hc))
          (by simp [peek])
      · rw [hr, p2]
        simp [ends_unpaired]
  refine ⟨key.1, (unescape_text_facts s.length s (le_refl _)).1, key.2.1, key.2.2, ?_⟩
  intro hu
  rw [key.2.2, hlen, hu]
  simp only [if_true]
  omega

set_option maxRecDepth 100000 in
theorem dt_io_unescape_scan_witness :
    ends_unpaired (bytes "a\\") = true ∧
    strlen (bytes "a\\" ++ 0 :: (bytes "XY" ++ [0])) <
      (dt_io_unescape (bytes "a\\" ++ 0 :: (bytes "XY" ++ [0]))).2 ∧
    dt_io_unescape (bytes "a\\" ++ 0 :: (bytes "XY" ++ [0])) =
      (bytes "a" ++ 0 :: (bytes "XY" ++ [0, 0]), 5) ∧
    dt_io_unescape (bytes "a\\tb" ++ 0 :: (bytes "XY" ++ [0])) =
      (bytes "a\tb" ++ 0 :: 0 :: (bytes "XY" ++ [0]), 4) :=
  ⟨by decide,
   (dt_io_unescape_scan (bytes "a\\") (bytes "XY" ++ [0]) (by decide)).2.2.2.2 (by decide),
   by decide, by decide⟩

end Yuck
